import Mathlib

set_option maxRecDepth 8192

/-!
Shallow embedding of the undirected-graph library in
src/lib/representations.py and src/lib/graph.py.

Modelling conventions:
* vertices are 1-based naturals, `N = num_vertices` is fixed at construction;
* a Python dict keyed by vertices is a function `Nat → Option α`
  (`none` = key absent; assignment inserts the key);
* a Python set of ints is a duplicate-free `List Nat` with a
  membership-checked insert (`setAdd`); only membership, size and
  enumeration are ever used on it;
* Python exceptions are an explicit `GraphError` value: the `ValueError`
  raised by a bounds check is `outOfRange`, the `ValueError` raised at
  construction is `invalidConfiguration`, and a failed dict lookup is
  `keyError`;
* the unbounded `while` loops of the traversals are fuel recursion; the
  fuel `2 * N + 1` dominates the loop measure `2·(unvisited) + |queue|`,
  so the cut-off branch is never taken (proved for BFS, where it matters).
-/

/-- Exceptions raised by the core: the spec's OutOfRange and
InvalidConfiguration (both `ValueError` in the source) and Python's
`KeyError` from looking up an absent dict key. -/
inductive GraphError where
  | outOfRange
  | invalidConfiguration
  | keyError
deriving DecidableEq

/-- `set.add` on a Python set modelled as a duplicate-free list. -/
def setAdd (s : List Nat) (x : Nat) : List Nat :=
  if x ∈ s then s else s ++ [x]

/-- Insert `x` into a list sorted by key in decreasing order, before the
first element whose key is ≤ the key of `x` (so earlier elements win ties). -/
def insertDescBy (k : α → Nat) (x : α) : List α → List α
  | [] => [x]
  | y :: ys => if k y ≤ k x then x :: y :: ys else y :: insertDescBy k x ys

/-- Python `sorted(l, key=k, reverse=True)`: a stable descending sort.
Insertion sort with ties kept in input order computes the same list as any
stable sort, in particular as Python's. -/
def sortDescBy (k : α → Nat) : List α → List α
  | [] => []
  | x :: xs => insertDescBy k x (sortDescBy k xs)

/-- Insert into an ascending list of naturals. -/
def insertAsc (x : Nat) : List Nat → List Nat
  | [] => [x]
  | y :: ys => if x ≤ y then x :: y :: ys else y :: insertAsc x ys

/-- Python `sorted(l)` on a list of ints. -/
def sortAsc : List Nat → List Nat
  | [] => []
  | x :: xs => insertAsc x (sortAsc xs)

/-! ## src/lib/representations.py -/

/-- `AdjacencyList`: `_adj` maps each vertex to its neighbor set (the dict is
created with keys `range(1, N+1)`; our total function returns `[]` off those
keys, which are only ever read through the bounds-checked facade), plus the
`_edge_count` counter. -/
structure AdjacencyList where
  num_vertices : Nat
  adj : Nat → List Nat
  edge_count : Nat

def AdjacencyList.init (n : Nat) : AdjacencyList :=
  { num_vertices := n, adj := fun _ => [], edge_count := 0 }

/-- `AdjacencyList.add_edge`: if `v not in _adj[u]`, add `v` to `_adj[u]`,
add `u` to `_adj[v]` (a set add, hence idempotent for a self-loop), and
increment `_edge_count`. -/
def AdjacencyList.add_edge (r : AdjacencyList) (u v : Nat) : AdjacencyList :=
  if v ∈ r.adj u then r
  else
    let adj1 : Nat → List Nat := fun w => if w = u then setAdd (r.adj w) v else r.adj w
    let adj2 : Nat → List Nat := fun w => if w = v then setAdd (adj1 w) u else adj1 w
    { r with adj := adj2, edge_count := r.edge_count + 1 }

/-- `AdjacencyList.get_neighbors`: `list(self._adj[v])` — the stored set
enumerated in its internal (unspecified) order. -/
def AdjacencyList.get_neighbors (r : AdjacencyList) (v : Nat) : List Nat :=
  r.adj v

/-- `AdjacencyMatrix`: a symmetric 0/1 matrix indexed from 0, as a Boolean
function, plus the `_edge_count` counter. -/
structure AdjacencyMatrix where
  num_vertices : Nat
  matrix : Nat → Nat → Bool
  edge_count : Nat

def AdjacencyMatrix.init (n : Nat) : AdjacencyMatrix :=
  { num_vertices := n, matrix := fun _ _ => false, edge_count := 0 }

/-- `AdjacencyMatrix.add_edge`: shift to 0-based indices; if the cell is 0,
set both `(u-1, v-1)` and `(v-1, u-1)` and increment `_edge_count`. -/
def AdjacencyMatrix.add_edge (r : AdjacencyMatrix) (u v : Nat) : AdjacencyMatrix :=
  let ui := u - 1
  let vi := v - 1
  if r.matrix ui vi = false then
    { r with
      matrix := fun i j =>
        if (i = ui ∧ j = vi) ∨ (i = vi ∧ j = ui) then true else r.matrix i j
      edge_count := r.edge_count + 1 }
  else r

/-- `AdjacencyMatrix.get_neighbors`: `np.nonzero(self._matrix[v-1])` yields
the indices of the set cells in ascending order, shifted back to 1-based. -/
def AdjacencyMatrix.get_neighbors (r : AdjacencyMatrix) (v : Nat) : List Nat :=
  ((List.range r.num_vertices).filter (fun i => r.matrix (v - 1) i)).map (fun i => i + 1)

/-- The abstract base class `GraphRepresentation`. -/
class GraphRepresentation (ρ : Type) where
  init : Nat → ρ
  add_edge : ρ → Nat → Nat → ρ
  get_neighbors : ρ → Nat → List Nat
  edge_count : ρ → Nat

instance : GraphRepresentation AdjacencyList where
  init := AdjacencyList.init
  add_edge := AdjacencyList.add_edge
  get_neighbors := AdjacencyList.get_neighbors
  edge_count := AdjacencyList.edge_count

instance : GraphRepresentation AdjacencyMatrix where
  init := AdjacencyMatrix.init
  add_edge := AdjacencyMatrix.add_edge
  get_neighbors := AdjacencyMatrix.get_neighbors
  edge_count := AdjacencyMatrix.edge_count

/-! ## src/lib/graph.py -/

def GraphUtils.is_vertex_within_bounds (v num_vertices : Nat) : Bool :=
  decide (1 ≤ v) && decide (v ≤ num_vertices)

/-- The `Graph` facade: the vertex count, one representation instance, and
the lazily recomputed degree cache (`None` = invalid). -/
structure Graph (ρ : Type) where
  num_vertices : Nat
  representation : ρ
  all_degrees_cache : Option (List Nat)

/-- The constructor body after its positivity check. -/
def Graph.new (ρ : Type) [GraphRepresentation ρ] (n : Nat) : Graph ρ :=
  { num_vertices := n
    representation := GraphRepresentation.init n
    all_degrees_cache := none }

/-- The checked constructor: `num_vertices <= 0` raises the spec's
InvalidConfiguration error before any storage exists. -/
def Graph.mkChecked (ρ : Type) [GraphRepresentation ρ] (n : Nat) :
    Except GraphError (Graph ρ) :=
  if n = 0 then Except.error GraphError.invalidConfiguration
  else Except.ok (Graph.new ρ n)

/-- `Graph.add_edge`.  The pair result records the Python object state when
the call returns or raises: the bounds check precedes every mutation, so on
`outOfRange` the state is the input graph unchanged. -/
def Graph.add_edge [GraphRepresentation ρ] (g : Graph ρ) (u v : Nat) :
    Except GraphError Unit × Graph ρ :=
  if GraphUtils.is_vertex_within_bounds u g.num_vertices &&
      GraphUtils.is_vertex_within_bounds v g.num_vertices then
    (Except.ok (),
      { g with
        representation := GraphRepresentation.add_edge g.representation u v
        all_degrees_cache := none })
  else (Except.error GraphError.outOfRange, g)

/-- `Graph.get_neighbors`, with its bounds check. -/
def Graph.get_neighbors [GraphRepresentation ρ] (g : Graph ρ) (v : Nat) :
    Except GraphError (List Nat) :=
  if GraphUtils.is_vertex_within_bounds v g.num_vertices then
    Except.ok (GraphRepresentation.get_neighbors g.representation v)
  else Except.error GraphError.outOfRange

/-- Neighbor enumeration as the algorithm loops observe it.  They call the
facade `get_neighbors` only on the bounds-checked start vertex and on
dequeued vertices, which are stored neighbors and hence were validated into
`[1, N]` at insertion, so the facade check always passes and the raw
representation list is returned. -/
def Graph.nbrs [GraphRepresentation ρ] (g : Graph ρ) : Nat → List Nat :=
  fun u => GraphRepresentation.get_neighbors g.representation u

/-- `_calculate_all_degrees`: on a cache miss compute
`[len(get_neighbors(i)) for i in range(1, N+1)]` (each `i` is in bounds, so
the facade check passes) and store it. -/
def Graph.calculate_all_degrees [GraphRepresentation ρ] (g : Graph ρ) :
    List Nat × Graph ρ :=
  match g.all_degrees_cache with
  | some ds => (ds, g)
  | none =>
    let ds := (List.range g.num_vertices).map (fun i => (g.nbrs (i + 1)).length)
    (ds, { g with all_degrees_cache := some ds })

/-! ### Breadth-first search -/

/-- The two result dicts shared by BFS and DFS. -/
structure SearchMaps where
  parents : Nat → Option (Option Nat)
  levels : Nat → Option Int

structure BFSState where
  parents : Nat → Option (Option Nat)
  levels : Nat → Option Int
  queue : List Nat

/-- The body of one BFS dequeue: `for v in get_neighbors(u): if levels[v]
== -1: ...`.  The lookups `levels[v]` and `levels[u]` always find a key
(`u` was dequeued, `v` is a stored neighbor validated into `[1, N]`); the
`getD` default stands in for Python's KeyError and is dead code. -/
def bfsVisit (u : Nat) (nbrs_u : List Nat) (st : BFSState) : BFSState :=
  nbrs_u.foldl
    (fun st v =>
      if (st.levels v).getD 0 = -1 then
        { parents := fun w => if w = v then some (some u) else st.parents w
          levels := fun w => if w = v then some ((st.levels u).getD 0 + 1) else st.levels w
          queue := st.queue ++ [v] }
      else st)
    st

/-- The `while queue:` loop of breadth_first_search, with fuel. -/
def bfsLoop (nbrs : Nat → List Nat) : Nat → BFSState → BFSState
  | 0, st => st
  | fuel + 1, st =>
    match st.queue with
    | [] => st
    | u :: rest => bfsLoop nbrs fuel (bfsVisit u (nbrs u) { st with queue := rest })

/-- `breadth_first_search` after its bounds check: the parents and levels
dicts are created over keys `range(1, N+1)`, `levels[start] = 0` overwrites
the in-range start key, then the queue loop runs.  Each vertex is dequeued
at most once, so the fuel `2 * N + 1` is never exhausted. -/
def bfsRun (n : Nat) (nbrs : Nat → List Nat) (start : Nat) : BFSState :=
  bfsLoop nbrs (2 * n + 1)
    { parents := fun v => if 1 ≤ v ∧ v ≤ n then some none else none
      levels := fun v =>
        if v = start then some (0 : Int)
        else if 1 ≤ v ∧ v ≤ n then some (-1) else none
      queue := [start] }

def Graph.breadth_first_search [GraphRepresentation ρ] (g : Graph ρ)
    (start_vertex : Nat) : Except GraphError SearchMaps :=
  if GraphUtils.is_vertex_within_bounds start_vertex g.num_vertices then
    let st := bfsRun g.num_vertices g.nbrs start_vertex
    Except.ok { parents := st.parents, levels := st.levels }
  else Except.error GraphError.outOfRange

/-! ### Depth-first search -/

structure DFSState where
  parents : Nat → Option (Option Nat)
  levels : Nat → Option Int
  stack : List (Nat × Int)
  visited : List Nat

/-- The body of one DFS pop: neighbors of `u`, pre-sorted descending, are
checked against the visited set at push time. -/
def dfsVisit (u : Nat) (level : Int) (sorted_nbrs : List Nat) (st : DFSState) : DFSState :=
  sorted_nbrs.foldl
    (fun st v =>
      if v ∈ st.visited then st
      else
        { parents := fun w => if w = v then some (some u) else st.parents w
          levels := fun w => if w = v then some (level + 1) else st.levels w
          stack := (v, level + 1) :: st.stack
          visited := setAdd st.visited v })
    st

/-- The `while stack:` loop: pop `(u, level)` from the top and push its
unvisited neighbors in descending sorted order. -/
def dfsLoop (nbrs : Nat → List Nat) : Nat → DFSState → DFSState
  | 0, st => st
  | fuel + 1, st =>
    match st.stack with
    | [] => st
    | (u, level) :: rest =>
      dfsLoop nbrs fuel
        (dfsVisit u level (sortDescBy (fun x => x) (nbrs u)) { st with stack := rest })

/-- `depth_first_search` after its bounds check: dicts over `range(1, N+1)`,
`parents[start] = None` (already its value), `levels[start] = 0`, stack
`[(start, 0)]`, visited `{start}`. -/
def dfsRun (n : Nat) (nbrs : Nat → List Nat) (start : Nat) : DFSState :=
  dfsLoop nbrs (2 * n + 1)
    { parents := fun v => if 1 ≤ v ∧ v ≤ n then some none else none
      levels := fun v =>
        if v = start then some (0 : Int)
        else if 1 ≤ v ∧ v ≤ n then some (-1) else none
      stack := [(start, 0)]
      visited := [start] }

def Graph.depth_first_search [GraphRepresentation ρ] (g : Graph ρ)
    (start_vertex : Nat) : Except GraphError SearchMaps :=
  if 1 ≤ start_vertex ∧ start_vertex ≤ g.num_vertices then
    let st := dfsRun g.num_vertices g.nbrs start_vertex
    Except.ok { parents := st.parents, levels := st.levels }
  else Except.error GraphError.outOfRange

/-! ### Distance, diameter, components -/

/-- `get_distance`: run BFS from `u` (which bounds-checks `u`), then return
`levels[v]` — a raw dict lookup, raising KeyError when `v` is not a key. -/
def Graph.get_distance [GraphRepresentation ρ] (g : Graph ρ) (u v : Nat) :
    Except GraphError Int :=
  match g.breadth_first_search u with
  | Except.error e => Except.error e
  | Except.ok maps =>
    match maps.levels v with
    | some d => Except.ok d
    | none => Except.error GraphError.keyError

/-- Python `max` over a list of ints; the empty case stands in for the
`max()` exception and is dead here (`levels.values()` contains
`levels[start] = 0`). -/
def pyMaxInt : List Int → Int
  | [] => 0
  | x :: xs => xs.foldl max x

/-- `levels.values()`: the dict's keys are exactly `1..N` (created over
`range(1, N+1)` and updated only at stored neighbors), enumerated here in
key order. -/
def levelsValues (n : Nat) (levels : Nat → Option Int) : List Int :=
  (List.range n).filterMap (fun i => levels (i + 1))

/-- `get_diameter`: for each vertex run BFS (the bounds check passes:
`i + 1 ∈ [1, N]`), take `max(levels.values())`, and keep the running
maximum, starting from 0. -/
def Graph.get_diameter [GraphRepresentation ρ] (g : Graph ρ) : Int :=
  (List.range g.num_vertices).foldl
    (fun max_dist i =>
      let st := bfsRun g.num_vertices g.nbrs (i + 1)
      let current_max := pyMaxInt (levelsValues g.num_vertices st.levels)
      if max_dist < current_max then current_max else max_dist)
    0

structure FloodState where
  visited : List Nat
  component_nodes : List Nat
  queue : List Nat

/-- The inner neighbor loop of the component flood fill. -/
def floodVisit (nbrs_u : List Nat) (st : FloodState) : FloodState :=
  nbrs_u.foldl
    (fun st w =>
      if w ∈ st.visited then st
      else
        { visited := setAdd st.visited w
          component_nodes := setAdd st.component_nodes w
          queue := st.queue ++ [w] })
    st

/-- The `while queue:` loop of one flood fill, with fuel. -/
def floodLoop (nbrs : Nat → List Nat) : Nat → FloodState → FloodState
  | 0, st => st
  | fuel + 1, st =>
    match st.queue with
    | [] => st
    | u :: rest => floodLoop nbrs fuel (floodVisit (nbrs u) { st with queue := rest })

/-- One iteration of the outer loop of `get_connected_components`: the scan
vertex is `v = i + 1`; if it is unvisited, flood-fill from it (the shared
visited set gains `v` before the loop) and append
`{size: len(component_nodes), vertices: sorted(list(component_nodes))}`. -/
def componentsStep (nbrs : Nat → List Nat) (n : Nat)
    (acc : List Nat × List (Nat × List Nat)) (i : Nat) :
    List Nat × List (Nat × List Nat) :=
  let v := i + 1
  if v ∈ acc.1 then acc
  else
    let fl := floodLoop nbrs (2 * n + 1)
      { visited := setAdd acc.1 v, component_nodes := [v], queue := [v] }
    (fl.visited, acc.2 ++ [(fl.component_nodes.length, sortAsc fl.component_nodes)])

/-- `get_connected_components`: scan vertices in ascending order, flood-fill
from each unvisited one (the visited set is shared across floods), record
`{size, vertices: sorted list}` as a pair, and finally stable-sort by size
descending.  Components are modelled as `(size, vertices)` pairs. -/
def Graph.get_connected_components [GraphRepresentation ρ] (g : Graph ρ) :
    List (Nat × List Nat) :=
  let n := g.num_vertices
  sortDescBy (fun c => c.1)
    ((List.range n).foldl (componentsStep g.nbrs n) ([], [])).2

/-- A graph built by a sequence of `add_edge` calls.  A rejected call raises
before any mutation, so the caller's graph object after it is the returned
(unchanged) state. -/
def Graph.build (ρ : Type) [GraphRepresentation ρ] (n : Nat)
    (es : List (Nat × Nat)) : Graph ρ :=
  es.foldl (fun g e => (g.add_edge e.1 e.2).2) (Graph.new ρ n)

/-! ## Invariants and relations used by the verification -/

/-- Invariant of every reachable sparse-representation graph: the stored
vertex count matches the facade's, neighbor sets are duplicate-free, all
stored endpoints are in `[1, N]`, and adjacency is symmetric. -/
def GraphLWF (g : Graph AdjacencyList) : Prop :=
  g.representation.num_vertices = g.num_vertices ∧
  (∀ w, (g.representation.adj w).Nodup) ∧
  (∀ u v, v ∈ g.representation.adj u →
    (1 ≤ u ∧ u ≤ g.num_vertices) ∧ (1 ≤ v ∧ v ≤ g.num_vertices)) ∧
  (∀ u v, v ∈ g.representation.adj u ↔ u ∈ g.representation.adj v)

/-- Invariant of every reachable dense-representation graph: stored vertex
count consistent, all set cells inside the `N × N` square, and the matrix
symmetric. -/
def GraphMWF (g : Graph AdjacencyMatrix) : Prop :=
  g.representation.num_vertices = g.num_vertices ∧
  (∀ i j, g.representation.matrix i j = true →
    i < g.num_vertices ∧ j < g.num_vertices) ∧
  (∀ i j, g.representation.matrix i j = g.representation.matrix j i)

/-- The two representations, driven by the same insertion sequence, store
the same adjacency relation and the same edge count. -/
def ReprAgree (gl : Graph AdjacencyList) (gm : Graph AdjacencyMatrix) : Prop :=
  gl.num_vertices = gm.num_vertices ∧
  gl.representation.edge_count = gm.representation.edge_count ∧
  ∀ u v, 1 ≤ u → 1 ≤ v →
    (v ∈ gl.representation.adj u ↔ gm.representation.matrix (u - 1) (v - 1) = true)

/-- The number of stored self-loop edges of the sparse representation. -/
def selfLoopsL (g : Graph AdjacencyList) : Nat :=
  ((List.range g.num_vertices).filter
    (fun i => decide ((i + 1) ∈ g.representation.adj (i + 1)))).length

/-- The number of stored self-loop edges of the dense representation. -/
def selfLoopsM (g : Graph AdjacencyMatrix) : Nat :=
  ((List.range g.num_vertices).filter
    (fun i => g.representation.matrix i i)).length

/-- The degree-sum bookkeeping invariant of the sparse representation:
neighbor-set sizes over all vertices, plus one per self-loop, equal twice
the edge counter. -/
def HSL (g : Graph AdjacencyList) : Prop :=
  ((∑ w in Finset.Icc 1 g.num_vertices, (g.representation.adj w).length) +
    ((Finset.Icc 1 g.num_vertices).filter
      (fun w => w ∈ g.representation.adj w)).card) =
  2 * g.representation.edge_count

/-- Neighbor enumerations only produce vertices in `[1, N]` (true of every
built graph: endpoints are validated at insertion). -/
def NbrsWF (n : Nat) (nbrs : Nat → List Nat) : Prop :=
  ∀ u x, x ∈ nbrs u → 1 ≤ x ∧ x ≤ n

/-- Both result dicts of BFS keep their key set equal to `[1, N]`. -/
def BFSDom (n : Nat) (st : BFSState) : Prop :=
  (∀ v, (st.levels v).isSome ↔ (1 ≤ v ∧ v ≤ n)) ∧
  (∀ v, (st.parents v).isSome ↔ (1 ≤ v ∧ v ≤ n))

/-- Both result dicts of DFS keep their key set equal to `[1, N]`. -/
def DFSDom (n : Nat) (st : DFSState) : Prop :=
  (∀ v, (st.levels v).isSome ↔ (1 ≤ v ∧ v ≤ n)) ∧
  (∀ v, (st.parents v).isSome ↔ (1 ≤ v ∧ v ≤ n))

/-- The C10 shape of a search result: both dicts have key set exactly
`[1, N]`, the start vertex is present with parent `None` and level 0, and a
vertex other than the start has level -1 exactly when its parent is `None`
(so unreached vertices are present with parent `None` / level -1, and
parent `None` alone cannot distinguish the root from an unreached vertex). -/
def MapsC10 (n s : Nat) (m : SearchMaps) : Prop :=
  (∀ v, (m.levels v).isSome ↔ (1 ≤ v ∧ v ≤ n)) ∧
  (∀ v, (m.parents v).isSome ↔ (1 ≤ v ∧ v ≤ n)) ∧
  m.parents s = some none ∧
  m.levels s = some 0 ∧
  (∀ v, v ≠ s → ((m.levels v = some (-1)) ↔ (m.parents v = some none)))

/-- BFS loop invariant implying the C10 shape. -/
def BFSC10 (n s : Nat) (st : BFSState) : Prop :=
  BFSDom n st ∧
  st.parents s = some none ∧
  st.levels s = some 0 ∧
  (∀ v l, st.levels v = some l → -1 ≤ l) ∧
  (∀ v, v ≠ s → ((st.levels v = some (-1)) ↔ (st.parents v = some none)))

/-- DFS loop invariant implying the C10 shape. -/
def DFSC10 (n s : Nat) (st : DFSState) : Prop :=
  DFSDom n st ∧
  s ∈ st.visited ∧
  (∀ p ∈ st.stack, (0 : Int) ≤ p.2) ∧
  st.parents s = some none ∧
  st.levels s = some 0 ∧
  (∀ v, v ≠ s → ((st.levels v = some (-1)) ↔ (st.parents v = some none)))

/-- The C8 shape of the connected-components output for an `N`-vertex
graph: every vertex of `[1, N]` is in some component and in no two
components, each component's vertices are duplicate-free, strictly
ascending, inside `[1, N]` and counted by its size field, sizes sum to `N`,
the list is non-increasing in size, and equal-size components are in
discovery order — ascending order of their smallest vertex (the head of an
ascending vertex list). -/
def ComponentsSpec (n : Nat) (comps : List (Nat × List Nat)) : Prop :=
  (∀ v, 1 ≤ v → v ≤ n → ∃ c ∈ comps, v ∈ c.2) ∧
  comps.Pairwise (fun c d => ∀ w, w ∈ c.2 → w ∉ d.2) ∧
  (∀ c ∈ comps, c.2.Nodup ∧ c.1 = c.2.length ∧
    c.2.Pairwise (fun a b => a < b) ∧ (∀ w ∈ c.2, 1 ≤ w ∧ w ≤ n)) ∧
  (comps.map (fun c => c.1)).sum = n ∧
  comps.Pairwise (fun c d => d.1 ≤ c.1) ∧
  comps.Pairwise (fun c d => c.1 = d.1 → c.2.headD 0 < d.2.headD 0)

/-- The outer-loop invariant of `get_connected_components` after the scan
has processed vertices `1..k`. -/
def CompInv (n k : Nat) (acc : List Nat × List (Nat × List Nat)) : Prop :=
  (∀ w, w ∈ acc.1 ↔ ∃ c ∈ acc.2, w ∈ c.2) ∧
  acc.2.Pairwise (fun c d => ∀ w, w ∈ c.2 → w ∉ d.2) ∧
  (∀ c ∈ acc.2, c.2.Nodup ∧ c.1 = c.2.length ∧
    c.2.Pairwise (fun a b => a ≤ b) ∧ c.2 ≠ [] ∧ (∀ w ∈ c.2, 1 ≤ w ∧ w ≤ n)) ∧
  (∀ w, 1 ≤ w → w ≤ k → w ∈ acc.1) ∧
  (∀ w ∈ acc.1, 1 ≤ w ∧ w ≤ n) ∧
  acc.2.Pairwise (fun c d => c.2.headD 0 < d.2.headD 0) ∧
  (∀ c ∈ acc.2, c.2.headD 0 ≤ k)

/-- The flood-fill invariant, relative to the visited set `V` of the
previous floods and the flood's start vertex `v0`. -/
def FloodInv (n v0 : Nat) (V : List Nat) (st : FloodState) : Prop :=
  (∀ w, w ∈ st.visited ↔ (w ∈ V ∨ w ∈ st.component_nodes)) ∧
  st.component_nodes.Nodup ∧
  v0 ∈ st.component_nodes ∧
  (∀ w ∈ st.component_nodes, w = v0 ∨ (1 ≤ w ∧ w ≤ n)) ∧
  (∀ w ∈ st.component_nodes, w ∉ V)

/-- One step of the reachable-set iteration: a vertex set together with all
stored neighbors of its members. -/
def stepSet (nbrs : Nat → List Nat) (S : Finset Nat) : Finset Nat :=
  S ∪ S.biUnion (fun u => (nbrs u).toFinset)

/-- The vertices reachable from `s` in at most `k` hops along stored
edges. -/
def reachK (nbrs : Nat → List Nat) (s : Nat) : Nat → Finset Nat
  | 0 => {s}
  | k + 1 => stepSet nbrs (reachK nbrs s k)

/-- There is a path (of any hop count) from `s` to `v`. -/
def Reachable (nbrs : Nat → List Nat) (s v : Nat) : Prop :=
  ∃ k, v ∈ reachK nbrs s k

/-- `v` is at hop distance exactly `k` from `s`: reachable in `k` hops and
in no fewer. -/
def distSpec (nbrs : Nat → List Nat) (s v : Nat) (k : Nat) : Prop :=
  v ∈ reachK nbrs s k ∧ ∀ j < k, v ∉ reachK nbrs s j

/-- The visited test of the BFS loop: a vertex is visited when its level
entry is present and not the -1 sentinel. -/
def visB (st : BFSState) (v : Nat) : Bool :=
  match st.levels v with
  | some l => l != -1
  | none => false

/-- The level value the loop reads (`levels[x]`; every read key is
present). -/
def lv (st : BFSState) (x : Nat) : Int :=
  (st.levels x).getD 0

/-- The number of unvisited vertices, for the loop measure. -/
def UnvisCount (n : Nat) (st : BFSState) : Nat :=
  ((Finset.Icc 1 n).filter (fun v => visB st v = false)).card

/-- The BFS loop measure: it strictly decreases at every dequeue, so the
fuel `2 * N + 1` is never exhausted. -/
def bfsMeasure (n : Nat) (st : BFSState) : Nat :=
  2 * UnvisCount n st + st.queue.length

/-- The BFS loop invariant: level keys are `[1, N]`; every present level is
the -1 sentinel or the true hop distance; queue members are visited, sorted
by level, within one level of each other, and duplicate-free; a visited
vertex no longer in the queue has all its neighbors visited; the start is
visited. -/
def BFSInv (n : Nat) (nbrs : Nat → List Nat) (s : Nat) (st : BFSState) : Prop :=
  (∀ v, (st.levels v).isSome ↔ (1 ≤ v ∧ v ≤ n)) ∧
  (∀ v l, st.levels v = some l →
    l = -1 ∨ ∃ k : Nat, l = (k : Int) ∧ distSpec nbrs s v k) ∧
  (∀ u ∈ st.queue, visB st u = true) ∧
  st.queue.Pairwise (fun a b => lv st a ≤ lv st b) ∧
  (∀ a ∈ st.queue, ∀ b ∈ st.queue, lv st a ≤ lv st b + 1) ∧
  (∀ u, visB st u = true → u ∉ st.queue → ∀ v ∈ nbrs u, visB st v = true) ∧
  visB st s = true ∧
  st.queue.Nodup

/-! ## Infrastructure: set-list lemmas -/

theorem mem_setAdd {s : List Nat} {x y : Nat} : x ∈ setAdd s y ↔ x = y ∨ x ∈ s := by
  unfold setAdd; split
  · rename_i h
    constructor
    · exact Or.inr
    · rintro (rfl | hx)
      exacts [h, hx]
  · simp [List.mem_append, or_comm]

theorem nodup_setAdd {s : List Nat} (h : s.Nodup) (y : Nat) : (setAdd s y).Nodup := by
  unfold setAdd; split
  · exact h
  · simpa [List.nodup_append] using ⟨h, by assumption⟩

theorem setAdd_of_mem {s : List Nat} {y : Nat} (h : y ∈ s) : setAdd s y = s := by
  simp [setAdd, h]

theorem setAdd_of_not_mem {s : List Nat} {y : Nat} (h : y ∉ s) :
    setAdd s y = s ++ [y] := by
  simp [setAdd, h]

theorem length_setAdd_of_not_mem {s : List Nat} {y : Nat} (h : y ∉ s) :
    (setAdd s y).length = s.length + 1 := by
  simp [setAdd_of_not_mem h]

/-! ## Infrastructure: the two representations under add_edge -/

theorem AL_add_edge_of_mem {r : AdjacencyList} {u v : Nat} (h : v ∈ r.adj u) :
    r.add_edge u v = r := by
  simp [AdjacencyList.add_edge, h]

theorem AL_add_edge_num_vertices (r : AdjacencyList) (u v : Nat) :
    (r.add_edge u v).num_vertices = r.num_vertices := by
  unfold AdjacencyList.add_edge; split <;> rfl

theorem AL_add_edge_edge_count (r : AdjacencyList) (u v : Nat) :
    (r.add_edge u v).edge_count =
      if v ∈ r.adj u then r.edge_count else r.edge_count + 1 := by
  unfold AdjacencyList.add_edge; split <;> simp_all

theorem AL_mem_add_edge_adj (r : AdjacencyList) (u v x w : Nat) :
    x ∈ (r.add_edge u v).adj w ↔
      x ∈ r.adj w ∨ (v ∉ r.adj u ∧ ((w = u ∧ x = v) ∨ (w = v ∧ x = u))) := by
  by_cases hmem : v ∈ r.adj u
  · simp [AL_add_edge_of_mem hmem, hmem]
  · simp only [AdjacencyList.add_edge, if_neg hmem]
    split_ifs with h1 h2 h3
    · subst h1; subst h2
      simp only [mem_setAdd]
      tauto
    · subst h1
      simp only [mem_setAdd]
      tauto
    · subst h3
      simp only [mem_setAdd]
      tauto
    · tauto

theorem AL_nodup_add_edge_adj {r : AdjacencyList} (h : ∀ w, (r.adj w).Nodup)
    (u v w : Nat) : ((r.add_edge u v).adj w).Nodup := by
  unfold AdjacencyList.add_edge; split
  · exact h w
  · dsimp only
    split_ifs <;> first
      | exact nodup_setAdd (nodup_setAdd (h w) _) _
      | exact nodup_setAdd (h w) _
      | exact h w

theorem AM_add_edge_of_set {r : AdjacencyMatrix} {u v : Nat}
    (h : r.matrix (u - 1) (v - 1) = true) : r.add_edge u v = r := by
  simp [AdjacencyMatrix.add_edge, h]

theorem AM_add_edge_of_unset {r : AdjacencyMatrix} {u v : Nat}
    (h : r.matrix (u - 1) (v - 1) = false) :
    r.add_edge u v =
      { r with
        matrix := fun i j =>
          if (i = u - 1 ∧ j = v - 1) ∨ (i = v - 1 ∧ j = u - 1) then true
          else r.matrix i j
        edge_count := r.edge_count + 1 } := by
  simp [AdjacencyMatrix.add_edge, h]

theorem AM_add_edge_num_vertices (r : AdjacencyMatrix) (u v : Nat) :
    (r.add_edge u v).num_vertices = r.num_vertices := by
  rcases Bool.eq_false_or_eq_true (r.matrix (u - 1) (v - 1)) with h | h
  · rw [AM_add_edge_of_set h]
  · rw [AM_add_edge_of_unset h]

theorem AM_add_edge_edge_count (r : AdjacencyMatrix) (u v : Nat) :
    (r.add_edge u v).edge_count =
      if r.matrix (u - 1) (v - 1) = true then r.edge_count else r.edge_count + 1 := by
  rcases Bool.eq_false_or_eq_true (r.matrix (u - 1) (v - 1)) with h | h
  · rw [AM_add_edge_of_set h, if_pos h]
  · rw [AM_add_edge_of_unset h, if_neg (by simp [h])]

theorem AM_add_edge_matrix (r : AdjacencyMatrix) (u v i j : Nat) :
    (r.add_edge u v).matrix i j = true ↔
      r.matrix i j = true ∨
        (r.matrix (u - 1) (v - 1) = false ∧
          ((i = u - 1 ∧ j = v - 1) ∨ (i = v - 1 ∧ j = u - 1))) := by
  rcases Bool.eq_false_or_eq_true (r.matrix (u - 1) (v - 1)) with h | h
  · rw [AM_add_edge_of_set h]
    simp [h]
  · rw [AM_add_edge_of_unset h]
    by_cases hij : (i = u - 1 ∧ j = v - 1) ∨ (i = v - 1 ∧ j = u - 1)
    · simp [hij, h]
    · simp [hij]

theorem AM_mem_get_neighbors (r : AdjacencyMatrix) (v x : Nat) :
    x ∈ r.get_neighbors v ↔
      1 ≤ x ∧ x ≤ r.num_vertices ∧ r.matrix (v - 1) (x - 1) = true := by
  unfold AdjacencyMatrix.get_neighbors
  simp only [List.mem_map, List.mem_filter, List.mem_range]
  constructor
  · rintro ⟨i, ⟨hi, hm⟩, rfl⟩
    exact ⟨by omega, by omega, by simpa using hm⟩
  · rintro ⟨hx1, hxn, hm⟩
    exact ⟨x - 1, ⟨by omega, by simpa using hm⟩, by omega⟩

theorem AM_nodup_get_neighbors (r : AdjacencyMatrix) (v : Nat) :
    (r.get_neighbors v).Nodup := by
  unfold AdjacencyMatrix.get_neighbors
  exact ((List.nodup_range _).filter _).map (fun a b => by omega)

/-! ## Infrastructure: instance methods reduce to the concrete classes -/

theorem GRL_init (n : Nat) :
    (GraphRepresentation.init n : AdjacencyList) = AdjacencyList.init n := rfl

theorem GRL_add_edge (r : AdjacencyList) (u v : Nat) :
    GraphRepresentation.add_edge r u v = r.add_edge u v := rfl

theorem GRL_get_neighbors (r : AdjacencyList) (v : Nat) :
    GraphRepresentation.get_neighbors r v = r.adj v := rfl

theorem GRL_edge_count (r : AdjacencyList) :
    GraphRepresentation.edge_count r = r.edge_count := rfl

theorem GRM_init (n : Nat) :
    (GraphRepresentation.init n : AdjacencyMatrix) = AdjacencyMatrix.init n := rfl

theorem GRM_add_edge (r : AdjacencyMatrix) (u v : Nat) :
    GraphRepresentation.add_edge r u v = r.add_edge u v := rfl

theorem GRM_get_neighbors (r : AdjacencyMatrix) (v : Nat) :
    GraphRepresentation.get_neighbors r v = r.get_neighbors v := rfl

theorem GRM_edge_count (r : AdjacencyMatrix) :
    GraphRepresentation.edge_count r = r.edge_count := rfl

/-! ## Infrastructure: the facade under add_edge, and built graphs -/

theorem bounds_iff {v n : Nat} :
    GraphUtils.is_vertex_within_bounds v n = true ↔ 1 ≤ v ∧ v ≤ n := by
  simp [GraphUtils.is_vertex_within_bounds]

theorem Graph.add_edge_of_bounds [GraphRepresentation ρ] {g : Graph ρ} {u v : Nat}
    (hu : 1 ≤ u ∧ u ≤ g.num_vertices) (hv : 1 ≤ v ∧ v ≤ g.num_vertices) :
    g.add_edge u v =
      (Except.ok (),
        { g with
          representation := GraphRepresentation.add_edge g.representation u v
          all_degrees_cache := none }) := by
  unfold Graph.add_edge
  rw [if_pos]
  simp only [Bool.and_eq_true, bounds_iff]
  exact ⟨hu, hv⟩

theorem Graph.add_edge_of_not_bounds [GraphRepresentation ρ] {g : Graph ρ} {u v : Nat}
    (h : ¬ ((1 ≤ u ∧ u ≤ g.num_vertices) ∧ (1 ≤ v ∧ v ≤ g.num_vertices))) :
    g.add_edge u v = (Except.error GraphError.outOfRange, g) := by
  unfold Graph.add_edge
  rw [if_neg]
  simp only [Bool.and_eq_true, bounds_iff]
  exact h

theorem Graph.add_edge_snd_num_vertices [GraphRepresentation ρ] (g : Graph ρ)
    (u v : Nat) : (g.add_edge u v).2.num_vertices = g.num_vertices := by
  by_cases hok : (1 ≤ u ∧ u ≤ g.num_vertices) ∧ (1 ≤ v ∧ v ≤ g.num_vertices)
  · rw [Graph.add_edge_of_bounds hok.1 hok.2]
  · rw [Graph.add_edge_of_not_bounds hok]

theorem Graph.build_induction (ρ : Type) [GraphRepresentation ρ] (n : Nat)
    (P : Graph ρ → Prop) (h0 : P (Graph.new ρ n))
    (hstep : ∀ g u v, P g → P (g.add_edge u v).2) :
    ∀ es, P (Graph.build ρ n es) := by
  intro es
  suffices h : ∀ g, P g → P (es.foldl (fun g e => (g.add_edge e.1 e.2).2) g) from h _ h0
  induction es with
  | nil => exact fun g hg => hg
  | cons e es ih => exact fun g hg => ih _ (hstep _ _ _ hg)

theorem Graph.build_pair_induction (n : Nat)
    (P : Graph AdjacencyList → Graph AdjacencyMatrix → Prop)
    (h0 : P (Graph.new AdjacencyList n) (Graph.new AdjacencyMatrix n))
    (hstep : ∀ gl gm u v, P gl gm → P (gl.add_edge u v).2 (gm.add_edge u v).2) :
    ∀ es, P (Graph.build AdjacencyList n es) (Graph.build AdjacencyMatrix n es) := by
  intro es
  suffices h : ∀ gl gm, P gl gm →
      P (es.foldl (fun g e => (g.add_edge e.1 e.2).2) gl)
        (es.foldl (fun g e => (g.add_edge e.1 e.2).2) gm) from h _ _ h0
  induction es with
  | nil => exact fun gl gm hg => hg
  | cons e es ih => exact fun gl gm hg => ih _ _ (hstep _ _ _ _ hg)

theorem Graph.build_num_vertices (ρ : Type) [GraphRepresentation ρ] (n : Nat)
    (es : List (Nat × Nat)) : (Graph.build ρ n es).num_vertices = n :=
  Graph.build_induction ρ n (fun g => g.num_vertices = n) rfl
    (fun g u v h => by
      show (g.add_edge u v).2.num_vertices = n
      rw [Graph.add_edge_snd_num_vertices]
      exact h) es

theorem wfL_step (g : Graph AdjacencyList) (u v : Nat) (h : GraphLWF g) :
    GraphLWF (g.add_edge u v).2 := by
  obtain ⟨hn, hnd, hb, hsym⟩ := h
  by_cases hok : (1 ≤ u ∧ u ≤ g.num_vertices) ∧ (1 ≤ v ∧ v ≤ g.num_vertices)
  · rw [Graph.add_edge_of_bounds hok.1 hok.2]
    have hrep : ((Except.ok (),
        { g with
          representation := GraphRepresentation.add_edge g.representation u v
          all_degrees_cache := none }) :
          Except GraphError Unit × Graph AdjacencyList).2.representation =
        g.representation.add_edge u v := rfl
    have hnum : ((Except.ok (),
        { g with
          representation := GraphRepresentation.add_edge g.representation u v
          all_degrees_cache := none }) :
          Except GraphError Unit × Graph AdjacencyList).2.num_vertices =
        g.num_vertices := rfl
    unfold GraphLWF
    rw [hrep, hnum]
    refine ⟨by rw [AL_add_edge_num_vertices]; exact hn, ?_, ?_, ?_⟩
    · exact fun w => AL_nodup_add_edge_adj hnd u v w
    · intro a b hmem
      rcases (AL_mem_add_edge_adj _ u v b a).1 hmem with h | ⟨-, h | h⟩
      · exact hb a b h
      · exact ⟨by rw [h.1]; exact hok.1, by rw [h.2]; exact hok.2⟩
      · exact ⟨by rw [h.1]; exact hok.2, by rw [h.2]; exact hok.1⟩
    · intro a b
      rw [AL_mem_add_edge_adj, AL_mem_add_edge_adj]
      constructor
      · rintro (h | ⟨hnm, h⟩)
        · exact Or.inl ((hsym a b).1 h)
        · exact Or.inr ⟨hnm, by tauto⟩
      · rintro (h | ⟨hnm, h⟩)
        · exact Or.inl ((hsym b a).1 h)
        · exact Or.inr ⟨hnm, by tauto⟩
  · rw [Graph.add_edge_of_not_bounds hok]
    exact ⟨hn, hnd, hb, hsym⟩

theorem build_wfL (n : Nat) (es : List (Nat × Nat)) :
    GraphLWF (Graph.build AdjacencyList n es) := by
  refine Graph.build_induction AdjacencyList n GraphLWF ?_ (fun g u v h => wfL_step g u v h) es
  refine ⟨rfl, fun w => List.nodup_nil, fun u v h => absurd h (List.not_mem_nil v), ?_⟩
  intro u v
  simp [Graph.new, GRL_init, AdjacencyList.init]

theorem build_wfM (n : Nat) (es : List (Nat × Nat)) :
    GraphMWF (Graph.build AdjacencyMatrix n es) := by
  refine Graph.build_induction AdjacencyMatrix n GraphMWF ?_ ?_ es
  · refine ⟨rfl, fun i j h => ?_, fun i j => rfl⟩
    simp [Graph.new, GRM_init, AdjacencyMatrix.init] at h
  · rintro g u v ⟨hn, hb, hsym⟩
    by_cases hok : (1 ≤ u ∧ u ≤ g.num_vertices) ∧ (1 ≤ v ∧ v ≤ g.num_vertices)
    · rw [Graph.add_edge_of_bounds hok.1 hok.2]
      have hrep : ((Except.ok (),
          { g with
            representation := GraphRepresentation.add_edge g.representation u v
            all_degrees_cache := none }) :
            Except GraphError Unit × Graph AdjacencyMatrix).2.representation =
          g.representation.add_edge u v := rfl
      have hnum : ((Except.ok (),
          { g with
            representation := GraphRepresentation.add_edge g.representation u v
            all_degrees_cache := none }) :
            Except GraphError Unit × Graph AdjacencyMatrix).2.num_vertices =
          g.num_vertices := rfl
      unfold GraphMWF
      rw [hrep, hnum]
      refine ⟨by rw [AM_add_edge_num_vertices]; exact hn, ?_, ?_⟩
      · intro i j hmem
        rcases (AM_add_edge_matrix _ u v i j).1 hmem with h | ⟨-, h | h⟩
        · exact hb i j h
        · omega
        · omega
      · intro i j
        rcases Bool.eq_false_or_eq_true (g.representation.matrix (u - 1) (v - 1)) with h0 | h0
        · rw [AM_add_edge_of_set h0]
          exact hsym i j
        · rw [AM_add_edge_of_unset h0]
          by_cases hij : (i = u - 1 ∧ j = v - 1) ∨ (i = v - 1 ∧ j = u - 1)
          · have hji : (j = u - 1 ∧ i = v - 1) ∨ (j = v - 1 ∧ i = u - 1) := by tauto
            simp only [if_pos hij, if_pos hji]
          · have hji : ¬ ((j = u - 1 ∧ i = v - 1) ∨ (j = v - 1 ∧ i = u - 1)) := by tauto
            simp only [if_neg hij, if_neg hji]
            exact hsym i j
    · rw [Graph.add_edge_of_not_bounds hok]
      exact ⟨hn, hb, hsym⟩

theorem Graph.add_edge_snd_rep_of_bounds [GraphRepresentation ρ] {g : Graph ρ}
    {u v : Nat} (hu : 1 ≤ u ∧ u ≤ g.num_vertices) (hv : 1 ≤ v ∧ v ≤ g.num_vertices) :
    (g.add_edge u v).2.representation =
      GraphRepresentation.add_edge g.representation u v := by
  rw [Graph.add_edge_of_bounds hu hv]

theorem Graph.add_edge_snd_cache_of_bounds [GraphRepresentation ρ] {g : Graph ρ}
    {u v : Nat} (hu : 1 ≤ u ∧ u ≤ g.num_vertices) (hv : 1 ≤ v ∧ v ≤ g.num_vertices) :
    (g.add_edge u v).2.all_degrees_cache = none := by
  rw [Graph.add_edge_of_bounds hu hv]

theorem Graph.add_edge_snd_of_not_bounds [GraphRepresentation ρ] {g : Graph ρ}
    {u v : Nat} (h : ¬ ((1 ≤ u ∧ u ≤ g.num_vertices) ∧ (1 ≤ v ∧ v ≤ g.num_vertices))) :
    (g.add_edge u v).2 = g := by
  rw [Graph.add_edge_of_not_bounds h]

theorem Graph.get_neighbors_of_bounds [GraphRepresentation ρ] {g : Graph ρ} {v : Nat}
    (hv : 1 ≤ v ∧ v ≤ g.num_vertices) :
    g.get_neighbors v =
      Except.ok (GraphRepresentation.get_neighbors g.representation v) := by
  unfold Graph.get_neighbors
  rw [if_pos (bounds_iff.2 hv)]

theorem Graph.get_neighbors_of_not_bounds [GraphRepresentation ρ] {g : Graph ρ}
    {v : Nat} (hv : ¬ (1 ≤ v ∧ v ≤ g.num_vertices)) :
    g.get_neighbors v = Except.error GraphError.outOfRange := by
  unfold Graph.get_neighbors
  rw [if_neg (fun hc => hv (bounds_iff.1 hc))]

theorem graph_eta_cache_none [GraphRepresentation ρ] {g : Graph ρ}
    (hc : g.all_degrees_cache = none) :
    ({ num_vertices := g.num_vertices, representation := g.representation,
       all_degrees_cache := none } : Graph ρ) = g := by
  cases g with
  | mk n r c =>
    dsimp at hc
    rw [hc]

theorem build_agree (n : Nat) (es : List (Nat × Nat)) :
    ReprAgree (Graph.build AdjacencyList n es) (Graph.build AdjacencyMatrix n es) := by
  refine Graph.build_pair_induction n ReprAgree ⟨rfl, rfl, ?_⟩ ?_ es
  · intro u v hu hv
    simp [Graph.new, GRL_init, GRM_init, AdjacencyList.init, AdjacencyMatrix.init]
  · rintro gl gm u v ⟨hn, hc, hadj⟩
    by_cases hok : (1 ≤ u ∧ u ≤ gl.num_vertices) ∧ (1 ≤ v ∧ v ≤ gl.num_vertices)
    · have hokm : (1 ≤ u ∧ u ≤ gm.num_vertices) ∧ (1 ≤ v ∧ v ≤ gm.num_vertices) := by
        rw [← hn]; exact hok
    
      have hpres : v ∈ gl.representation.adj u ↔
          gm.representation.matrix (u - 1) (v - 1) = true :=
        hadj u v hok.1.1 hok.2.1
      refine ⟨?_, ?_, ?_⟩
      · rw [Graph.add_edge_snd_num_vertices, Graph.add_edge_snd_num_vertices, hn]
      · rw [Graph.add_edge_snd_rep_of_bounds hok.1 hok.2,
          Graph.add_edge_snd_rep_of_bounds hokm.1 hokm.2, GRL_add_edge, GRM_add_edge,
          AL_add_edge_edge_count, AM_add_edge_edge_count]
        by_cases hp : v ∈ gl.representation.adj u
        · rw [if_pos hp, if_pos (hpres.1 hp), hc]
        · rw [if_neg hp, if_neg (fun hm => hp (hpres.2 hm)), hc]
      · intro a b ha hb
        rw [Graph.add_edge_snd_rep_of_bounds hok.1 hok.2,
          Graph.add_edge_snd_rep_of_bounds hokm.1 hokm.2, GRL_add_edge, GRM_add_edge]
        rw [AL_mem_add_edge_adj, AM_add_edge_matrix]
        have hcond : ((a = u ∧ b = v) ∨ (a = v ∧ b = u)) ↔
            ((a - 1 = u - 1 ∧ b - 1 = v - 1) ∨ (a - 1 = v - 1 ∧ b - 1 = u - 1)) := by
          constructor
          · rintro (⟨rfl, rfl⟩ | ⟨rfl, rfl⟩)
            · exact Or.inl ⟨rfl, rfl⟩
            · exact Or.inr ⟨rfl, rfl⟩
          · rintro (⟨h1, h2⟩ | ⟨h1, h2⟩)
            · exact Or.inl ⟨by omega, by omega⟩
            · exact Or.inr ⟨by omega, by omega⟩
        have hunset : (v ∉ gl.representation.adj u) ↔
            gm.representation.matrix (u - 1) (v - 1) = false := by
          rw [hpres]
          simp
        rw [hadj a b ha hb]
        constructor
        · rintro (h | ⟨h1, h2⟩)
          · exact Or.inl h
          · exact Or.inr ⟨hunset.1 h1, hcond.1 h2⟩
        · rintro (h | ⟨h1, h2⟩)
          · exact Or.inl h
          · exact Or.inr ⟨hunset.2 h1, hcond.2 h2⟩
    · have hokm : ¬ ((1 ≤ u ∧ u ≤ gm.num_vertices) ∧ (1 ≤ v ∧ v ≤ gm.num_vertices)) := by
        rw [← hn]; exact hok
      rw [Graph.add_edge_snd_of_not_bounds hok, Graph.add_edge_snd_of_not_bounds hokm]
      exact ⟨hn, hc, hadj⟩

/-- For in-range `u` (and built graphs), the two representations enumerate
the same neighbor set, possibly in different orders. -/
theorem nbrs_agree {gl : Graph AdjacencyList} {gm : Graph AdjacencyMatrix}
    (hl : GraphLWF gl) (hm : GraphMWF gm) (hag : ReprAgree gl gm)
    {u : Nat} (hu : 1 ≤ u) :
    ∀ x, x ∈ gl.nbrs u ↔ x ∈ gm.nbrs u := by
  intro x
  show x ∈ gl.representation.adj u ↔ x ∈ gm.representation.get_neighbors u
  rw [AM_mem_get_neighbors]
  constructor
  · intro h
    have hb := (hl.2.2.1 u x h).2
    refine ⟨hb.1, by rw [hm.1, ← hag.1]; exact hb.2, ?_⟩
    exact (hag.2.2 u x hu hb.1).1 h
  · rintro ⟨hx1, hxn, hmat⟩
    exact (hag.2.2 u x hu hx1).2 hmat

theorem Graph.add_edge_noop [GraphRepresentation ρ] {g : Graph ρ} {u v : Nat}
    (hu : 1 ≤ u ∧ u ≤ g.num_vertices) (hv : 1 ≤ v ∧ v ≤ g.num_vertices)
    (hrep : GraphRepresentation.add_edge g.representation u v = g.representation)
    (hc : g.all_degrees_cache = none) :
    g.add_edge u v = (Except.ok (), g) := by
  rw [Graph.add_edge_of_bounds hu hv, hrep, graph_eta_cache_none hc]

/-! ## Claim C4 -/

/-- C4: adjacency symmetry is an invariant.  In every graph state reachable
from construction by any sequence of add_edge calls (successful or
rejected — a rejected call leaves the state unchanged), under both the
Sparse and Dense representations, and for all valid vertices u, v in
[1, N]: v is in neighbors(u) if and only if u is in neighbors(v). -/
theorem C4_adjacency_symmetry (n : Nat) (es : List (Nat × Nat)) (u v : Nat)
    (hu : 1 ≤ u ∧ u ≤ n) (hv : 1 ≤ v ∧ v ≤ n) :
    (∃ lu lv : List Nat,
      (Graph.build AdjacencyList n es).get_neighbors u = Except.ok lu ∧
      (Graph.build AdjacencyList n es).get_neighbors v = Except.ok lv ∧
      (v ∈ lu ↔ u ∈ lv)) ∧
    (∃ lu lv : List Nat,
      (Graph.build AdjacencyMatrix n es).get_neighbors u = Except.ok lu ∧
      (Graph.build AdjacencyMatrix n es).get_neighbors v = Except.ok lv ∧
      (v ∈ lu ↔ u ∈ lv)) := by
  have hnl := Graph.build_num_vertices AdjacencyList n es
  have hnm := Graph.build_num_vertices AdjacencyMatrix n es
  have hwl := build_wfL n es
  have hwm := build_wfM n es
  constructor
  · refine ⟨_, _, Graph.get_neighbors_of_bounds (by rw [hnl]; exact hu),
      Graph.get_neighbors_of_bounds (by rw [hnl]; exact hv), ?_⟩
    rw [GRL_get_neighbors, GRL_get_neighbors]
    exact hwl.2.2.2 u v
  · refine ⟨_, _, Graph.get_neighbors_of_bounds (by rw [hnm]; exact hu),
      Graph.get_neighbors_of_bounds (by rw [hnm]; exact hv), ?_⟩
    rw [GRM_get_neighbors, GRM_get_neighbors,
      AM_mem_get_neighbors, AM_mem_get_neighbors]
    have hrn : (Graph.build AdjacencyMatrix n es).representation.num_vertices = n := by
      rw [hwm.1, hnm]
    have hsym := hwm.2.2 (u - 1) (v - 1)
    constructor
    · rintro ⟨-, -, hm⟩
      exact ⟨hu.1, by rw [hrn]; exact hu.2, by rw [← hsym]; exact hm⟩
    · rintro ⟨-, -, hm⟩
      exact ⟨hv.1, by rw [hrn]; exact hv.2, by rw [hsym]; exact hm⟩

/-- Witness for C4: the theorem applied at n = 2, es = [(1,2)], u = 1, v = 2. -/
theorem C4_adjacency_symmetry_witness :
    ((1 ≤ 1 ∧ 1 ≤ 2) ∧ (1 ≤ 2 ∧ 2 ≤ 2)) ∧
    ((∃ lu lv : List Nat,
      (Graph.build AdjacencyList 2 [(1, 2)]).get_neighbors 1 = Except.ok lu ∧
      (Graph.build AdjacencyList 2 [(1, 2)]).get_neighbors 2 = Except.ok lv ∧
      (2 ∈ lu ↔ 1 ∈ lv)) ∧
    (∃ lu lv : List Nat,
      (Graph.build AdjacencyMatrix 2 [(1, 2)]).get_neighbors 1 = Except.ok lu ∧
      (Graph.build AdjacencyMatrix 2 [(1, 2)]).get_neighbors 2 = Except.ok lv ∧
      (2 ∈ lu ↔ 1 ∈ lv))) :=
  ⟨⟨by decide, by decide⟩,
    C4_adjacency_symmetry 2 [(1, 2)] 1 2 (by decide) (by decide)⟩

/-! ## Claim C9 -/

/-- C9: addEdge is atomic on failure.  For all u, v with at least one of
them outside [1, N], addEdge(u, v) raises OutOfRange and returns the graph
state entirely unchanged — the same representation (hence the same
edgeCount and the same neighbors(w) for every w) and the same degree
cache — in both representations. -/
theorem C9_add_edge_atomic_failure (n : Nat) (es : List (Nat × Nat)) (u v : Nat)
    (h : ¬ ((1 ≤ u ∧ u ≤ n) ∧ (1 ≤ v ∧ v ≤ n))) :
    (Graph.build AdjacencyList n es).add_edge u v =
      (Except.error GraphError.outOfRange, Graph.build AdjacencyList n es) ∧
    (Graph.build AdjacencyMatrix n es).add_edge u v =
      (Except.error GraphError.outOfRange, Graph.build AdjacencyMatrix n es) := by
  constructor
  · exact Graph.add_edge_of_not_bounds
      (by rw [Graph.build_num_vertices]; exact h)
  · exact Graph.add_edge_of_not_bounds
      (by rw [Graph.build_num_vertices]; exact h)

/-- Witness for C9: n = 2, es = [(1,2)], u = 3 out of range. -/
theorem C9_add_edge_atomic_failure_witness :
    (¬ ((1 ≤ 3 ∧ 3 ≤ 2) ∧ (1 ≤ 1 ∧ 1 ≤ 2))) ∧
    ((Graph.build AdjacencyList 2 [(1, 2)]).add_edge 3 1 =
      (Except.error GraphError.outOfRange, Graph.build AdjacencyList 2 [(1, 2)]) ∧
    (Graph.build AdjacencyMatrix 2 [(1, 2)]).add_edge 3 1 =
      (Except.error GraphError.outOfRange, Graph.build AdjacencyMatrix 2 [(1, 2)])) :=
  ⟨by decide, C9_add_edge_atomic_failure 2 [(1, 2)] 3 1 (by decide)⟩

/-! ## Claim C5 -/

/-- C5: edge insertion is idempotent on the unordered pair, in both
representations: after a first (valid) addEdge(u, v), calling
addEdge(u, v) again, or addEdge(v, u), succeeds and returns the graph in
exactly the state left by the first insertion (same representation state,
hence same edgeCount and neighbor sets, and same degree cache). -/
theorem C5_add_edge_idempotent (n : Nat) (es : List (Nat × Nat)) (u v : Nat)
    (hu : 1 ≤ u ∧ u ≤ n) (hv : 1 ≤ v ∧ v ≤ n) :
    (((Graph.build AdjacencyList n es).add_edge u v).2.add_edge u v =
        (Except.ok (), ((Graph.build AdjacencyList n es).add_edge u v).2) ∧
      ((Graph.build AdjacencyList n es).add_edge u v).2.add_edge v u =
        (Except.ok (), ((Graph.build AdjacencyList n es).add_edge u v).2)) ∧
    (((Graph.build AdjacencyMatrix n es).add_edge u v).2.add_edge u v =
        (Except.ok (), ((Graph.build AdjacencyMatrix n es).add_edge u v).2) ∧
      ((Graph.build AdjacencyMatrix n es).add_edge u v).2.add_edge v u =
        (Except.ok (), ((Graph.build AdjacencyMatrix n es).add_edge u v).2)) := by
  constructor
  · set g := Graph.build AdjacencyList n es with hg
    have hn : g.num_vertices = n := Graph.build_num_vertices AdjacencyList n es
    have hwf := build_wfL n es
    rw [← hg] at hwf
    have hu' : 1 ≤ u ∧ u ≤ g.num_vertices := by rw [hn]; exact hu
    have hv' : 1 ≤ v ∧ v ≤ g.num_vertices := by rw [hn]; exact hv
    have hn1 : (g.add_edge u v).2.num_vertices = g.num_vertices :=
      Graph.add_edge_snd_num_vertices g u v
    have hrep : (g.add_edge u v).2.representation = g.representation.add_edge u v := by
      rw [Graph.add_edge_snd_rep_of_bounds hu' hv', GRL_add_edge]
    have hc : (g.add_edge u v).2.all_degrees_cache = none :=
      Graph.add_edge_snd_cache_of_bounds hu' hv'
    have hmem_uv : v ∈ (g.add_edge u v).2.representation.adj u := by
      rw [hrep, AL_mem_add_edge_adj]
      by_cases hp : v ∈ g.representation.adj u
      · exact Or.inl hp
      · exact Or.inr ⟨hp, Or.inl ⟨rfl, rfl⟩⟩
    have hmem_vu : u ∈ (g.add_edge u v).2.representation.adj v := by
      rw [hrep, AL_mem_add_edge_adj]
      by_cases hp : v ∈ g.representation.adj u
      · exact Or.inl ((hwf.2.2.2 u v).1 hp)
      · exact Or.inr ⟨hp, Or.inr ⟨rfl, rfl⟩⟩
    constructor
    · refine Graph.add_edge_noop (by rw [hn1]; exact hu') (by rw [hn1]; exact hv') ?_ hc
      rw [GRL_add_edge]
      exact AL_add_edge_of_mem hmem_uv
    · refine Graph.add_edge_noop (by rw [hn1]; exact hv') (by rw [hn1]; exact hu') ?_ hc
      rw [GRL_add_edge]
      exact AL_add_edge_of_mem hmem_vu
  · set g := Graph.build AdjacencyMatrix n es with hg
    have hn : g.num_vertices = n := Graph.build_num_vertices AdjacencyMatrix n es
    have hwf := build_wfM n es
    rw [← hg] at hwf
    have hu' : 1 ≤ u ∧ u ≤ g.num_vertices := by rw [hn]; exact hu
    have hv' : 1 ≤ v ∧ v ≤ g.num_vertices := by rw [hn]; exact hv
    have hn1 : (g.add_edge u v).2.num_vertices = g.num_vertices :=
      Graph.add_edge_snd_num_vertices g u v
    have hrep : (g.add_edge u v).2.representation = g.representation.add_edge u v := by
      rw [Graph.add_edge_snd_rep_of_bounds hu' hv', GRM_add_edge]
    have hc : (g.add_edge u v).2.all_degrees_cache = none :=
      Graph.add_edge_snd_cache_of_bounds hu' hv'
    have hmem_uv : (g.add_edge u v).2.representation.matrix (u - 1) (v - 1) = true := by
      rw [hrep, AM_add_edge_matrix]
      rcases Bool.eq_false_or_eq_true (g.representation.matrix (u - 1) (v - 1)) with h0 | h0
      · exact Or.inl h0
      · exact Or.inr ⟨h0, Or.inl ⟨rfl, rfl⟩⟩
    have hmem_vu : (g.add_edge u v).2.representation.matrix (v - 1) (u - 1) = true := by
      rw [hrep, AM_add_edge_matrix]
      rcases Bool.eq_false_or_eq_true (g.representation.matrix (u - 1) (v - 1)) with h0 | h0
      · exact Or.inl (by rw [← hwf.2.2]; exact h0)
      · exact Or.inr ⟨h0, Or.inr ⟨rfl, rfl⟩⟩
    constructor
    · refine Graph.add_edge_noop (by rw [hn1]; exact hu') (by rw [hn1]; exact hv') ?_ hc
      rw [GRM_add_edge]
      exact AM_add_edge_of_set hmem_uv
    · refine Graph.add_edge_noop (by rw [hn1]; exact hv') (by rw [hn1]; exact hu') ?_ hc
      rw [GRM_add_edge]
      exact AM_add_edge_of_set hmem_vu

/-- Witness for C5: n = 3, es = [(2,3)], u = 1, v = 2. -/
theorem C5_add_edge_idempotent_witness :
    ((1 ≤ 1 ∧ 1 ≤ 3) ∧ (1 ≤ 2 ∧ 2 ≤ 3)) ∧
    ((((Graph.build AdjacencyList 3 [(2, 3)]).add_edge 1 2).2.add_edge 1 2 =
        (Except.ok (), ((Graph.build AdjacencyList 3 [(2, 3)]).add_edge 1 2).2) ∧
      ((Graph.build AdjacencyList 3 [(2, 3)]).add_edge 1 2).2.add_edge 2 1 =
        (Except.ok (), ((Graph.build AdjacencyList 3 [(2, 3)]).add_edge 1 2).2)) ∧
    (((Graph.build AdjacencyMatrix 3 [(2, 3)]).add_edge 1 2).2.add_edge 1 2 =
        (Except.ok (), ((Graph.build AdjacencyMatrix 3 [(2, 3)]).add_edge 1 2).2) ∧
      ((Graph.build AdjacencyMatrix 3 [(2, 3)]).add_edge 1 2).2.add_edge 2 1 =
        (Except.ok (), ((Graph.build AdjacencyMatrix 3 [(2, 3)]).add_edge 1 2).2))) :=
  ⟨⟨by decide, by decide⟩,
    C5_add_edge_idempotent 3 [(2, 3)] 1 2 (by decide) (by decide)⟩

/-! ## Claim C2 -/

theorem build_cache_none (ρ : Type) [GraphRepresentation ρ] (n : Nat)
    (es : List (Nat × Nat)) : (Graph.build ρ n es).all_degrees_cache = none := by
  refine Graph.build_induction ρ n (fun g => g.all_degrees_cache = none) rfl ?_ es
  intro g u v h
  by_cases hok : (1 ≤ u ∧ u ≤ g.num_vertices) ∧ (1 ≤ v ∧ v ≤ g.num_vertices)
  · exact Graph.add_edge_snd_cache_of_bounds hok.1 hok.2
  · rw [Graph.add_edge_snd_of_not_bounds hok]
    exact h

theorem calc_degrees_of_cache_none [GraphRepresentation ρ] {g : Graph ρ}
    (hc : g.all_degrees_cache = none) :
    (g.calculate_all_degrees).1 =
      (List.range g.num_vertices).map (fun i => (g.nbrs (i + 1)).length) := by
  unfold Graph.calculate_all_degrees
  rw [hc]

/-- Explicit per-vertex form of the sparse add_edge when the pair is new. -/
theorem AL_add_edge_adj_explicit {r : AdjacencyList} {u v : Nat}
    (hp : v ∉ r.adj u) (w : Nat) :
    (r.add_edge u v).adj w =
      if w = v then setAdd (if w = u then setAdd (r.adj w) v else r.adj w) u
      else if w = u then setAdd (r.adj w) v else r.adj w := by
  simp only [AdjacencyList.add_edge, if_neg hp]

theorem hsL_step (g : Graph AdjacencyList) (u v : Nat)
    (hwf : GraphLWF g) (hhs : HSL g) : HSL (g.add_edge u v).2 := by
  by_cases hok : (1 ≤ u ∧ u ≤ g.num_vertices) ∧ (1 ≤ v ∧ v ≤ g.num_vertices)
  · have hrep : (g.add_edge u v).2.representation = g.representation.add_edge u v := by
      rw [Graph.add_edge_snd_rep_of_bounds hok.1 hok.2, GRL_add_edge]
    have hnum := Graph.add_edge_snd_num_vertices g u v
    unfold HSL
    unfold HSL at hhs
    rw [hrep, hnum]
    by_cases hp : v ∈ g.representation.adj u
    · rw [AL_add_edge_of_mem hp]
      exact hhs
    · have hec : (g.representation.add_edge u v).edge_count =
          g.representation.edge_count + 1 := by
        rw [AL_add_edge_edge_count, if_neg hp]
      rw [hec]
      by_cases huv : u = v
      · subst huv
        have hlen : ∀ w, ((g.representation.add_edge u u).adj w).length =
            (g.representation.adj w).length + (if w = u then 1 else 0) := by
          intro w
          rw [AL_add_edge_adj_explicit hp w]
          by_cases hw : w = u
          · subst hw
            rw [if_pos rfl, if_pos rfl, setAdd_of_not_mem hp,
              setAdd_of_mem (by simp), if_pos rfl]
            simp
          · rw [if_neg hw, if_neg hw, if_neg hw]
            simp
        have hsum : (∑ w in Finset.Icc 1 g.num_vertices,
            ((g.representation.add_edge u u).adj w).length) =
            (∑ w in Finset.Icc 1 g.num_vertices,
              (g.representation.adj w).length) + 1 := by
          calc (∑ w in Finset.Icc 1 g.num_vertices,
              ((g.representation.add_edge u u).adj w).length)
              = ∑ w in Finset.Icc 1 g.num_vertices,
                ((g.representation.adj w).length + (if w = u then 1 else 0)) :=
                Finset.sum_congr rfl (fun w _ => hlen w)
            _ = (∑ w in Finset.Icc 1 g.num_vertices,
                  (g.representation.adj w).length) +
                ∑ w in Finset.Icc 1 g.num_vertices, (if w = u then 1 else 0) :=
                Finset.sum_add_distrib
            _ = _ := by
                rw [Finset.sum_ite_eq' (Finset.Icc 1 g.num_vertices) u (fun _ => 1),
                  if_pos (Finset.mem_Icc.2 hok.1)]
        have hloop : ∀ w ∈ Finset.Icc 1 g.num_vertices,
            (w ∈ (g.representation.add_edge u u).adj w ↔
              w ∈ g.representation.adj w ∨ w = u) := by
          intro w _
          rw [AL_mem_add_edge_adj]
          constructor
          · rintro (h | ⟨-, h | h⟩)
            · exact Or.inl h
            · exact Or.inr h.1
            · exact Or.inr h.1
          · rintro (h | rfl)
            · exact Or.inl h
            · exact Or.inr ⟨hp, Or.inl ⟨rfl, rfl⟩⟩
        have hcard : ((Finset.Icc 1 g.num_vertices).filter
            (fun w => w ∈ (g.representation.add_edge u u).adj w)).card =
            ((Finset.Icc 1 g.num_vertices).filter
              (fun w => w ∈ g.representation.adj w)).card + 1 := by
          rw [Finset.filter_congr hloop, Finset.filter_or,
            Finset.filter_eq' (Finset.Icc 1 g.num_vertices) u,
            if_pos (Finset.mem_Icc.2 hok.1),
            Finset.card_union_of_disjoint (by
              rw [Finset.disjoint_singleton_right, Finset.mem_filter]
              rintro ⟨-, hmem⟩
              exact hp hmem), Finset.card_singleton]
        rw [hsum, hcard]
        omega
      · have hq : u ∉ g.representation.adj v := fun h => hp ((hwf.2.2.2 v u).1 h)
        have hlen : ∀ w, ((g.representation.add_edge u v).adj w).length =
            (g.representation.adj w).length +
              ((if w = u then 1 else 0) + (if w = v then 1 else 0)) := by
          intro w
          rw [AL_add_edge_adj_explicit hp w]
          by_cases hwv : w = v
          · subst hwv
            rw [if_pos rfl, if_neg (fun h => huv (h.symm)), if_neg (fun h => huv (h.symm)),
              setAdd_of_not_mem hq, if_pos rfl]
            simp
          · by_cases hwu : w = u
            · subst hwu
              rw [if_neg hwv, if_pos rfl, setAdd_of_not_mem hp, if_pos rfl, if_neg hwv]
              simp
            · rw [if_neg hwv, if_neg hwu, if_neg hwu, if_neg hwv]
              simp
        have hsum : (∑ w in Finset.Icc 1 g.num_vertices,
            ((g.representation.add_edge u v).adj w).length) =
            (∑ w in Finset.Icc 1 g.num_vertices,
              (g.representation.adj w).length) + 2 := by
          calc (∑ w in Finset.Icc 1 g.num_vertices,
              ((g.representation.add_edge u v).adj w).length)
              = ∑ w in Finset.Icc 1 g.num_vertices,
                ((g.representation.adj w).length +
                  ((if w = u then 1 else 0) + (if w = v then 1 else 0))) :=
                Finset.sum_congr rfl (fun w _ => hlen w)
            _ = (∑ w in Finset.Icc 1 g.num_vertices,
                  (g.representation.adj w).length) +
                ∑ w in Finset.Icc 1 g.num_vertices,
                  ((if w = u then 1 else 0) + (if w = v then 1 else 0)) :=
                Finset.sum_add_distrib
            _ = (∑ w in Finset.Icc 1 g.num_vertices,
                  (g.representation.adj w).length) +
                ((∑ w in Finset.Icc 1 g.num_vertices, (if w = u then 1 else 0)) +
                  ∑ w in Finset.Icc 1 g.num_vertices, (if w = v then 1 else 0)) := by
                rw [Finset.sum_add_distrib]
            _ = _ := by
                rw [Finset.sum_ite_eq' (Finset.Icc 1 g.num_vertices) u (fun _ => 1),
                  Finset.sum_ite_eq' (Finset.Icc 1 g.num_vertices) v (fun _ => 1),
                  if_pos (Finset.mem_Icc.2 hok.1), if_pos (Finset.mem_Icc.2 hok.2)]
        have hloop : ∀ w ∈ Finset.Icc 1 g.num_vertices,
            (w ∈ (g.representation.add_edge u v).adj w ↔
              w ∈ g.representation.adj w) := by
          intro w _
          rw [AL_mem_add_edge_adj]
          constructor
          · rintro (h | ⟨-, h | h⟩)
            · exact h
            · exact absurd (h.1.symm.trans h.2) huv
            · exact absurd (h.2.symm.trans h.1) huv
          · exact fun h => Or.inl h
        have hcard : ((Finset.Icc 1 g.num_vertices).filter
            (fun w => w ∈ (g.representation.add_edge u v).adj w)).card =
            ((Finset.Icc 1 g.num_vertices).filter
              (fun w => w ∈ g.representation.adj w)).card := by
          rw [Finset.filter_congr hloop]
        rw [hsum, hcard]
        omega
  · rw [Graph.add_edge_snd_of_not_bounds hok]
    exact hhs

theorem build_hsL (n : Nat) (es : List (Nat × Nat)) :
    HSL (Graph.build AdjacencyList n es) := by
  have h := Graph.build_induction AdjacencyList n (fun g => GraphLWF g ∧ HSL g)
    ⟨⟨rfl, fun w => List.nodup_nil, fun u v h => absurd h (List.not_mem_nil v),
        fun u v => by simp [Graph.new, GRL_init, AdjacencyList.init]⟩, by
      unfold HSL
      simp [Graph.new, GRL_init, AdjacencyList.init]⟩
    (fun g u v h => ⟨wfL_step g u v h.1, hsL_step g u v h.1 h.2⟩) es
  exact h.2

theorem Icc_one_eq_image_range (n : Nat) :
    Finset.Icc 1 n = (Finset.range n).image (fun i => i + 1) := by
  ext a
  simp only [Finset.mem_Icc, Finset.mem_image, Finset.mem_range]
  constructor
  · rintro ⟨h1, h2⟩
    exact ⟨a - 1, by omega, by omega⟩
  · rintro ⟨i, hi, rfl⟩
    omega

theorem sum_map_range_eq (n : Nat) (f : Nat → Nat) :
    ((List.range n).map f).sum = ∑ i in Finset.range n, f i := by
  induction n with
  | zero => simp
  | succ n ih =>
    rw [List.range_succ, List.map_append, List.sum_append, Finset.sum_range_succ, ih]
    simp

theorem sum_Icc_eq_list (n : Nat) (f : Nat → Nat) :
    (∑ w in Finset.Icc 1 n, f w) = ((List.range n).map (fun i => f (i + 1))).sum := by
  rw [Icc_one_eq_image_range, Finset.sum_image (fun x _ y _ h => by omega),
    sum_map_range_eq]

theorem length_filter_range (n : Nat) (p : Nat → Bool) :
    ((List.range n).filter p).length =
      ((Finset.range n).filter (fun i => p i = true)).card := by
  induction n with
  | zero => simp
  | succ n ih =>
    rw [List.range_succ, List.filter_append, List.length_append, Finset.range_succ,
      Finset.filter_insert]
    by_cases h : p n = true
    · rw [if_pos h, Finset.card_insert_of_not_mem (by simp), ih]
      simp [h]
    · rw [if_neg h, ih]
      simp [h]

theorem card_Icc_filter_eq (n : Nat) (p : Nat → Prop) [DecidablePred p] :
    ((Finset.Icc 1 n).filter p).card =
      ((Finset.range n).filter (fun i => p (i + 1))).card := by
  rw [Icc_one_eq_image_range, Finset.filter_image,
    Finset.card_image_of_injective _ (fun a b h => by omega)]

/-- C2 as stated is false on the code: with one self-loop (N = 1, edge
(1,1)) the degree sum is 1 while twice the edge count is 2. -/
theorem C2_degree_sum_counterexample :
    ¬ (((Graph.build AdjacencyList 1 [(1, 1)]).calculate_all_degrees).1.sum =
      2 * GraphRepresentation.edge_count
        (Graph.build AdjacencyList 1 [(1, 1)]).representation) := by
  decide

/-- C2 amended: for every graph built by add_edge calls, in both
representations, degree(v) (the cached entry) equals the length of
neighbors(v) for every vertex v in [1, N]; and the sum of all degrees plus
the number of stored self-loop edges equals 2 * edgeCount().  (With no
self-loops this is the claim's handshake identity; each self-loop
contributes 1, not 2, to the degree sum.) -/
theorem C2_degrees_and_handshake (n : Nat) (es : List (Nat × Nat)) :
    (∀ v, 1 ≤ v → v ≤ n →
      (∃ l, (Graph.build AdjacencyList n es).get_neighbors v = Except.ok l ∧
        ((Graph.build AdjacencyList n es).calculate_all_degrees).1[v - 1]? =
          some l.length) ∧
      (∃ l, (Graph.build AdjacencyMatrix n es).get_neighbors v = Except.ok l ∧
        ((Graph.build AdjacencyMatrix n es).calculate_all_degrees).1[v - 1]? =
          some l.length)) ∧
    ((Graph.build AdjacencyList n es).calculate_all_degrees).1.sum +
        selfLoopsL (Graph.build AdjacencyList n es) =
      2 * GraphRepresentation.edge_count
          (Graph.build AdjacencyList n es).representation ∧
    ((Graph.build AdjacencyMatrix n es).calculate_all_degrees).1.sum +
        selfLoopsM (Graph.build AdjacencyMatrix n es) =
      2 * GraphRepresentation.edge_count
          (Graph.build AdjacencyMatrix n es).representation := by
  have hnl := Graph.build_num_vertices AdjacencyList n es
  have hnm := Graph.build_num_vertices AdjacencyMatrix n es
  have hwl := build_wfL n es
  have hwm := build_wfM n es
  have hag := build_agree n es
  have hdl : ((Graph.build AdjacencyList n es).calculate_all_degrees).1 =
      (List.range n).map
        (fun i => ((Graph.build AdjacencyList n es).nbrs (i + 1)).length) := by
    rw [calc_degrees_of_cache_none (build_cache_none AdjacencyList n es), hnl]
  have hdm : ((Graph.build AdjacencyMatrix n es).calculate_all_degrees).1 =
      (List.range n).map
        (fun i => ((Graph.build AdjacencyMatrix n es).nbrs (i + 1)).length) := by
    rw [calc_degrees_of_cache_none (build_cache_none AdjacencyMatrix n es), hnm]
  have hlen_eq : ∀ i ∈ List.range n,
      ((Graph.build AdjacencyList n es).nbrs (i + 1)).length =
        ((Graph.build AdjacencyMatrix n es).nbrs (i + 1)).length := by
    intro i _
    refine List.Perm.length_eq ?_
    refine (List.perm_ext_iff_of_nodup ?_ ?_).2 ?_
    · exact hwl.2.1 (i + 1)
    · exact AM_nodup_get_neighbors _ (i + 1)
    · exact nbrs_agree hwl hwm hag (by omega)
  refine ⟨?_, ?_, ?_⟩
  · intro v h1 h2
    have hv1 : v - 1 < n := by omega
    have hv2 : v - 1 + 1 = v := by omega
    constructor
    · refine ⟨_, Graph.get_neighbors_of_bounds (by rw [hnl]; exact ⟨h1, h2⟩), ?_⟩
      rw [hdl, List.getElem?_map, List.getElem?_range hv1]
      simp only [Option.map_some']
      rw [hv2]
      rfl
    · refine ⟨_, Graph.get_neighbors_of_bounds (by rw [hnm]; exact ⟨h1, h2⟩), ?_⟩
      rw [hdm, List.getElem?_map, List.getElem?_range hv1]
      simp only [Option.map_some']
      rw [hv2]
      rfl
  · have hhs := build_hsL n es
    unfold HSL at hhs
    rw [hnl] at hhs
    have hsum : ((Graph.build AdjacencyList n es).calculate_all_degrees).1.sum =
        ∑ w in Finset.Icc 1 n,
          ((Graph.build AdjacencyList n es).representation.adj w).length := by
      rw [hdl, sum_Icc_eq_list]
      rfl
    have hloops : selfLoopsL (Graph.build AdjacencyList n es) =
        ((Finset.Icc 1 n).filter
          (fun w => w ∈ (Graph.build AdjacencyList n es).representation.adj w)).card := by
      unfold selfLoopsL
      rw [hnl, length_filter_range]
      rw [Finset.filter_congr (fun i _ =>
        (Iff.intro of_decide_eq_true (fun h => decide_eq_true h) :
          (decide ((i + 1) ∈ (Graph.build AdjacencyList n es).representation.adj (i + 1)) =
            true) ↔ _))]
      exact (card_Icc_filter_eq n
        (fun w => w ∈ (Graph.build AdjacencyList n es).representation.adj w)).symm
    rw [hsum, hloops, GRL_edge_count]
    exact hhs
  · have hhs := build_hsL n es
    unfold HSL at hhs
    rw [hnl] at hhs
    have hsum_m : ((Graph.build AdjacencyMatrix n es).calculate_all_degrees).1.sum =
        ((Graph.build AdjacencyList n es).calculate_all_degrees).1.sum := by
      rw [hdl, hdm]
      exact congrArg List.sum (List.map_congr_left (fun i hi => (hlen_eq i hi).symm))
    have hloops_m : selfLoopsM (Graph.build AdjacencyMatrix n es) =
        selfLoopsL (Graph.build AdjacencyList n es) := by
      have hpt : ∀ i ∈ List.range n,
          ((Graph.build AdjacencyMatrix n es).representation.matrix i i) =
            decide ((i + 1) ∈
              (Graph.build AdjacencyList n es).representation.adj (i + 1)) := by
        intro i _
        have hiff : ((i + 1) ∈
            (Graph.build AdjacencyList n es).representation.adj (i + 1)) ↔
            (Graph.build AdjacencyMatrix n es).representation.matrix i i = true := by
          have h := hag.2.2 (i + 1) (i + 1) (by omega) (by omega)
          simpa using h
        rcases Bool.eq_false_or_eq_true
            ((Graph.build AdjacencyMatrix n es).representation.matrix i i) with hb | hb
        · rw [hb]
          exact (decide_eq_true (hiff.2 hb)).symm
        · rw [hb]
          refine (decide_eq_false ?_).symm
          intro hmem
          have hcontra := hiff.1 hmem
          rw [hb] at hcontra
          exact absurd hcontra (by decide)
      unfold selfLoopsL selfLoopsM
      rw [hnl, hnm]
      exact congrArg List.length (List.filter_congr hpt)
    have hec : GraphRepresentation.edge_count
        (Graph.build AdjacencyMatrix n es).representation =
        GraphRepresentation.edge_count
          (Graph.build AdjacencyList n es).representation := by
      rw [GRL_edge_count, GRM_edge_count, hag.2.1]
    rw [hsum_m, hloops_m, hec]
    have hsum : ((Graph.build AdjacencyList n es).calculate_all_degrees).1.sum =
        ∑ w in Finset.Icc 1 n,
          ((Graph.build AdjacencyList n es).representation.adj w).length := by
      rw [hdl, sum_Icc_eq_list]
      rfl
    have hloops : selfLoopsL (Graph.build AdjacencyList n es) =
        ((Finset.Icc 1 n).filter
          (fun w => w ∈ (Graph.build AdjacencyList n es).representation.adj w)).card := by
      unfold selfLoopsL
      rw [hnl, length_filter_range]
      rw [Finset.filter_congr (fun i _ =>
        (Iff.intro of_decide_eq_true (fun h => decide_eq_true h) :
          (decide ((i + 1) ∈ (Graph.build AdjacencyList n es).representation.adj (i + 1)) =
            true) ↔ _))]
      exact (card_Icc_filter_eq n
        (fun w => w ∈ (Graph.build AdjacencyList n es).representation.adj w)).symm
    rw [hsum, hloops, GRL_edge_count]
    exact hhs

/-- Witness for C2 (amended) at n = 2, es = [(1,2)]. -/
theorem C2_degrees_and_handshake_witness :
    (∀ v, 1 ≤ v → v ≤ 2 →
      (∃ l, (Graph.build AdjacencyList 2 [(1, 2)]).get_neighbors v = Except.ok l ∧
        ((Graph.build AdjacencyList 2 [(1, 2)]).calculate_all_degrees).1[v - 1]? =
          some l.length) ∧
      (∃ l, (Graph.build AdjacencyMatrix 2 [(1, 2)]).get_neighbors v = Except.ok l ∧
        ((Graph.build AdjacencyMatrix 2 [(1, 2)]).calculate_all_degrees).1[v - 1]? =
          some l.length)) ∧
    ((Graph.build AdjacencyList 2 [(1, 2)]).calculate_all_degrees).1.sum +
        selfLoopsL (Graph.build AdjacencyList 2 [(1, 2)]) =
      2 * GraphRepresentation.edge_count
          (Graph.build AdjacencyList 2 [(1, 2)]).representation ∧
    ((Graph.build AdjacencyMatrix 2 [(1, 2)]).calculate_all_degrees).1.sum +
        selfLoopsM (Graph.build AdjacencyMatrix 2 [(1, 2)]) =
      2 * GraphRepresentation.edge_count
          (Graph.build AdjacencyMatrix 2 [(1, 2)]).representation :=
  C2_degrees_and_handshake 2 [(1, 2)]

/-! ## Claim C3: loop invariants for dict domains -/

theorem foldl_preserves {β : Type} (f : β → Nat → β) (P : β → Prop) (Q : Nat → Prop)
    (hstep : ∀ st x, Q x → P st → P (f st x)) :
    ∀ (L : List Nat) (st : β), (∀ x ∈ L, Q x) → P st → P (List.foldl f st L) := by
  intro L
  induction L with
  | nil => exact fun st _ h => h
  | cons x xs ih =>
    intro st hQ hP
    exact ih _ (fun y hy => hQ y (List.mem_cons_of_mem x hy))
      (hstep st x (hQ x (List.mem_cons_self x xs)) hP)

theorem bfsLoop_preserves (nbrs : Nat → List Nat) (P : BFSState → Prop)
    (hstep : ∀ st u rest, st.queue = u :: rest →
      P st → P (bfsVisit u (nbrs u) { st with queue := rest })) :
    ∀ fuel st, P st → P (bfsLoop nbrs fuel st) := by
  intro fuel
  induction fuel with
  | zero => exact fun st h => h
  | succ fuel ih =>
    intro st h
    cases hq : st.queue with
    | nil => simpa [bfsLoop, hq] using h
    | cons u rest =>
      simp only [bfsLoop, hq]
      exact ih _ (hstep st u rest hq h)

theorem dfsLoop_preserves (nbrs : Nat → List Nat) (P : DFSState → Prop)
    (hstep : ∀ st u level rest, st.stack = (u, level) :: rest →
      P st → P (dfsVisit u level (sortDescBy (fun x => x) (nbrs u))
        { st with stack := rest })) :
    ∀ fuel st, P st → P (dfsLoop nbrs fuel st) := by
  intro fuel
  induction fuel with
  | zero => exact fun st h => h
  | succ fuel ih =>
    intro st h
    cases hq : st.stack with
    | nil => simpa [dfsLoop, hq] using h
    | cons p rest =>
      cases p with
      | mk u level =>
        simp only [dfsLoop, hq]
        exact ih _ (hstep st u level rest hq h)

theorem floodLoop_preserves (nbrs : Nat → List Nat) (P : FloodState → Prop)
    (hstep : ∀ st u rest, st.queue = u :: rest →
      P st → P (floodVisit (nbrs u) { st with queue := rest })) :
    ∀ fuel st, P st → P (floodLoop nbrs fuel st) := by
  intro fuel
  induction fuel with
  | zero => exact fun st h => h
  | succ fuel ih =>
    intro st h
    cases hq : st.queue with
    | nil => simpa [floodLoop, hq] using h
    | cons u rest =>
      simp only [floodLoop, hq]
      exact ih _ (hstep st u rest hq h)

theorem update_isSome_iff {α : Type} {m : Nat → Option α} {n x : Nat}
    (hx : 1 ≤ x ∧ x ≤ n) (hd : ∀ v, (m v).isSome ↔ (1 ≤ v ∧ v ≤ n)) (a : α) :
    ∀ v, ((fun w => if w = x then some a else m w) v).isSome ↔ (1 ≤ v ∧ v ≤ n) := by
  intro v
  by_cases hv : v = x
  · subst hv
    simpa using hx
  · simpa [hv] using hd v

theorem bfsVisit_dom {n : Nat} (u : Nat) (L : List Nat)
    (hL : ∀ x ∈ L, 1 ≤ x ∧ x ≤ n) {st : BFSState} (h : BFSDom n st) :
    BFSDom n (bfsVisit u L st) := by
  refine foldl_preserves _ (BFSDom n) (fun x => 1 ≤ x ∧ x ≤ n) ?_ L st hL h
  intro st x hx hst
  dsimp only
  split
  · exact ⟨update_isSome_iff hx hst.1 _, update_isSome_iff hx hst.2 _⟩
  · exact hst

theorem bfsRun_dom {n : Nat} {nbrs : Nat → List Nat} {s : Nat}
    (hwf : NbrsWF n nbrs) (hs : 1 ≤ s ∧ s ≤ n) :
    BFSDom n (bfsRun n nbrs s) := by
  unfold bfsRun
  refine bfsLoop_preserves nbrs (BFSDom n) ?_ _ _ ?_
  · intro st u rest hq hst
    exact bfsVisit_dom u (nbrs u) (fun x hx => hwf u x hx) hst
  · constructor
    · intro v
      by_cases hv : v = s
      · subst hv
        simpa using hs
      · by_cases hin : 1 ≤ v ∧ v ≤ n <;> simp [hv, hin]
    · intro v
      by_cases hin : 1 ≤ v ∧ v ≤ n <;> simp [hin]

theorem insertDescBy_perm {α : Type} (k : α → Nat) (x : α) (l : List α) :
    (insertDescBy k x l).Perm (x :: l) := by
  induction l with
  | nil => exact List.Perm.refl _
  | cons y ys ih =>
    unfold insertDescBy
    split
    · exact List.Perm.refl _
    · exact (List.Perm.cons y ih).trans (List.Perm.swap x y ys)

theorem sortDescBy_perm {α : Type} (k : α → Nat) (l : List α) :
    (sortDescBy k l).Perm l := by
  induction l with
  | nil => exact List.Perm.refl _
  | cons x xs ih =>
    exact (insertDescBy_perm k x (sortDescBy k xs)).trans (List.Perm.cons x ih)

theorem mem_sortDescBy {α : Type} {k : α → Nat} {x : α} {l : List α} :
    x ∈ sortDescBy k l ↔ x ∈ l :=
  (sortDescBy_perm k l).mem_iff

theorem dfsVisit_dom {n : Nat} (u : Nat) (level : Int) (L : List Nat)
    (hL : ∀ x ∈ L, 1 ≤ x ∧ x ≤ n) {st : DFSState} (h : DFSDom n st) :
    DFSDom n (dfsVisit u level L st) := by
  refine foldl_preserves _ (DFSDom n) (fun x => 1 ≤ x ∧ x ≤ n) ?_ L st hL h
  intro st x hx hst
  dsimp only
  split
  · exact hst
  · exact ⟨update_isSome_iff hx hst.1 _, update_isSome_iff hx hst.2 _⟩

theorem dfsRun_dom {n : Nat} {nbrs : Nat → List Nat} {s : Nat}
    (hwf : NbrsWF n nbrs) (hs : 1 ≤ s ∧ s ≤ n) :
    DFSDom n (dfsRun n nbrs s) := by
  unfold dfsRun
  refine dfsLoop_preserves nbrs (DFSDom n) ?_ _ _ ?_
  · intro st u level rest hq hst
    refine dfsVisit_dom u level _ ?_ hst
    intro x hx
    exact hwf u x (mem_sortDescBy.1 hx)
  · constructor
    · intro v
      by_cases hv : v = s
      · subst hv
        simpa using hs
      · by_cases hin : 1 ≤ v ∧ v ≤ n <;> simp [hv, hin]
    · intro v
      by_cases hin : 1 ≤ v ∧ v ≤ n <;> simp [hin]

theorem build_nbrs_wfL (n : Nat) (es : List (Nat × Nat)) :
    NbrsWF n (Graph.build AdjacencyList n es).nbrs := by
  intro u x hx
  have h := (build_wfL n es).2.2.1 u x hx
  rw [Graph.build_num_vertices] at h
  exact h.2

theorem build_nbrs_wfM (n : Nat) (es : List (Nat × Nat)) :
    NbrsWF n (Graph.build AdjacencyMatrix n es).nbrs := by
  intro u x hx
  rw [show (Graph.build AdjacencyMatrix n es).nbrs u =
    (Graph.build AdjacencyMatrix n es).representation.get_neighbors u from rfl] at hx
  have h := (AM_mem_get_neighbors _ u x).1 hx
  refine ⟨h.1, ?_⟩
  have := h.2.1
  rw [(build_wfM n es).1, Graph.build_num_vertices] at this
  exact this

theorem Graph.bfs_of_bounds [GraphRepresentation ρ] {g : Graph ρ} {s : Nat}
    (hs : 1 ≤ s ∧ s ≤ g.num_vertices) :
    g.breadth_first_search s = Except.ok
      { parents := (bfsRun g.num_vertices g.nbrs s).parents
        levels := (bfsRun g.num_vertices g.nbrs s).levels } := by
  unfold Graph.breadth_first_search
  rw [if_pos (bounds_iff.2 hs)]

theorem Graph.bfs_of_not_bounds [GraphRepresentation ρ] {g : Graph ρ} {s : Nat}
    (hs : ¬ (1 ≤ s ∧ s ≤ g.num_vertices)) :
    g.breadth_first_search s = Except.error GraphError.outOfRange := by
  unfold Graph.breadth_first_search
  rw [if_neg (fun hc => hs (bounds_iff.1 hc))]

theorem Graph.dfs_of_bounds [GraphRepresentation ρ] {g : Graph ρ} {s : Nat}
    (hs : 1 ≤ s ∧ s ≤ g.num_vertices) :
    g.depth_first_search s = Except.ok
      { parents := (dfsRun g.num_vertices g.nbrs s).parents
        levels := (dfsRun g.num_vertices g.nbrs s).levels } := by
  unfold Graph.depth_first_search
  rw [if_pos hs]

theorem Graph.dfs_of_not_bounds [GraphRepresentation ρ] {g : Graph ρ} {s : Nat}
    (hs : ¬ (1 ≤ s ∧ s ≤ g.num_vertices)) :
    g.depth_first_search s = Except.error GraphError.outOfRange := by
  unfold Graph.depth_first_search
  rw [if_neg hs]

/-- C3 as stated is false on the code: on a one-vertex graph,
`get_distance(1, 2)` has its second argument out of range but raises
Python's KeyError (`levels[2]` on a dict with key 1 only), not the
OutOfRange error. -/
theorem C3_distance_counterexample :
    (Graph.build AdjacencyList 1 []).get_distance 1 2 =
        Except.error GraphError.keyError ∧
    ¬ ((Graph.build AdjacencyList 1 []).get_distance 1 2 =
        Except.error GraphError.outOfRange) := by
  refine ⟨rfl, ?_⟩
  intro hc
  rw [show (Graph.build AdjacencyList 1 []).get_distance 1 2 =
    Except.error GraphError.keyError from rfl] at hc
  exact absurd (Except.error.inj hc) (by decide)

/-- C3 amended: addEdge, neighbors, breadthFirstSearch and depthFirstSearch
raise OutOfRange exactly when a vertex argument is outside [1, N] and
succeed otherwise; distance(u, v) raises OutOfRange exactly when u is
outside [1, N], but an out-of-range second argument v (with u valid)
raises KeyError — the dict lookup `levels[v]` fails — and with both
arguments valid it succeeds.  Both representations. -/
theorem C3_operation_bounds (n : Nat) (es : List (Nat × Nat)) (u v s : Nat) :
    (((Graph.build AdjacencyList n es).add_edge u v).1 =
      (if (1 ≤ u ∧ u ≤ n) ∧ (1 ≤ v ∧ v ≤ n) then Except.ok ()
       else Except.error GraphError.outOfRange)) ∧
    (((Graph.build AdjacencyMatrix n es).add_edge u v).1 =
      (if (1 ≤ u ∧ u ≤ n) ∧ (1 ≤ v ∧ v ≤ n) then Except.ok ()
       else Except.error GraphError.outOfRange)) ∧
    ((∃ l, (Graph.build AdjacencyList n es).get_neighbors v = Except.ok l) ↔
      (1 ≤ v ∧ v ≤ n)) ∧
    ((Graph.build AdjacencyList n es).get_neighbors v =
        Except.error GraphError.outOfRange ↔ ¬ (1 ≤ v ∧ v ≤ n)) ∧
    ((∃ l, (Graph.build AdjacencyMatrix n es).get_neighbors v = Except.ok l) ↔
      (1 ≤ v ∧ v ≤ n)) ∧
    ((Graph.build AdjacencyMatrix n es).get_neighbors v =
        Except.error GraphError.outOfRange ↔ ¬ (1 ≤ v ∧ v ≤ n)) ∧
    ((∃ m, (Graph.build AdjacencyList n es).breadth_first_search s = Except.ok m) ↔
      (1 ≤ s ∧ s ≤ n)) ∧
    ((Graph.build AdjacencyList n es).breadth_first_search s =
        Except.error GraphError.outOfRange ↔ ¬ (1 ≤ s ∧ s ≤ n)) ∧
    ((∃ m, (Graph.build AdjacencyMatrix n es).breadth_first_search s = Except.ok m) ↔
      (1 ≤ s ∧ s ≤ n)) ∧
    ((Graph.build AdjacencyMatrix n es).breadth_first_search s =
        Except.error GraphError.outOfRange ↔ ¬ (1 ≤ s ∧ s ≤ n)) ∧
    ((∃ m, (Graph.build AdjacencyList n es).depth_first_search s = Except.ok m) ↔
      (1 ≤ s ∧ s ≤ n)) ∧
    ((Graph.build AdjacencyList n es).depth_first_search s =
        Except.error GraphError.outOfRange ↔ ¬ (1 ≤ s ∧ s ≤ n)) ∧
    ((∃ m, (Graph.build AdjacencyMatrix n es).depth_first_search s = Except.ok m) ↔
      (1 ≤ s ∧ s ≤ n)) ∧
    ((Graph.build AdjacencyMatrix n es).depth_first_search s =
        Except.error GraphError.outOfRange ↔ ¬ (1 ≤ s ∧ s ≤ n)) ∧
    (¬ (1 ≤ u ∧ u ≤ n) →
      (Graph.build AdjacencyList n es).get_distance u v =
          Except.error GraphError.outOfRange ∧
      (Graph.build AdjacencyMatrix n es).get_distance u v =
          Except.error GraphError.outOfRange) ∧
    ((1 ≤ u ∧ u ≤ n) → ¬ (1 ≤ v ∧ v ≤ n) →
      (Graph.build AdjacencyList n es).get_distance u v =
          Except.error GraphError.keyError ∧
      (Graph.build AdjacencyMatrix n es).get_distance u v =
          Except.error GraphError.keyError) ∧
    ((1 ≤ u ∧ u ≤ n) → (1 ≤ v ∧ v ≤ n) →
      (∃ d, (Graph.build AdjacencyList n es).get_distance u v = Except.ok d) ∧
      (∃ d, (Graph.build AdjacencyMatrix n es).get_distance u v = Except.ok d)) := by
  have hnl := Graph.build_num_vertices AdjacencyList n es
  have hnm := Graph.build_num_vertices AdjacencyMatrix n es
  have hae : ∀ (ρ : Type) (inst : GraphRepresentation ρ)
      (g : Graph ρ), g.num_vertices = n →
      (g.add_edge u v).1 =
        (if (1 ≤ u ∧ u ≤ n) ∧ (1 ≤ v ∧ v ≤ n) then Except.ok ()
         else Except.error GraphError.outOfRange) := by
    intro ρ inst g hn
    by_cases hok : (1 ≤ u ∧ u ≤ n) ∧ (1 ≤ v ∧ v ≤ n)
    · rw [if_pos hok,
        Graph.add_edge_of_bounds (by rw [hn]; exact hok.1) (by rw [hn]; exact hok.2)]
    · rw [if_neg hok, Graph.add_edge_of_not_bounds (by rw [hn]; exact hok)]
  have hgn : ∀ (ρ : Type) (inst : GraphRepresentation ρ)
      (g : Graph ρ), g.num_vertices = n →
      ((∃ l, g.get_neighbors v = Except.ok l) ↔ (1 ≤ v ∧ v ≤ n)) ∧
      (g.get_neighbors v = Except.error GraphError.outOfRange ↔
        ¬ (1 ≤ v ∧ v ≤ n)) := by
    intro ρ inst g hn
    by_cases hok : 1 ≤ v ∧ v ≤ n
    · rw [Graph.get_neighbors_of_bounds (by rw [hn]; exact hok)]
      constructor
      · exact ⟨fun _ => hok, fun _ => ⟨_, rfl⟩⟩
      · constructor
        · intro h
          exact absurd h (by simp)
        · exact fun h => absurd hok h
    · rw [Graph.get_neighbors_of_not_bounds (by rw [hn]; exact hok)]
      constructor
      · constructor
        · rintro ⟨l, hl⟩
          exact absurd hl (by simp)
        · exact fun h => absurd h hok
      · exact ⟨fun _ => hok, fun _ => rfl⟩
  have hbfs : ∀ (ρ : Type) (inst : GraphRepresentation ρ)
      (g : Graph ρ), g.num_vertices = n →
      ((∃ m, g.breadth_first_search s = Except.ok m) ↔ (1 ≤ s ∧ s ≤ n)) ∧
      (g.breadth_first_search s = Except.error GraphError.outOfRange ↔
        ¬ (1 ≤ s ∧ s ≤ n)) := by
    intro ρ inst g hn
    by_cases hok : 1 ≤ s ∧ s ≤ n
    · rw [Graph.bfs_of_bounds (by rw [hn]; exact hok)]
      exact ⟨⟨fun _ => hok, fun _ => ⟨_, rfl⟩⟩,
        ⟨fun h => absurd h (by simp), fun h => absurd hok h⟩⟩
    · rw [Graph.bfs_of_not_bounds (by rw [hn]; exact hok)]
      exact ⟨⟨fun h => absurd h.choose_spec (by simp), fun h => absurd h hok⟩,
        ⟨fun _ => hok, fun _ => rfl⟩⟩
  have hdfs : ∀ (ρ : Type) (inst : GraphRepresentation ρ)
      (g : Graph ρ), g.num_vertices = n →
      ((∃ m, g.depth_first_search s = Except.ok m) ↔ (1 ≤ s ∧ s ≤ n)) ∧
      (g.depth_first_search s = Except.error GraphError.outOfRange ↔
        ¬ (1 ≤ s ∧ s ≤ n)) := by
    intro ρ inst g hn
    by_cases hok : 1 ≤ s ∧ s ≤ n
    · rw [Graph.dfs_of_bounds (by rw [hn]; exact hok)]
      exact ⟨⟨fun _ => hok, fun _ => ⟨_, rfl⟩⟩,
        ⟨fun h => absurd h (by simp), fun h => absurd hok h⟩⟩
    · rw [Graph.dfs_of_not_bounds (by rw [hn]; exact hok)]
      exact ⟨⟨fun h => absurd h.choose_spec (by simp), fun h => absurd h hok⟩,
        ⟨fun _ => hok, fun _ => rfl⟩⟩
  refine ⟨hae _ _ _ hnl, hae _ _ _ hnm,
    (hgn _ _ _ hnl).1, (hgn _ _ _ hnl).2, (hgn _ _ _ hnm).1, (hgn _ _ _ hnm).2,
    (hbfs _ _ _ hnl).1, (hbfs _ _ _ hnl).2, (hbfs _ _ _ hnm).1, (hbfs _ _ _ hnm).2,
    (hdfs _ _ _ hnl).1, (hdfs _ _ _ hnl).2, (hdfs _ _ _ hnm).1, (hdfs _ _ _ hnm).2,
    ?_, ?_, ?_⟩
  · intro hu
    constructor
    · unfold Graph.get_distance
      rw [Graph.bfs_of_not_bounds (by rw [hnl]; exact hu)]
    · unfold Graph.get_distance
      rw [Graph.bfs_of_not_bounds (by rw [hnm]; exact hu)]
  · intro hu hv
    constructor
    · unfold Graph.get_distance
      rw [Graph.bfs_of_bounds (by rw [hnl]; exact hu), hnl]
      have hd := (bfsRun_dom (build_nbrs_wfL n es) hu).1 v
      have hnone : ((bfsRun n (Graph.build AdjacencyList n es).nbrs u).levels v) = none := by
        rcases hop : ((bfsRun n (Graph.build AdjacencyList n es).nbrs u).levels v) with _ | d
        · rfl
        · exact absurd (hd.1 (by rw [hop]; rfl)) hv
      dsimp only
      rw [hnone]
    · unfold Graph.get_distance
      rw [Graph.bfs_of_bounds (by rw [hnm]; exact hu), hnm]
      have hd := (bfsRun_dom (build_nbrs_wfM n es) hu).1 v
      have hnone : ((bfsRun n (Graph.build AdjacencyMatrix n es).nbrs u).levels v) = none := by
        rcases hop : ((bfsRun n (Graph.build AdjacencyMatrix n es).nbrs u).levels v) with _ | d
        · rfl
        · exact absurd (hd.1 (by rw [hop]; rfl)) hv
      dsimp only
      rw [hnone]
  · intro hu hv
    constructor
    · unfold Graph.get_distance
      rw [Graph.bfs_of_bounds (by rw [hnl]; exact hu), hnl]
      have hd := (bfsRun_dom (build_nbrs_wfL n es) hu).1 v
      rcases hop : ((bfsRun n (Graph.build AdjacencyList n es).nbrs u).levels v) with _ | d
      · rw [hop] at hd
        simp at hd
        exact absurd (hd hv.1) (by omega)
      · dsimp only
        rw [hop]
        exact ⟨d, rfl⟩
    · unfold Graph.get_distance
      rw [Graph.bfs_of_bounds (by rw [hnm]; exact hu), hnm]
      have hd := (bfsRun_dom (build_nbrs_wfM n es) hu).1 v
      rcases hop : ((bfsRun n (Graph.build AdjacencyMatrix n es).nbrs u).levels v) with _ | d
      · rw [hop] at hd
        simp at hd
        exact absurd (hd hv.1) (by omega)
      · dsimp only
        rw [hop]
        exact ⟨d, rfl⟩

/-- Witness for C3 (amended) at n = 2, es = [(1,2)], u = 1, v = 2, s = 1. -/
theorem C3_operation_bounds_witness :
    (((Graph.build AdjacencyList 2 [(1, 2)]).add_edge 1 2).1 =
      (if (1 ≤ 1 ∧ 1 ≤ 2) ∧ (1 ≤ 2 ∧ 2 ≤ 2) then Except.ok ()
       else Except.error GraphError.outOfRange)) ∧
    (((Graph.build AdjacencyMatrix 2 [(1, 2)]).add_edge 1 2).1 =
      (if (1 ≤ 1 ∧ 1 ≤ 2) ∧ (1 ≤ 2 ∧ 2 ≤ 2) then Except.ok ()
       else Except.error GraphError.outOfRange)) ∧
    ((∃ l, (Graph.build AdjacencyList 2 [(1, 2)]).get_neighbors 2 = Except.ok l) ↔
      (1 ≤ 2 ∧ 2 ≤ 2)) ∧
    ((Graph.build AdjacencyList 2 [(1, 2)]).get_neighbors 2 =
        Except.error GraphError.outOfRange ↔ ¬ (1 ≤ 2 ∧ 2 ≤ 2)) ∧
    ((∃ l, (Graph.build AdjacencyMatrix 2 [(1, 2)]).get_neighbors 2 = Except.ok l) ↔
      (1 ≤ 2 ∧ 2 ≤ 2)) ∧
    ((Graph.build AdjacencyMatrix 2 [(1, 2)]).get_neighbors 2 =
        Except.error GraphError.outOfRange ↔ ¬ (1 ≤ 2 ∧ 2 ≤ 2)) ∧
    ((∃ m, (Graph.build AdjacencyList 2 [(1, 2)]).breadth_first_search 1 = Except.ok m) ↔
      (1 ≤ 1 ∧ 1 ≤ 2)) ∧
    ((Graph.build AdjacencyList 2 [(1, 2)]).breadth_first_search 1 =
        Except.error GraphError.outOfRange ↔ ¬ (1 ≤ 1 ∧ 1 ≤ 2)) ∧
    ((∃ m, (Graph.build AdjacencyMatrix 2 [(1, 2)]).breadth_first_search 1 = Except.ok m) ↔
      (1 ≤ 1 ∧ 1 ≤ 2)) ∧
    ((Graph.build AdjacencyMatrix 2 [(1, 2)]).breadth_first_search 1 =
        Except.error GraphError.outOfRange ↔ ¬ (1 ≤ 1 ∧ 1 ≤ 2)) ∧
    ((∃ m, (Graph.build AdjacencyList 2 [(1, 2)]).depth_first_search 1 = Except.ok m) ↔
      (1 ≤ 1 ∧ 1 ≤ 2)) ∧
    ((Graph.build AdjacencyList 2 [(1, 2)]).depth_first_search 1 =
        Except.error GraphError.outOfRange ↔ ¬ (1 ≤ 1 ∧ 1 ≤ 2)) ∧
    ((∃ m, (Graph.build AdjacencyMatrix 2 [(1, 2)]).depth_first_search 1 = Except.ok m) ↔
      (1 ≤ 1 ∧ 1 ≤ 2)) ∧
    ((Graph.build AdjacencyMatrix 2 [(1, 2)]).depth_first_search 1 =
        Except.error GraphError.outOfRange ↔ ¬ (1 ≤ 1 ∧ 1 ≤ 2)) ∧
    (¬ (1 ≤ 1 ∧ 1 ≤ 2) →
      (Graph.build AdjacencyList 2 [(1, 2)]).get_distance 1 2 =
          Except.error GraphError.outOfRange ∧
      (Graph.build AdjacencyMatrix 2 [(1, 2)]).get_distance 1 2 =
          Except.error GraphError.outOfRange) ∧
    ((1 ≤ 1 ∧ 1 ≤ 2) → ¬ (1 ≤ 2 ∧ 2 ≤ 2) →
      (Graph.build AdjacencyList 2 [(1, 2)]).get_distance 1 2 =
          Except.error GraphError.keyError ∧
      (Graph.build AdjacencyMatrix 2 [(1, 2)]).get_distance 1 2 =
          Except.error GraphError.keyError) ∧
    ((1 ≤ 1 ∧ 1 ≤ 2) → (1 ≤ 2 ∧ 2 ≤ 2) →
      (∃ d, (Graph.build AdjacencyList 2 [(1, 2)]).get_distance 1 2 = Except.ok d) ∧
      (∃ d, (Graph.build AdjacencyMatrix 2 [(1, 2)]).get_distance 1 2 = Except.ok d)) :=
  C3_operation_bounds 2 [(1, 2)] 1 2 1

/-! ## Claim C6: DFS is representation-invariant thanks to the sort -/

theorem insertDescBy_pairwise {α : Type} (k : α → Nat) (x : α) {l : List α}
    (h : l.Pairwise (fun a b => k b ≤ k a)) :
    (insertDescBy k x l).Pairwise (fun a b => k b ≤ k a) := by
  induction l with
  | nil => simp [insertDescBy]
  | cons y ys ih =>
    rw [List.pairwise_cons] at h
    unfold insertDescBy
    split
    · rename_i hxy
      rw [List.pairwise_cons]
      refine ⟨?_, List.pairwise_cons.2 h⟩
      intro b hb
      rcases List.mem_cons.1 hb with rfl | hb
      · exact hxy
      · exact le_trans (h.1 b hb) hxy
    · rename_i hxy
      rw [List.pairwise_cons]
      constructor
      · intro b hb
        have hb' := (insertDescBy_perm k x ys).mem_iff.1 hb
        rcases List.mem_cons.1 hb' with rfl | hb2
        · omega
        · exact h.1 b hb2
      · exact ih h.2

theorem sortDescBy_pairwise {α : Type} (k : α → Nat) (l : List α) :
    (sortDescBy k l).Pairwise (fun a b => k b ≤ k a) := by
  induction l with
  | nil => simp [sortDescBy]
  | cons x xs ih => exact insertDescBy_pairwise k x ih

/-- Two duplicate-free lists with the same members sort (descending) to the
same list: the sort erases the representation-specific enumeration order. -/
theorem sortDescBy_id_eq {l1 l2 : List Nat} (h1 : l1.Nodup) (h2 : l2.Nodup)
    (hm : ∀ x, x ∈ l1 ↔ x ∈ l2) :
    sortDescBy (fun x => x) l1 = sortDescBy (fun x => x) l2 := by
  haveI : IsAntisymm Nat (fun a b => (fun x : Nat => x) b ≤ (fun x : Nat => x) a) :=
    ⟨fun a b hab hba => Nat.le_antisymm hba hab⟩
  refine List.eq_of_perm_of_sorted ?_ (sortDescBy_pairwise _ l1) (sortDescBy_pairwise _ l2)
  exact (sortDescBy_perm _ l1).trans
    (((List.perm_ext_iff_of_nodup h1 h2).2 hm).trans (sortDescBy_perm _ l2).symm)

theorem dfsVisit_stack_sub (u : Nat) (level : Int) (L : List Nat) (st : DFSState) :
    ∀ p ∈ (dfsVisit u level L st).stack, p ∈ st.stack ∨ p.1 ∈ L := by
  refine foldl_preserves _ (fun st2 => ∀ p ∈ st2.stack, p ∈ st.stack ∨ p.1 ∈ L)
    (fun x => x ∈ L) ?_ L st (fun x hx => hx) (fun p hp => Or.inl hp)
  intro st2 x hx hP p hp
  by_cases hv : x ∈ st2.visited
  · rw [if_pos hv] at hp
    exact hP p hp
  · rw [if_neg hv] at hp
    rcases List.mem_cons.1 hp with rfl | hp2
    · exact Or.inr hx
    · exact hP p hp2

theorem dfsLoop_congr {n : Nat} {nbrs1 nbrs2 : Nat → List Nat}
    (hw1 : NbrsWF n nbrs1)
    (hsort : ∀ u, 1 ≤ u → u ≤ n →
      sortDescBy (fun x => x) (nbrs1 u) = sortDescBy (fun x => x) (nbrs2 u)) :
    ∀ fuel st, (∀ p ∈ st.stack, 1 ≤ p.1 ∧ p.1 ≤ n) →
      dfsLoop nbrs1 fuel st = dfsLoop nbrs2 fuel st := by
  intro fuel
  induction fuel with
  | zero => exact fun st _ => rfl
  | succ fuel ih =>
    intro st hstack
    cases hq : st.stack with
    | nil => simp [dfsLoop, hq]
    | cons p rest =>
      cases p with
      | mk u level =>
        have hu : 1 ≤ u ∧ u ≤ n := hstack (u, level) (by rw [hq]; exact List.mem_cons_self _ _)
        simp only [dfsLoop, hq]
        rw [← hsort u hu.1 hu.2]
        refine ih _ ?_
        intro p hp
        rcases dfsVisit_stack_sub u level (sortDescBy (fun x => x) (nbrs1 u))
            { st with stack := rest } p hp with hold | hnew
        · exact hstack p (by rw [hq]; exact List.mem_cons_of_mem _ hold)
        · exact hw1 u p.1 (mem_sortDescBy.1 hnew)

/-- C6: for any two graphs built by the same vertex count and the same
edge-insertion sequence, one Sparse and one Dense, depth_first_search from
any valid start returns exactly the same result — equal parent maps and
equal depth maps — because the neighbors of the popped vertex are pushed in
descending sorted order, which depends only on the neighbor set. -/
theorem C6_dfs_representation_invariant (n : Nat) (es : List (Nat × Nat)) (s : Nat)
    (hs : 1 ≤ s ∧ s ≤ n) :
    (Graph.build AdjacencyList n es).depth_first_search s =
      (Graph.build AdjacencyMatrix n es).depth_first_search s := by
  have hnl := Graph.build_num_vertices AdjacencyList n es
  have hnm := Graph.build_num_vertices AdjacencyMatrix n es
  have hwl := build_wfL n es
  have hwm := build_wfM n es
  have hag := build_agree n es
  rw [Graph.dfs_of_bounds (by rw [hnl]; exact hs),
    Graph.dfs_of_bounds (by rw [hnm]; exact hs), hnl, hnm]
  have hrun : dfsRun n (Graph.build AdjacencyList n es).nbrs s =
      dfsRun n (Graph.build AdjacencyMatrix n es).nbrs s := by
    unfold dfsRun
    refine dfsLoop_congr (build_nbrs_wfL n es) ?_ (2 * n + 1) _ ?_
    · intro u hu1 _
      refine sortDescBy_id_eq (hwl.2.1 u) (AM_nodup_get_neighbors _ u) ?_
      exact nbrs_agree hwl hwm hag hu1
    · intro p hp
      rcases List.mem_singleton.1 hp with rfl
      exact hs
  rw [hrun]

/-- Witness for C6 at n = 3, es = [(1,2),(1,3)], s = 1. -/
theorem C6_dfs_representation_invariant_witness :
    (1 ≤ 1 ∧ 1 ≤ 3) ∧
    (Graph.build AdjacencyList 3 [(1, 2), (1, 3)]).depth_first_search 1 =
      (Graph.build AdjacencyMatrix 3 [(1, 2), (1, 3)]).depth_first_search 1 :=
  ⟨by decide, C6_dfs_representation_invariant 3 [(1, 2), (1, 3)] 1 (by decide)⟩

/-! ## Claim C10: shape of the BFS/DFS result maps -/

theorem bfsVisit_c10 {n s : Nat} (u : Nat) (L : List Nat)
    (hL : ∀ x ∈ L, 1 ≤ x ∧ x ≤ n) {st : BFSState} (h : BFSC10 n s st) :
    BFSC10 n s (bfsVisit u L st) := by
  refine foldl_preserves _ (BFSC10 n s) (fun x => 1 ≤ x ∧ x ≤ n) ?_ L st hL h
  intro st x hx hst
  obtain ⟨hdom, hps, hls, hge, hiff⟩ := hst
  by_cases hc : (st.levels x).getD 0 = -1
  · rw [if_pos hc]
    have hxs : x ≠ s := by
      intro hxe
      subst hxe
      rw [hls] at hc
      exact absurd hc (by decide)
    have hgeu : (-1 : Int) ≤ (st.levels u).getD 0 := by
      cases hlu : st.levels u with
      | none =>
        simp only [Option.getD_none]
        decide
      | some l0 =>
        simpa using hge u l0 hlu
    refine ⟨⟨update_isSome_iff hx hdom.1 _, update_isSome_iff hx hdom.2 _⟩, ?_, ?_, ?_, ?_⟩
    · show (if s = x then some (some u) else st.parents s) = some none
      rw [if_neg (fun h2 => hxs h2.symm)]
      exact hps
    · show (if s = x then some ((st.levels u).getD 0 + 1) else st.levels s) = some 0
      rw [if_neg (fun h2 => hxs h2.symm)]
      exact hls
    · intro v l hvl
      dsimp only at hvl
      by_cases hvx : v = x
      · subst hvx
        rw [if_pos rfl] at hvl
        have hli := Option.some.inj hvl
        omega
      · rw [if_neg hvx] at hvl
        exact hge v l hvl
    · intro v hvs
      dsimp only
      by_cases hvx : v = x
      · subst hvx
        rw [if_pos rfl, if_pos rfl]
        constructor
        · intro hl
          exfalso
          have hli := Option.some.inj hl
          omega
        · intro hpn
          exact absurd (Option.some.inj hpn) (by simp)
      · rw [if_neg hvx, if_neg hvx]
        exact hiff v hvs
  · rw [if_neg hc]
    exact ⟨hdom, hps, hls, hge, hiff⟩

theorem bfsRun_c10 {n : Nat} {nbrs : Nat → List Nat} {s : Nat}
    (hwf : NbrsWF n nbrs) (hs : 1 ≤ s ∧ s ≤ n) :
    BFSC10 n s (bfsRun n nbrs s) := by
  unfold bfsRun
  refine bfsLoop_preserves nbrs (BFSC10 n s) ?_ _ _ ?_
  · intro st u rest hq hst
    exact bfsVisit_c10 u (nbrs u) (fun x hxx => hwf u x hxx) hst
  · refine ⟨⟨?_, ?_⟩, ?_, ?_, ?_, ?_⟩
    · intro v
      by_cases hv : v = s
      · subst hv
        simpa using hs
      · by_cases hin : 1 ≤ v ∧ v ≤ n <;> simp [hv, hin]
    · intro v
      by_cases hin : 1 ≤ v ∧ v ≤ n <;> simp [hin]
    · simp [hs]
    · simp
    · intro v l hvl
      dsimp only at hvl
      by_cases hv : v = s
      · rw [if_pos hv] at hvl
        have := Option.some.inj hvl
        omega
      · rw [if_neg hv] at hvl
        by_cases hin : 1 ≤ v ∧ v ≤ n
        · rw [if_pos hin] at hvl
          have := Option.some.inj hvl
          omega
        · rw [if_neg hin] at hvl
          exact absurd hvl (by simp)
    · intro v hvs
      dsimp only
      rw [if_neg hvs]
      by_cases hin : 1 ≤ v ∧ v ≤ n <;> simp [hin, hvs]

theorem dfsVisit_c10 {n s : Nat} (u : Nat) (level : Int) (hlevel : 0 ≤ level)
    (L : List Nat) (hL : ∀ x ∈ L, 1 ≤ x ∧ x ≤ n) {st : DFSState}
    (h : DFSC10 n s st) : DFSC10 n s (dfsVisit u level L st) := by
  refine foldl_preserves _ (DFSC10 n s) (fun x => 1 ≤ x ∧ x ≤ n) ?_ L st hL h
  intro st x hx hst
  obtain ⟨hdom, hvis, hstk, hps, hls, hiff⟩ := hst
  by_cases hc : x ∈ st.visited
  · rw [if_pos hc]
    exact ⟨hdom, hvis, hstk, hps, hls, hiff⟩
  · rw [if_neg hc]
    have hxs : x ≠ s := fun h2 => hc (h2 ▸ hvis)
    refine ⟨⟨update_isSome_iff hx hdom.1 _, update_isSome_iff hx hdom.2 _⟩, ?_, ?_, ?_, ?_, ?_⟩
    · exact mem_setAdd.2 (Or.inr hvis)
    · intro p hp
      rcases List.mem_cons.1 hp with rfl | hp2
      · show (0 : Int) ≤ level + 1
        omega
      · exact hstk p hp2
    · show (if s = x then some (some u) else st.parents s) = some none
      rw [if_neg (fun h2 => hxs h2.symm)]
      exact hps
    · show (if s = x then some (level + 1) else st.levels s) = some 0
      rw [if_neg (fun h2 => hxs h2.symm)]
      exact hls
    · intro v hvs
      dsimp only
      by_cases hvx : v = x
      · subst hvx
        rw [if_pos rfl, if_pos rfl]
        constructor
        · intro hl
          have hli := Option.some.inj hl
          omega
        · intro hpn
          exact absurd (Option.some.inj hpn) (by simp)
      · rw [if_neg hvx, if_neg hvx]
        exact hiff v hvs

theorem dfsRun_c10 {n : Nat} {nbrs : Nat → List Nat} {s : Nat}
    (hwf : NbrsWF n nbrs) (hs : 1 ≤ s ∧ s ≤ n) :
    DFSC10 n s (dfsRun n nbrs s) := by
  unfold dfsRun
  refine dfsLoop_preserves nbrs (DFSC10 n s) ?_ _ _ ?_
  · intro st u level rest hq hst
    have hlevel : (0 : Int) ≤ level :=
      hst.2.2.1 (u, level) (by rw [hq]; exact List.mem_cons_self _ _)
    refine dfsVisit_c10 u level hlevel _ ?_ ?_
    · intro x hxx
      exact hwf u x (mem_sortDescBy.1 hxx)
    · obtain ⟨hdom, hvis, hstk, hps, hls, hiff⟩ := hst
      refine ⟨hdom, hvis, ?_, hps, hls, hiff⟩
      intro p hp
      exact hstk p (by rw [hq]; exact List.mem_cons_of_mem _ hp)
  · refine ⟨⟨?_, ?_⟩, ?_, ?_, ?_, ?_, ?_⟩
    · intro v
      by_cases hv : v = s
      · subst hv
        simpa using hs
      · by_cases hin : 1 ≤ v ∧ v ≤ n <;> simp [hv, hin]
    · intro v
      by_cases hin : 1 ≤ v ∧ v ≤ n <;> simp [hin]
    · exact List.mem_singleton.2 rfl
    · intro p hp
      rcases List.mem_singleton.1 hp with rfl
      show (0 : Int) ≤ 0
      decide
    · simp [hs]
    · simp
    · intro v hvs
      dsimp only
      rw [if_neg hvs]
      by_cases hin : 1 ≤ v ∧ v ≤ n <;> simp [hin, hvs]

/-- C10: for every built graph (both representations) and valid start, both
breadth_first_search and depth_first_search return parent and level dicts
whose key set is exactly {1, ..., N}: unreached vertices are present with
parent None and level -1, the start vertex is present with parent None and
level 0, and parent[v] = None holds exactly for the root and the unreached
vertices, so it cannot by itself distinguish the two. -/
theorem C10_search_map_shape (n : Nat) (es : List (Nat × Nat)) (s : Nat)
    (hs : 1 ≤ s ∧ s ≤ n) :
    (∃ m, (Graph.build AdjacencyList n es).breadth_first_search s = Except.ok m ∧
      MapsC10 n s m) ∧
    (∃ m, (Graph.build AdjacencyList n es).depth_first_search s = Except.ok m ∧
      MapsC10 n s m) ∧
    (∃ m, (Graph.build AdjacencyMatrix n es).breadth_first_search s = Except.ok m ∧
      MapsC10 n s m) ∧
    (∃ m, (Graph.build AdjacencyMatrix n es).depth_first_search s = Except.ok m ∧
      MapsC10 n s m) := by
  have hnl := Graph.build_num_vertices AdjacencyList n es
  have hnm := Graph.build_num_vertices AdjacencyMatrix n es
  refine ⟨⟨_, Graph.bfs_of_bounds (by rw [hnl]; exact hs), ?_⟩,
    ⟨_, Graph.dfs_of_bounds (by rw [hnl]; exact hs), ?_⟩,
    ⟨_, Graph.bfs_of_bounds (by rw [hnm]; exact hs), ?_⟩,
    ⟨_, Graph.dfs_of_bounds (by rw [hnm]; exact hs), ?_⟩⟩
  · have h := bfsRun_c10 (build_nbrs_wfL n es) hs
    rw [hnl]
    exact ⟨h.1.1, h.1.2, h.2.1, h.2.2.1, h.2.2.2.2⟩
  · have h := dfsRun_c10 (build_nbrs_wfL n es) hs
    rw [hnl]
    exact ⟨h.1.1, h.1.2, h.2.2.2.1, h.2.2.2.2.1, h.2.2.2.2.2⟩
  · have h := bfsRun_c10 (build_nbrs_wfM n es) hs
    rw [hnm]
    exact ⟨h.1.1, h.1.2, h.2.1, h.2.2.1, h.2.2.2.2⟩
  · have h := dfsRun_c10 (build_nbrs_wfM n es) hs
    rw [hnm]
    exact ⟨h.1.1, h.1.2, h.2.2.2.1, h.2.2.2.2.1, h.2.2.2.2.2⟩

/-- Witness for C10 at n = 2, es = [(1,2)], s = 1. -/
theorem C10_search_map_shape_witness :
    (1 ≤ 1 ∧ 1 ≤ 2) ∧
    ((∃ m, (Graph.build AdjacencyList 2 [(1, 2)]).breadth_first_search 1 = Except.ok m ∧
      MapsC10 2 1 m) ∧
    (∃ m, (Graph.build AdjacencyList 2 [(1, 2)]).depth_first_search 1 = Except.ok m ∧
      MapsC10 2 1 m) ∧
    (∃ m, (Graph.build AdjacencyMatrix 2 [(1, 2)]).breadth_first_search 1 = Except.ok m ∧
      MapsC10 2 1 m) ∧
    (∃ m, (Graph.build AdjacencyMatrix 2 [(1, 2)]).depth_first_search 1 = Except.ok m ∧
      MapsC10 2 1 m)) :=
  ⟨by decide, C10_search_map_shape 2 [(1, 2)] 1 (by decide)⟩

/-! ## Claim C8: connected components -/

theorem insertAsc_perm (x : Nat) (l : List Nat) : (insertAsc x l).Perm (x :: l) := by
  induction l with
  | nil => exact List.Perm.refl _
  | cons y ys ih =>
    unfold insertAsc
    split
    · exact List.Perm.refl _
    · exact (List.Perm.cons y ih).trans (List.Perm.swap x y ys)

theorem sortAsc_perm (l : List Nat) : (sortAsc l).Perm l := by
  induction l with
  | nil => exact List.Perm.refl _
  | cons x xs ih =>
    exact (insertAsc_perm x (sortAsc xs)).trans (List.Perm.cons x ih)

theorem mem_sortAsc {x : Nat} {l : List Nat} : x ∈ sortAsc l ↔ x ∈ l :=
  (sortAsc_perm l).mem_iff

theorem insertAsc_pairwise (x : Nat) {l : List Nat}
    (h : l.Pairwise (fun a b => a ≤ b)) :
    (insertAsc x l).Pairwise (fun a b => a ≤ b) := by
  induction l with
  | nil => simp [insertAsc]
  | cons y ys ih =>
    rw [List.pairwise_cons] at h
    unfold insertAsc
    split
    · rename_i hxy
      rw [List.pairwise_cons]
      refine ⟨?_, List.pairwise_cons.2 h⟩
      intro b hb
      rcases List.mem_cons.1 hb with rfl | hb
      · exact hxy
      · exact le_trans hxy (h.1 b hb)
    · rename_i hxy
      rw [List.pairwise_cons]
      constructor
      · intro b hb
        rcases List.mem_cons.1 ((insertAsc_perm x ys).mem_iff.1 hb) with rfl | hb2
        · omega
        · exact h.1 b hb2
      · exact ih h.2

theorem sortAsc_pairwise (l : List Nat) :
    (sortAsc l).Pairwise (fun a b => a ≤ b) := by
  induction l with
  | nil => simp [sortAsc]
  | cons x xs ih => exact insertAsc_pairwise x ih

/-- A ≤-sorted list whose minimum is an element has that minimum as head. -/
theorem headD_of_sorted_min {l : List Nat} {x : Nat}
    (hs : l.Pairwise (fun a b => a ≤ b)) (hx : x ∈ l) (hmin : ∀ y ∈ l, x ≤ y) :
    l.headD 0 = x := by
  cases l with
  | nil => exact absurd hx (List.not_mem_nil x)
  | cons h t =>
    show h = x
    rcases List.mem_cons.1 hx with rfl | hxt
    · rfl
    · exact Nat.le_antisymm ((List.pairwise_cons.1 hs).1 x hxt) (hmin h (List.mem_cons_self h t))

theorem insertDescBy_pairwise_ties {α : Type} (k : α → Nat) (R : α → α → Prop)
    (x : α) {l : List α} (hx : ∀ b ∈ l, R x b)
    (hl : l.Pairwise (fun a b => k a = k b → R a b)) :
    (insertDescBy k x l).Pairwise (fun a b => k a = k b → R a b) := by
  induction l with
  | nil => simp [insertDescBy]
  | cons y ys ih =>
    rw [List.pairwise_cons] at hl
    unfold insertDescBy
    split
    · rename_i hky
      refine List.Pairwise.cons ?_ (List.pairwise_cons.2 hl)
      intro b hb _
      exact hx b hb
    · rename_i hky
      refine List.Pairwise.cons ?_ (ih (fun b hb => hx b (List.mem_cons_of_mem _ hb)) hl.2)
      intro b hb
      rcases List.mem_cons.1 ((insertDescBy_perm k x ys).mem_iff.1 hb) with rfl | hb2
      · intro hkeq
        exact absurd hkeq (by omega)
      · exact hl.1 b hb2

/-- Stability of the descending sort: elements with equal keys keep any
pairwise relation they satisfied in input order. -/
theorem sortDescBy_pairwise_ties {α : Type} (k : α → Nat) (R : α → α → Prop)
    {l : List α} (h : l.Pairwise R) :
    (sortDescBy k l).Pairwise (fun a b => k a = k b → R a b) := by
  induction l with
  | nil => simp [sortDescBy]
  | cons x xs ih =>
    rw [List.pairwise_cons] at h
    exact insertDescBy_pairwise_ties k R x
      (fun b hb => h.1 b ((sortDescBy_perm k xs).mem_iff.1 hb)) (ih h.2)

theorem floodVisit_inv {n v0 : Nat} {V : List Nat} (L : List Nat)
    (hL : ∀ x ∈ L, 1 ≤ x ∧ x ≤ n) {st : FloodState} (h : FloodInv n v0 V st) :
    FloodInv n v0 V (floodVisit L st) := by
  refine foldl_preserves _ (FloodInv n v0 V) (fun x => 1 ≤ x ∧ x ≤ n) ?_ L st hL h
  intro st x hx hst
  obtain ⟨hvis, hnd, hv0, hrange, hnotV⟩ := hst
  by_cases hc : x ∈ st.visited
  · rw [if_pos hc]
    exact ⟨hvis, hnd, hv0, hrange, hnotV⟩
  · rw [if_neg hc]
    have hxc : x ∉ st.component_nodes := fun h2 => hc ((hvis x).2 (Or.inr h2))
    have hxV : x ∉ V := fun h2 => hc ((hvis x).2 (Or.inl h2))
    refine ⟨?_, nodup_setAdd hnd x, mem_setAdd.2 (Or.inr hv0), ?_, ?_⟩
    · intro w
      show w ∈ setAdd st.visited x ↔ (w ∈ V ∨ w ∈ setAdd st.component_nodes x)
      rw [mem_setAdd, mem_setAdd, hvis w]
      tauto
    · intro w hw
      rcases mem_setAdd.1 hw with rfl | hw2
      · exact Or.inr hx
      · exact hrange w hw2
    · intro w hw
      rcases mem_setAdd.1 hw with rfl | hw2
      · exact hxV
      · exact hnotV w hw2

theorem floodLoop_inv {n v0 : Nat} {V : List Nat} {nbrs : Nat → List Nat}
    (hwf : NbrsWF n nbrs) :
    ∀ fuel st, FloodInv n v0 V st → FloodInv n v0 V (floodLoop nbrs fuel st) := by
  refine floodLoop_preserves nbrs (FloodInv n v0 V) ?_
  intro st u rest hq hst
  exact floodVisit_inv (nbrs u) (fun x hx => hwf u x hx) hst

theorem componentsStep_inv {n : Nat} {nbrs : Nat → List Nat} (hwf : NbrsWF n nbrs)
    {k : Nat} (hk : k < n) {acc : List Nat × List (Nat × List Nat)}
    (h : CompInv n k acc) : CompInv n (k + 1) (componentsStep nbrs n acc k) := by
  obtain ⟨hcov, hdisj, hcomp, hfull, hrange, hmin, hhead⟩ := h
  unfold componentsStep
  by_cases hv : (k + 1) ∈ acc.1
  · rw [if_pos hv]
    refine ⟨hcov, hdisj, hcomp, ?_, hrange, hmin, ?_⟩
    · intro w h1 h2
      rcases Nat.lt_or_ge w (k + 1) with hw | hw
      · exact hfull w h1 (by omega)
      · have : w = k + 1 := by omega
        rw [this]
        exact hv
    · intro c hc
      exact le_trans (hhead c hc) (Nat.le_succ k)
  · rw [if_neg hv]
    have hF : FloodInv n (k + 1) acc.1
        (floodLoop nbrs (2 * n + 1)
          { visited := setAdd acc.1 (k + 1), component_nodes := [k + 1],
            queue := [k + 1] }) := by
      refine floodLoop_inv hwf _ _ ?_
      refine ⟨?_, List.nodup_singleton _, List.mem_singleton.2 rfl, ?_, ?_⟩
      · intro w
        show w ∈ setAdd acc.1 (k + 1) ↔ (w ∈ acc.1 ∨ w ∈ [k + 1])
        rw [mem_setAdd]
        simp only [List.mem_singleton]
        tauto
      · intro w hw
        rcases List.mem_singleton.1 hw with rfl
        exact Or.inl rfl
      · intro w hw
        rcases List.mem_singleton.1 hw with rfl
        exact hv
    obtain ⟨hvis, hnd, hv0, hr, hnV⟩ := hF
    have hge : ∀ w ∈ (floodLoop nbrs (2 * n + 1)
        { visited := setAdd acc.1 (k + 1), component_nodes := [k + 1],
          queue := [k + 1] }).component_nodes, k + 1 ≤ w ∧ w ≤ n := by
      intro w hw
      rcases hr w hw with rfl | hr2
      · exact ⟨le_refl _, by omega⟩
      · refine ⟨?_, hr2.2⟩
        by_contra hlt
        push_neg at hlt
        exact hnV w hw (hfull w hr2.1 (by omega))
    have hhead_new : (sortAsc (floodLoop nbrs (2 * n + 1)
        { visited := setAdd acc.1 (k + 1), component_nodes := [k + 1],
          queue := [k + 1] }).component_nodes).headD 0 = k + 1 := by
      refine headD_of_sorted_min (sortAsc_pairwise _) (mem_sortAsc.2 hv0) ?_
      intro y hy
      exact (hge y (mem_sortAsc.1 hy)).1
    refine ⟨?_, ?_, ?_, ?_, ?_, ?_, ?_⟩
    · intro w
      show w ∈ (floodLoop nbrs (2 * n + 1) _).visited ↔ _
      rw [hvis w]
      simp only [List.mem_append, List.mem_singleton]
      constructor
      · rintro (hw | hw)
        · obtain ⟨d, hd, hwd⟩ := (hcov w).1 hw
          exact ⟨d, Or.inl hd, hwd⟩
        · exact ⟨_, Or.inr rfl, mem_sortAsc.2 hw⟩
      · rintro ⟨d, hd | rfl, hwd⟩
        · exact Or.inl ((hcov w).2 ⟨d, hd, hwd⟩)
        · exact Or.inr (mem_sortAsc.1 hwd)
    · refine List.pairwise_append.2 ⟨hdisj, List.pairwise_singleton _ _, ?_⟩
      intro d hd cc hcc w hwd
      rcases List.mem_singleton.1 hcc with rfl
      intro hwc
      exact hnV w (mem_sortAsc.1 hwc) ((hcov w).2 ⟨d, hd, hwd⟩)
    · intro c hc
      rcases List.mem_append.1 hc with hc2 | hc2
      · exact hcomp c hc2
      · rcases List.mem_singleton.1 hc2 with rfl
        refine ⟨(sortAsc_perm _).nodup_iff.2 hnd, ((sortAsc_perm _).length_eq).symm, ?_, ?_, ?_⟩
        · exact sortAsc_pairwise _
        · exact List.ne_nil_of_mem (mem_sortAsc.2 hv0)
        · intro w hw
          have := hge w (mem_sortAsc.1 hw)
          omega
    · intro w h1 h2
      show w ∈ (floodLoop nbrs (2 * n + 1) _).visited
      rw [hvis w]
      rcases Nat.lt_or_ge w (k + 1) with hw | hw
      · exact Or.inl (hfull w h1 (by omega))
      · have : w = k + 1 := by omega
        rw [this]
        exact Or.inr hv0
    · intro w hw
      rw [hvis w] at hw
      rcases hw with hw | hw
      · exact hrange w hw
      · have := hge w hw
        omega
    · refine List.pairwise_append.2 ⟨hmin, List.pairwise_singleton _ _, ?_⟩
      intro d hd cc hcc
      rcases List.mem_singleton.1 hcc with rfl
      show d.2.headD 0 < (sortAsc _).headD 0
      rw [hhead_new]
      exact Nat.lt_succ_of_le (hhead d hd)
    · intro c hc
      rcases List.mem_append.1 hc with hc2 | hc2
      · exact le_trans (hhead c hc2) (Nat.le_succ k)
      · rcases List.mem_singleton.1 hc2 with rfl
        show (sortAsc _).headD 0 ≤ k + 1
        rw [hhead_new]

theorem comps_fold_inv {n : Nat} {nbrs : Nat → List Nat} (hwf : NbrsWF n nbrs) :
    ∀ k, k ≤ n →
      CompInv n k ((List.range k).foldl (componentsStep nbrs n) ([], [])) := by
  intro k
  induction k with
  | zero =>
    intro _
    refine ⟨?_, List.Pairwise.nil, ?_, ?_, ?_, List.Pairwise.nil, ?_⟩
    · intro w
      simp
    · intro c hc
      exact absurd hc (List.not_mem_nil c)
    · intro w h1 h2
      omega
    · intro w hw
      exact absurd hw (List.not_mem_nil w)
    · intro c hc
      exact absurd hc (List.not_mem_nil c)
  | succ k ih =>
    intro hk1
    rw [List.range_succ, List.foldl_append]
    simp only [List.foldl_cons, List.foldl_nil]
    exact componentsStep_inv hwf (by omega) (ih (by omega))

theorem sum_lengths_partition :
    ∀ (L : List (Nat × List Nat)) (S : Finset Nat),
      (∀ c ∈ L, c.2.Nodup) →
      L.Pairwise (fun c d => ∀ w, w ∈ c.2 → w ∉ d.2) →
      (∀ w, w ∈ S ↔ ∃ c ∈ L, w ∈ c.2) →
      (L.map (fun c => c.2.length)).sum = S.card := by
  intro L
  induction L with
  | nil =>
    intro S _ _ hS
    have : S = ∅ := by
      refine Finset.eq_empty_iff_forall_not_mem.2 ?_
      intro w hw
      obtain ⟨c, hc, -⟩ := (hS w).1 hw
      exact absurd hc (List.not_mem_nil c)
    rw [this]
    rfl
  | cons c L ih =>
    intro S hnd hdisj hS
    rw [List.pairwise_cons] at hdisj
    have hstep : ∀ w, w ∈ S \ c.2.toFinset ↔ ∃ d ∈ L, w ∈ d.2 := by
      intro w
      rw [Finset.mem_sdiff, List.mem_toFinset, hS w]
      constructor
      · rintro ⟨⟨d, hd, hwd⟩, hwc⟩
        rcases List.mem_cons.1 hd with rfl | hd2
        · exact absurd hwd hwc
        · exact ⟨d, hd2, hwd⟩
      · rintro ⟨d, hd, hwd⟩
        exact ⟨⟨d, List.mem_cons_of_mem _ hd, hwd⟩,
          fun hwc => hdisj.1 d hd w hwc hwd⟩
    have hsub : c.2.toFinset ⊆ S := fun w hw =>
      (hS w).2 ⟨c, List.mem_cons_self _ _, List.mem_toFinset.1 hw⟩
    have hcard := Finset.card_sdiff_add_card_eq_card hsub
    rw [List.map_cons, List.sum_cons,
      ih (S \ c.2.toFinset) (fun d hd => hnd d (List.mem_cons_of_mem _ hd))
        hdisj.2 hstep]
    have hlen : c.2.toFinset.card = c.2.length :=
      List.toFinset_card_of_nodup (hnd c (List.mem_cons_self _ _))
    omega

/-- The C8 properties hold for the components of any graph whose neighbor
function is range-valid — in particular for every built graph. -/
theorem components_spec_of_wf (ρ : Type) [inst : GraphRepresentation ρ]
    (g : Graph ρ) (hwf : NbrsWF g.num_vertices g.nbrs) :
    ComponentsSpec g.num_vertices g.get_connected_components := by
  obtain ⟨hcov, hdisj, hcomp, hfull, hrange, hmin, hhead⟩ :=
    comps_fold_inv hwf g.num_vertices (le_refl _)
  show ComponentsSpec _ (sortDescBy (fun c => c.1)
    ((List.range g.num_vertices).foldl
      (componentsStep g.nbrs g.num_vertices) ([], [])).2)
  have hperm := sortDescBy_perm (fun c => c.1)
    ((List.range g.num_vertices).foldl
      (componentsStep g.nbrs g.num_vertices) ([], [])).2
  refine ⟨?_, ?_, ?_, ?_, ?_, ?_⟩
  · intro v h1 h2
    obtain ⟨c, hc, hvc⟩ := (hcov v).1 (hfull v h1 h2)
    exact ⟨c, hperm.mem_iff.2 hc, hvc⟩
  · refine (hperm.pairwise_iff ?_).2 hdisj
    intro a b hab w hwb hwa
    exact hab w hwa hwb
  · intro c hc
    have hcm := hcomp c (hperm.mem_iff.1 hc)
    refine ⟨hcm.1, hcm.2.1, ?_, hcm.2.2.2.2⟩
    exact (hcm.2.2.1.and hcm.1).imp (fun h2 => lt_of_le_of_ne h2.1 h2.2)
  · have hsum : ((sortDescBy (fun c => c.1)
        ((List.range g.num_vertices).foldl
          (componentsStep g.nbrs g.num_vertices) ([], [])).2).map
        (fun c => c.1)).sum =
        (((List.range g.num_vertices).foldl
          (componentsStep g.nbrs g.num_vertices) ([], [])).2.map
          (fun c => c.1)).sum :=
      (hperm.map (fun c => c.1)).sum_eq
    rw [hsum]
    have hmap : (((List.range g.num_vertices).foldl
        (componentsStep g.nbrs g.num_vertices) ([], [])).2.map
        (fun c => c.1)) =
        (((List.range g.num_vertices).foldl
          (componentsStep g.nbrs g.num_vertices) ([], [])).2.map
          (fun c => c.2.length)) :=
      List.map_congr_left (fun c hc => (hcomp c hc).2.1)
    have hpart : ((((List.range g.num_vertices).foldl
        (componentsStep g.nbrs g.num_vertices) ([], [])).2).map
        (fun c => c.2.length)).sum = (Finset.Icc 1 g.num_vertices).card := by
      have hnd2 : ∀ c ∈ (((List.range g.num_vertices).foldl
          (componentsStep g.nbrs g.num_vertices) ([], [])).2), c.2.Nodup :=
        fun c hc => (hcomp c hc).1
      refine sum_lengths_partition _ _ hnd2 hdisj ?_
      intro w
      rw [Finset.mem_Icc]
      constructor
      · rintro ⟨h1, h2⟩
        exact (hcov w).1 (hfull w h1 h2)
      · intro hw
        exact hrange w ((hcov w).2 hw)
    rw [hmap, hpart, Nat.card_Icc]
    omega
  · exact sortDescBy_pairwise (fun c : Nat × List Nat => c.1) _
  · exact sortDescBy_pairwise_ties (fun c : Nat × List Nat => c.1) _ hmin

/-- C8: connectedComponents() returns a partition of [1, N] with the
documented shape, ordering and tie-breaking, for built graphs in both
representations. -/
theorem C8_connected_components (n : Nat) (es : List (Nat × Nat)) :
    ComponentsSpec n (Graph.build AdjacencyList n es).get_connected_components ∧
    ComponentsSpec n (Graph.build AdjacencyMatrix n es).get_connected_components := by
  constructor
  · have h := components_spec_of_wf AdjacencyList (Graph.build AdjacencyList n es)
      (by rw [Graph.build_num_vertices]; exact build_nbrs_wfL n es)
    rw [Graph.build_num_vertices] at h
    exact h
  · have h := components_spec_of_wf AdjacencyMatrix (Graph.build AdjacencyMatrix n es)
      (by rw [Graph.build_num_vertices]; exact build_nbrs_wfM n es)
    rw [Graph.build_num_vertices] at h
    exact h

/-- Witness for C8 at n = 5, es = [(1,2),(2,3),(4,5)] (the spec's worked
example: components of sizes 3 and 2). -/
theorem C8_connected_components_witness :
    ComponentsSpec 5
      (Graph.build AdjacencyList 5 [(1, 2), (2, 3), (4, 5)]).get_connected_components ∧
    ComponentsSpec 5
      (Graph.build AdjacencyMatrix 5 [(1, 2), (2, 3), (4, 5)]).get_connected_components :=
  C8_connected_components 5 [(1, 2), (2, 3), (4, 5)]

/-! ## Claim C1: reachability facts -/

theorem mem_stepSet {nbrs : Nat → List Nat} {S : Finset Nat} {v : Nat} :
    v ∈ stepSet nbrs S ↔ v ∈ S ∨ ∃ u ∈ S, v ∈ nbrs u := by
  unfold stepSet
  simp [Finset.mem_union, Finset.mem_biUnion, List.mem_toFinset]

theorem reachK_zero {nbrs : Nat → List Nat} {s : Nat} : reachK nbrs s 0 = {s} := rfl

theorem mem_reachK_succ {nbrs : Nat → List Nat} {s v : Nat} {k : Nat} :
    v ∈ reachK nbrs s (k + 1) ↔
      v ∈ reachK nbrs s k ∨ ∃ u ∈ reachK nbrs s k, v ∈ nbrs u := by
  show v ∈ stepSet nbrs (reachK nbrs s k) ↔ _
  exact mem_stepSet

theorem reachK_mono {nbrs : Nat → List Nat} {s : Nat} {j k : Nat} (h : j ≤ k) :
    reachK nbrs s j ⊆ reachK nbrs s k := by
  induction k with
  | zero =>
    rw [Nat.le_zero.1 h]
  | succ k ih =>
    rcases Nat.lt_or_ge j (k + 1) with hj | hj
    · intro v hv
      exact mem_reachK_succ.2 (Or.inl (ih (by omega) hv))
    · rw [Nat.le_antisymm h hj]

theorem reachK_subset_Icc {n : Nat} {nbrs : Nat → List Nat} {s : Nat}
    (hwf : NbrsWF n nbrs) (hs : 1 ≤ s ∧ s ≤ n) (k : Nat) :
    reachK nbrs s k ⊆ Finset.Icc 1 n := by
  induction k with
  | zero =>
    intro v hv
    rw [reachK_zero, Finset.mem_singleton] at hv
    rw [hv, Finset.mem_Icc]
    exact hs
  | succ k ih =>
    intro v hv
    rcases mem_reachK_succ.1 hv with hv2 | ⟨u, -, hvu⟩
    · exact ih hv2
    · rw [Finset.mem_Icc]
      exact hwf u v hvu

theorem edge_step {nbrs : Nat → List Nat} {s u v : Nat} {k : Nat}
    (hu : u ∈ reachK nbrs s k) (hv : v ∈ nbrs u) :
    v ∈ reachK nbrs s (k + 1) :=
  mem_reachK_succ.2 (Or.inr ⟨u, hu, hv⟩)

theorem distSpec_of_reachable {nbrs : Nat → List Nat} {s v : Nat}
    (h : Reachable nbrs s v) : ∃ k, distSpec nbrs s v k := by
  obtain ⟨k, hk⟩ := h
  induction k using Nat.strong_induction_on with
  | _ k ih =>
    by_cases hmin : ∀ j < k, v ∉ reachK nbrs s j
    · exact ⟨k, hk, hmin⟩
    · push_neg at hmin
      obtain ⟨j, hj, hvj⟩ := hmin
      exact ih j hj hvj

theorem distSpec_unique {nbrs : Nat → List Nat} {s v : Nat} {k k2 : Nat}
    (h1 : distSpec nbrs s v k) (h2 : distSpec nbrs s v k2) : k = k2 := by
  rcases Nat.lt_trichotomy k k2 with h | h | h
  · exact absurd h1.1 (h2.2 k h)
  · exact h
  · exact absurd h2.1 (h1.2 k2 h)

theorem distSpec_zero_self {nbrs : Nat → List Nat} {s : Nat} :
    distSpec nbrs s s 0 :=
  ⟨by rw [reachK_zero]; exact Finset.mem_singleton_self s, fun j hj => by omega⟩

theorem distSpec_zero_eq {nbrs : Nat → List Nat} {s v : Nat}
    (h : distSpec nbrs s v 0) : v = s := by
  have := h.1
  rw [reachK_zero, Finset.mem_singleton] at this
  exact this

theorem distSpec_pred {nbrs : Nat → List Nat} {s v : Nat} {m : Nat}
    (h : distSpec nbrs s v (m + 1)) :
    ∃ u, v ∈ nbrs u ∧ distSpec nbrs s u m := by
  rcases mem_reachK_succ.1 h.1 with hv | ⟨u, hu, hvu⟩
  · exact absurd hv (h.2 m (Nat.lt_succ_self m))
  · have hru : Reachable nbrs s u := ⟨m, hu⟩
    obtain ⟨ku, hku⟩ := distSpec_of_reachable hru
    have hle : ku ≤ m := by
      by_contra hgt
      push_neg at hgt
      exact hku.2 m hgt hu
    rcases Nat.lt_or_ge ku m with hlt | hge
    · exfalso
      have : v ∈ reachK nbrs s (ku + 1) := edge_step hku.1 hvu
      exact h.2 (ku + 1) (by omega) this
    · have : ku = m := by omega
      rw [this] at hku
      exact ⟨u, hvu, hku⟩

theorem distSpec_le_succ {nbrs : Nat → List Nat} {s u v : Nat} {ku m : Nat}
    (hu : distSpec nbrs s u ku) (hv : v ∈ nbrs u) (hm : distSpec nbrs s v m) :
    m ≤ ku + 1 := by
  by_contra hgt
  push_neg at hgt
  exact hm.2 (ku + 1) hgt (edge_step hu.1 hv)

/-! ## Claim C1: visited-test facts -/

theorem visB_true_iff {st : BFSState} {v : Nat} :
    visB st v = true ↔ ∃ l, st.levels v = some l ∧ l ≠ -1 := by
  unfold visB
  cases h : st.levels v with
  | none => simp
  | some l => simp [h]

theorem visB_false_iff {st : BFSState} {v : Nat} :
    visB st v = false ↔ st.levels v = none ∨ st.levels v = some (-1) := by
  unfold visB
  cases h : st.levels v with
  | none => simp
  | some l => simp [h]

/-- What one dequeue's neighbor loop does: it appends to the queue, exactly
once each, those members of the neighbor list that were unvisited, and sets
their level to `levels[u] + 1`, leaving everything else unchanged. -/
theorem bfsVisit_char (u : Nat) (L : List Nat) (st : BFSState)
    (hvisu : visB st u = true) (hlvu : 0 ≤ lv st u)
    (hL : ∀ x ∈ L, (st.levels x).isSome = true) :
    ∃ new : List Nat,
      (bfsVisit u L st).queue = st.queue ++ new ∧
      new.Nodup ∧
      (∀ w ∈ new, w ∈ L ∧ visB st w = false) ∧
      (∀ w ∈ L, visB st w = false → w ∈ new) ∧
      (bfsVisit u L st).levels =
        (fun w => if w ∈ new then some (lv st u + 1) else st.levels w) := by
  induction L generalizing st with
  | nil =>
    refine ⟨[], by simp [bfsVisit], List.nodup_nil, by simp, by simp, ?_⟩
    funext w
    simp [bfsVisit]
  | cons x xs ih =>
    by_cases hc : (st.levels x).getD 0 = -1
    · obtain ⟨lx, hlx⟩ := Option.isSome_iff_exists.1 (hL x (List.mem_cons_self x xs))
      have hlx1 : lx = -1 := by
        rw [hlx] at hc
        simpa using hc
      have hxunvis : visB st x = false := by
        rw [visB_false_iff, hlx, hlx1]
        exact Or.inr rfl
      have hux : u ≠ x := by
        intro he
        rw [he, hxunvis] at hvisu
        exact Bool.noConfusion hvisu
      set st1 : BFSState :=
        { parents := fun w => if w = x then some (some u) else st.parents w
          levels := fun w =>
            if w = x then some ((st.levels u).getD 0 + 1) else st.levels w
          queue := st.queue ++ [x] } with hst1def
      have hstep : bfsVisit u (x :: xs) st = bfsVisit u xs st1 := by
        show List.foldl _ _ (x :: xs) = _
        rw [List.foldl_cons, if_pos hc]
        rfl
      have hlevu1 : st1.levels u = st.levels u := by
        rw [hst1def]
        dsimp only
        rw [if_neg hux]
      have hlevx1 : st1.levels x = some ((st.levels u).getD 0 + 1) := by
        rw [hst1def]
        dsimp only
        rw [if_pos rfl]
      have hlevw1 : ∀ w, w ≠ x → st1.levels w = st.levels w := by
        intro w hw
        rw [hst1def]
        dsimp only
        rw [if_neg hw]
      have hq1 : st1.queue = st.queue ++ [x] := by
        rw [hst1def]
      have hvisu1 : visB st1 u = true := by
        rw [visB_true_iff] at hvisu ⊢
        obtain ⟨l, hl, hl1⟩ := hvisu
        exact ⟨l, by rw [hlevu1]; exact hl, hl1⟩
      have hlvu1 : lv st1 u = lv st u := by
        unfold lv
        rw [hlevu1]
      have hL1 : ∀ y ∈ xs, (st1.levels y).isSome = true := by
        intro y hy
        by_cases hyx : y = x
        · rw [hyx, hlevx1]
          rfl
        · rw [hlevw1 y hyx]
          exact hL y (List.mem_cons_of_mem x hy)
      obtain ⟨new2, hq2, hnd2, hmem2, hcompl2, hlev2⟩ :=
        ih st1 hvisu1 (by rw [hlvu1]; exact hlvu) hL1
      have hxnotnew : x ∉ new2 := by
        intro hx2
        have hfalse := (hmem2 x hx2).2
        rw [visB_false_iff, hlevx1] at hfalse
        rcases hfalse with h2 | h2
        · exact Option.noConfusion h2
        · have h3 := Option.some.inj h2
          unfold lv at hlvu
          omega
      refine ⟨x :: new2, ?_, ?_, ?_, ?_, ?_⟩
      · rw [hstep, hq2, hq1, List.append_assoc]
        rfl
      · exact List.nodup_cons.2 ⟨hxnotnew, hnd2⟩
      · intro w hw
        rcases List.mem_cons.1 hw with rfl | hw2
        · exact ⟨List.mem_cons_self _ _, hxunvis⟩
        · have h2 := hmem2 w hw2
          have hwx : w ≠ x := fun he => hxnotnew (he ▸ hw2)
          refine ⟨List.mem_cons_of_mem x h2.1, ?_⟩
          have h3 := h2.2
          rw [visB_false_iff, hlevw1 w hwx] at h3
          rw [visB_false_iff]
          exact h3
      · intro w hw hwunvis
        rcases List.mem_cons.1 hw with rfl | hw2
        · exact List.mem_cons_self _ _
        · by_cases hwx : w = x
          · rw [hwx]
            exact List.mem_cons_self _ _
          · refine List.mem_cons_of_mem x (hcompl2 w hw2 ?_)
            rw [visB_false_iff, hlevw1 w hwx]
            rw [visB_false_iff] at hwunvis
            exact hwunvis
      · rw [hstep, hlev2, hlvu1]
        funext w
        by_cases hwn : w ∈ new2
        · rw [if_pos hwn, if_pos (List.mem_cons_of_mem x hwn)]
        · rw [if_neg hwn]
          by_cases hwx : w = x
          · rw [hwx, hlevx1, if_pos (List.mem_cons_self x new2)]
            rfl
          · rw [hlevw1 w hwx, if_neg (by
              intro hcon
              rcases List.mem_cons.1 hcon with h2 | h2
              · exact hwx h2
              · exact hwn h2)]
    · have hxvis : visB st x = true := by
        obtain ⟨lx, hlx⟩ := Option.isSome_iff_exists.1 (hL x (List.mem_cons_self x xs))
        rw [visB_true_iff]
        refine ⟨lx, hlx, ?_⟩
        intro he
        rw [hlx, he] at hc
        simp at hc
      have hstep : bfsVisit u (x :: xs) st = bfsVisit u xs st := by
        show List.foldl _ _ (x :: xs) = _
        rw [List.foldl_cons, if_neg hc]
        rfl
      obtain ⟨new2, hq2, hnd2, hmem2, hcompl2, hlev2⟩ :=
        ih st hvisu hlvu (fun y hy => hL y (List.mem_cons_of_mem x hy))
      refine ⟨new2, by rw [hstep]; exact hq2, hnd2, ?_, ?_, by rw [hstep]; exact hlev2⟩
      · intro w hw
        have h2 := hmem2 w hw
        exact ⟨List.mem_cons_of_mem x h2.1, h2.2⟩
      · intro w hw hwunvis
        rcases List.mem_cons.1 hw with rfl | hw2
        · rw [hxvis] at hwunvis
          exact Bool.noConfusion hwunvis
        · exact hcompl2 w hw2 hwunvis

/-- Completeness: under the invariant, an unvisited vertex at distance `m`
forces a strictly closer queue entry (its shortest path crosses from the
visited region into the unvisited one at a queued vertex). -/
theorem bfs_completeness {n : Nat} {nbrs : Nat → List Nat} {s : Nat}
    {st : BFSState} (hinv : BFSInv n nbrs s st) :
    ∀ m v, distSpec nbrs s v m → visB st v = false →
      ∃ q ∈ st.queue, ∃ kq, distSpec nbrs s q kq ∧ kq < m := by
  obtain ⟨hdom, hval, hq1, hqsort, hqnear, hproc, hsvis, hqnd⟩ := hinv
  intro m
  induction m using Nat.strong_induction_on with
  | _ m ih =>
    intro v hdv hvunvis
    cases m with
    | zero =>
      have hv := distSpec_zero_eq hdv
      rw [hv, hsvis] at hvunvis
      exact Bool.noConfusion hvunvis
    | succ m =>
      obtain ⟨u2, hvu2, hdu2⟩ := distSpec_pred hdv
      cases hvu : visB st u2 with
      | false =>
        obtain ⟨q, hq, kq, hkq, hlt⟩ := ih m (Nat.lt_succ_self m) u2 hdu2 hvu
        exact ⟨q, hq, kq, hkq, by omega⟩
      | true =>
        by_cases hqm : u2 ∈ st.queue
        · exact ⟨u2, hqm, m, hdu2, Nat.lt_succ_self m⟩
        · have hvt := hproc u2 hvu hqm v hvu2
          rw [hvunvis] at hvt
          exact Bool.noConfusion hvt

/-- Every queue member carries its true distance as its level. -/
theorem queue_lv_dist {n : Nat} {nbrs : Nat → List Nat} {s : Nat}
    {st : BFSState} (hinv : BFSInv n nbrs s st) {q : Nat} (hq : q ∈ st.queue) :
    ∃ kq : Nat, st.levels q = some (kq : Int) ∧ distSpec nbrs s q kq := by
  obtain ⟨hdom, hval, hq1, hqsort, hqnear, hproc, hsvis, hqnd⟩ := hinv
  obtain ⟨l, hl, hl1⟩ := visB_true_iff.1 (hq1 q hq)
  rcases hval q l hl with rfl | ⟨k, rfl, hk⟩
  · exact absurd rfl hl1
  · exact ⟨k, hl, hk⟩

/-- When `u` is at the head of the queue, every unvisited vertex is at
distance at least one more than `u`. -/
theorem unvisited_far {n : Nat} {nbrs : Nat → List Nat} {s : Nat}
    {st : BFSState} (hinv : BFSInv n nbrs s st)
    {u : Nat} {rest : List Nat} (hq : st.queue = u :: rest)
    {ku : Nat} (hku : distSpec nbrs s u ku)
    {v : Nat} {m : Nat} (hdv : distSpec nbrs s v m) (hvun : visB st v = false) :
    ku + 1 ≤ m := by
  obtain ⟨q, hqmem, kq, hkq, hlt⟩ := bfs_completeness hinv m v hdv hvun
  obtain ⟨kq2, hlq, hdq2⟩ := queue_lv_dist hinv hqmem
  have hkqe : kq2 = kq := distSpec_unique hdq2 hkq
  have hu_mem : u ∈ st.queue := by
    rw [hq]
    exact List.mem_cons_self u rest
  obtain ⟨ku2, hlu, hdu2⟩ := queue_lv_dist hinv hu_mem
  have hkue : ku2 = ku := distSpec_unique hdu2 hku
  rw [hq] at hqmem
  rcases List.mem_cons.1 hqmem with rfl | hqrest
  · have : kq = ku := distSpec_unique hkq hku
    omega
  · have hsort := hinv.2.2.2.1
    rw [hq] at hsort
    have hle := (List.pairwise_cons.1 hsort).1 q hqrest
    unfold lv at hle
    rw [hlu, hlq] at hle
    simp only [Option.getD_some] at hle
    have : (ku : Int) ≤ kq := by
      rw [← hkue, ← hkqe]
      exact_mod_cast hle
    omega

theorem pairwise_of_all {α : Type} {R : α → α → Prop} :
    ∀ {l : List α}, (∀ a ∈ l, ∀ b ∈ l, R a b) → l.Pairwise R := by
  intro l
  induction l with
  | nil => exact fun _ => List.Pairwise.nil
  | cons x xs ih =>
    intro h
    refine List.Pairwise.cons ?_ (ih ?_)
    · intro b hb
      exact h x (List.mem_cons_self x xs) b (List.mem_cons_of_mem x hb)
    · intro a ha b hb
      exact h a (List.mem_cons_of_mem x ha) b (List.mem_cons_of_mem x hb)

/-- One dequeue preserves the BFS invariant and strictly decreases the loop
measure. -/
theorem bfs_step {n : Nat} {nbrs : Nat → List Nat} {s : Nat}
    (hwf : NbrsWF n nbrs) {st : BFSState} (hinv : BFSInv n nbrs s st)
    {u : Nat} {rest : List Nat} (hq : st.queue = u :: rest) :
    BFSInv n nbrs s (bfsVisit u (nbrs u) { st with queue := rest }) ∧
    bfsMeasure n (bfsVisit u (nbrs u) { st with queue := rest }) + 1 ≤
      bfsMeasure n st := by
  have humem : u ∈ st.queue := by
    rw [hq]
    exact List.mem_cons_self u rest
  obtain ⟨ku, hlu, hdu⟩ := queue_lv_dist hinv humem
  have hlvu : lv st u = (ku : Int) := by
    unfold lv
    rw [hlu]
    rfl
  obtain ⟨hdom, hval, hq1, hqsort, hqnear, hproc, hsvis, hqnd⟩ := hinv
  have hvisu : visB st u = true := hq1 u humem
  have hlev2 : ({ st with queue := rest } : BFSState).levels = st.levels := rfl
  have hvis2 : ∀ w, visB { st with queue := rest } w = visB st w := fun w => rfl
  have hlv2 : ∀ w, lv { st with queue := rest } w = lv st w := fun w => rfl
  obtain ⟨new, hq3, hnd3, hmem3, hcompl3, hlev3⟩ :=
    bfsVisit_char u (nbrs u) { st with queue := rest }
      (by rw [hvis2]; exact hvisu) (by rw [hlv2, hlvu]; exact Int.ofNat_nonneg ku)
      (by
        intro x hx
        rw [hlev2]
        rw [(hdom x).2 (hwf u x hx)])
  rw [hlev2] at hlev3
  rw [hlv2] at hlev3
  rw [hlvu] at hlev3
  have hq3' : (bfsVisit u (nbrs u) { st with queue := rest }).queue = rest ++ new := hq3
  have hnewIcc : ∀ w ∈ new, 1 ≤ w ∧ w ≤ n := by
    intro w hw
    exact hwf u w (hmem3 w hw).1
  have hnew_unvis : ∀ w ∈ new, visB st w = false := by
    intro w hw
    rw [← hvis2 w]
    exact (hmem3 w hw).2
  have hnewdist : ∀ w ∈ new, distSpec nbrs s w (ku + 1) := by
    intro w hw
    refine ⟨edge_step hdu.1 (hmem3 w hw).1, ?_⟩
    intro j hj hwj
    obtain ⟨m, hm⟩ := distSpec_of_reachable ⟨j, hwj⟩
    have hmj : m ≤ j := by
      by_contra hgt
      push_neg at hgt
      exact hm.2 j hgt hwj
    have := unvisited_far ⟨hdom, hval, hq1, hqsort, hqnear, hproc, hsvis, hqnd⟩
      hq hdu hm (hnew_unvis w hw)
    omega
  have hval_new : (((ku : Int) + 1)) = (((ku + 1 : Nat)) : Int) := by push_cast; ring
  have hlev3w : ∀ w, (bfsVisit u (nbrs u) { st with queue := rest }).levels w =
      if w ∈ new then some ((ku : Int) + 1) else st.levels w := by
    intro w
    rw [hlev3]
  have hvis3 : ∀ w, visB (bfsVisit u (nbrs u) { st with queue := rest }) w = true ↔
      (visB st w = true ∨ w ∈ new) := by
    intro w
    rw [visB_true_iff]
    by_cases hw : w ∈ new
    · constructor
      · intro _
        exact Or.inr hw
      · intro _
        refine ⟨(ku : Int) + 1, by rw [hlev3w w, if_pos hw], ?_⟩
        omega
    · rw [visB_true_iff]
      constructor
      · rintro ⟨l, hl, hl1⟩
        rw [hlev3w w, if_neg hw] at hl
        exact Or.inl ⟨l, hl, hl1⟩
      · rintro (⟨l, hl, hl1⟩ | hmem)
        · exact ⟨l, by rw [hlev3w w, if_neg hw]; exact hl, hl1⟩
        · exact absurd hmem hw
  have hvis3f : ∀ w, visB (bfsVisit u (nbrs u) { st with queue := rest }) w = false ↔
      (visB st w = false ∧ w ∉ new) := by
    intro w
    constructor
    · intro hfw
      constructor
      · cases hvw : visB st w with
        | false => rfl
        | true =>
          have := (hvis3 w).2 (Or.inl hvw)
          rw [hfw] at this
          exact Bool.noConfusion this
      · intro hmem
        have := (hvis3 w).2 (Or.inr hmem)
        rw [hfw] at this
        exact Bool.noConfusion this
    · rintro ⟨hvw, hmem⟩
      cases hfw : visB (bfsVisit u (nbrs u) { st with queue := rest }) w with
      | false => rfl
      | true =>
        rcases (hvis3 w).1 hfw with h2 | h2
        · rw [hvw] at h2
          exact Bool.noConfusion h2
        · exact absurd h2 hmem
  have hrest_sub : ∀ a ∈ rest, a ∈ st.queue := by
    intro a ha
    rw [hq]
    exact List.mem_cons_of_mem u ha
  have hrest_not_new : ∀ a ∈ rest, a ∉ new := by
    intro a ha hmem
    have h1 := hq1 a (hrest_sub a ha)
    have h2 := hnew_unvis a hmem
    rw [h1] at h2
    exact Bool.noConfusion h2
  have hlv3_rest : ∀ a ∈ rest, lv (bfsVisit u (nbrs u) { st with queue := rest }) a =
      lv st a := by
    intro a ha
    unfold lv
    rw [hlev3w a, if_neg (hrest_not_new a ha)]
  have hlv3_new : ∀ a ∈ new, lv (bfsVisit u (nbrs u) { st with queue := rest }) a =
      (ku : Int) + 1 := by
    intro a ha
    unfold lv
    rw [hlev3w a, if_pos ha]
    rfl
  have hlv_rest_near : ∀ a ∈ rest, lv st a ≤ (ku : Int) + 1 := by
    intro a ha
    have := hqnear a (hrest_sub a ha) u humem
    rw [hlvu] at this
    exact this
  have hlv_rest_ge : ∀ a ∈ rest, (ku : Int) ≤ lv st a := by
    intro a ha
    rw [hq] at hqsort
    have := (List.pairwise_cons.1 hqsort).1 a ha
    rw [hlvu] at this
    exact this
  constructor
  · refine ⟨?_, ?_, ?_, ?_, ?_, ?_, ?_, ?_⟩
    · intro v
      rw [hlev3w v]
      by_cases hv : v ∈ new
      · rw [if_pos hv]
        simpa using hnewIcc v hv
      · rw [if_neg hv]
        exact hdom v
    · intro v l hl
      rw [hlev3w v] at hl
      by_cases hv : v ∈ new
      · rw [if_pos hv] at hl
        have hl2 := Option.some.inj hl
        refine Or.inr ⟨ku + 1, ?_, hnewdist v hv⟩
        omega
      · rw [if_neg hv] at hl
        exact hval v l hl
    · intro a ha
      rw [hq3'] at ha
      rcases List.mem_append.1 ha with ha2 | ha2
      · exact (hvis3 a).2 (Or.inl (hq1 a (hrest_sub a ha2)))
      · exact (hvis3 a).2 (Or.inr ha2)
    · rw [hq3']
      refine List.pairwise_append.2 ⟨?_, ?_, ?_⟩
      · have htail : rest.Pairwise (fun a b => lv st a ≤ lv st b) := by
          rw [hq] at hqsort
          exact (List.pairwise_cons.1 hqsort).2
        refine List.Pairwise.imp_of_mem ?_ htail
        intro a b ha hb hab
        rw [hlv3_rest a ha, hlv3_rest b hb]
        exact hab
      · refine pairwise_of_all ?_
        intro a ha b hb
        rw [hlv3_new a ha, hlv3_new b hb]
      · intro a ha b hb
        rw [hlv3_rest a ha, hlv3_new b hb]
        exact hlv_rest_near a ha
    · intro a ha b hb
      rw [hq3'] at ha hb
      rcases List.mem_append.1 ha with ha2 | ha2 <;>
        rcases List.mem_append.1 hb with hb2 | hb2
      · rw [hlv3_rest a ha2, hlv3_rest b hb2]
        exact hqnear a (hrest_sub a ha2) b (hrest_sub b hb2)
      · rw [hlv3_rest a ha2, hlv3_new b hb2]
        have := hlv_rest_near a ha2
        omega
      · rw [hlv3_new a ha2, hlv3_rest b hb2]
        have := hlv_rest_ge b hb2
        omega
      · rw [hlv3_new a ha2, hlv3_new b hb2]
        omega
    · intro u2 hu2vis hu2notq v hv
      by_cases hu2new : u2 ∈ new
      · exact absurd (by rw [hq3']; exact List.mem_append.2 (Or.inr hu2new)) hu2notq
      · have hu2vis' : visB st u2 = true := by
          rcases (hvis3 u2).1 hu2vis with h2 | h2
          · exact h2
          · exact absurd h2 hu2new
        by_cases hu2u : u2 = u
        · subst hu2u
          cases hvv : visB st v with
          | true => exact (hvis3 v).2 (Or.inl hvv)
          | false =>
            refine (hvis3 v).2 (Or.inr ?_)
            refine hcompl3 v hv ?_
            rw [hvis2 v]
            exact hvv
        · have hu2q : u2 ∉ st.queue := by
            rw [hq]
            intro hmem
            rcases List.mem_cons.1 hmem with h2 | h2
            · exact hu2u h2
            · exact hu2notq (by rw [hq3']; exact List.mem_append.2 (Or.inl h2))
          exact (hvis3 v).2 (Or.inl (hproc u2 hu2vis' hu2q v hv))
    · exact (hvis3 s).2 (Or.inl hsvis)
    · rw [hq3']
      rw [List.nodup_append]
      refine ⟨?_, hnd3, ?_⟩
      · rw [hq] at hqnd
        exact (List.nodup_cons.1 hqnd).2
      · intro a ha hb
        exact hrest_not_new a ha hb
  · have hnewF_sub : new.toFinset ⊆
        (Finset.Icc 1 n).filter (fun v => visB st v = false) := by
      intro w hw
      rw [List.mem_toFinset] at hw
      rw [Finset.mem_filter, Finset.mem_Icc]
      exact ⟨hnewIcc w hw, hnew_unvis w hw⟩
    have hfilter3 : (Finset.Icc 1 n).filter
        (fun v => visB (bfsVisit u (nbrs u) { st with queue := rest }) v = false) =
        ((Finset.Icc 1 n).filter (fun v => visB st v = false)) \ new.toFinset := by
      ext w
      rw [Finset.mem_sdiff, Finset.mem_filter, Finset.mem_filter, List.mem_toFinset]
      constructor
      · rintro ⟨hwi, hwf3⟩
        obtain ⟨h1, h2⟩ := (hvis3f w).1 hwf3
        exact ⟨⟨hwi, h1⟩, h2⟩
      · rintro ⟨⟨hwi, h1⟩, h2⟩
        exact ⟨hwi, (hvis3f w).2 ⟨h1, h2⟩⟩
    have hcards := Finset.card_sdiff_add_card_eq_card hnewF_sub
    have hlen_new : new.toFinset.card = new.length := List.toFinset_card_of_nodup hnd3
    unfold bfsMeasure UnvisCount
    rw [hfilter3, hq3', hq, List.length_append, List.length_cons]
    omega

/-- With fuel at least the loop measure, the BFS loop drains the queue while
preserving the invariant. -/
theorem bfsLoop_final {n : Nat} {nbrs : Nat → List Nat} {s : Nat}
    (hwf : NbrsWF n nbrs) :
    ∀ (fuel : Nat) (st : BFSState), BFSInv n nbrs s st →
      bfsMeasure n st ≤ fuel →
      BFSInv n nbrs s (bfsLoop nbrs fuel st) ∧ (bfsLoop nbrs fuel st).queue = [] := by
  intro fuel
  induction fuel with
  | zero =>
    intro st hinv hfuel
    have hq : st.queue = [] := by
      have : st.queue.length = 0 := by
        unfold bfsMeasure at hfuel
        omega
      exact List.length_eq_zero.1 this
    exact ⟨hinv, hq⟩
  | succ fuel ih =>
    intro st hinv hfuel
    cases hq : st.queue with
    | nil =>
      constructor
      · simpa [bfsLoop, hq] using hinv
      · simp [bfsLoop, hq]
    | cons u rest =>
      obtain ⟨hinv2, hdec⟩ := bfs_step hwf hinv hq
      simp only [bfsLoop, hq]
      exact ih _ hinv2 (by omega)

/-- The BFS initial state satisfies the invariant and its measure fits the
fuel `2 * N + 1`. -/
theorem bfsRun_init {n : Nat} {nbrs : Nat → List Nat} {s : Nat}
    (hs : 1 ≤ s ∧ s ≤ n) :
    BFSInv n nbrs s
      { parents := fun v => if 1 ≤ v ∧ v ≤ n then some none else none
        levels := fun v =>
          if v = s then some (0 : Int)
          else if 1 ≤ v ∧ v ≤ n then some (-1) else none
        queue := [s] } ∧
    bfsMeasure n
      { parents := fun v => if 1 ≤ v ∧ v ≤ n then some none else none
        levels := fun v =>
          if v = s then some (0 : Int)
          else if 1 ≤ v ∧ v ≤ n then some (-1) else none
        queue := [s] } ≤ 2 * n + 1 := by
  have hvs : visB
      { parents := fun v => if 1 ≤ v ∧ v ≤ n then some none else none
        levels := fun v =>
          if v = s then some (0 : Int)
          else if 1 ≤ v ∧ v ≤ n then some (-1) else none
        queue := [s] } s = true := by
    unfold visB
    simp
  constructor
  · refine ⟨?_, ?_, ?_, ?_, ?_, ?_, hvs, ?_⟩
    · intro v
      by_cases hv : v = s
      · subst hv
        simpa using hs
      · by_cases hin : 1 ≤ v ∧ v ≤ n <;> simp [hv, hin]
    · intro v l hl
      simp only at hl
      by_cases hv : v = s
      · subst hv
        rw [if_pos rfl] at hl
        refine Or.inr ⟨0, ?_, distSpec_zero_self⟩
        have := Option.some.inj hl
        omega
      · rw [if_neg hv] at hl
        by_cases hin : 1 ≤ v ∧ v ≤ n
        · rw [if_pos hin] at hl
          exact Or.inl (Option.some.inj hl).symm
        · rw [if_neg hin] at hl
          exact Option.noConfusion hl
    · intro u hu
      have : u = s := List.mem_singleton.1 hu
      subst this
      exact hvs
    · exact List.pairwise_singleton _ s
    · intro a ha b hb
      have ha' : a = s := List.mem_singleton.1 ha
      have hb' : b = s := List.mem_singleton.1 hb
      subst ha'
      subst hb'
      omega
    · intro u hu hnq v hv
      exfalso
      rw [visB_true_iff] at hu
      obtain ⟨l, hl, hl1⟩ := hu
      simp only at hl
      by_cases hus : u = s
      · exact hnq (by rw [hus]; exact List.mem_singleton_self s)
      · rw [if_neg hus] at hl
        by_cases hin : 1 ≤ u ∧ u ≤ n
        · rw [if_pos hin] at hl
          exact hl1 (Option.some.inj hl).symm
        · rw [if_neg hin] at hl
          exact Option.noConfusion hl
    · exact List.nodup_singleton s
  · unfold bfsMeasure UnvisCount
    have hsub : ((Finset.Icc 1 n).filter (fun v => visB
        { parents := fun v => if 1 ≤ v ∧ v ≤ n then some none else none
          levels := fun v =>
            if v = s then some (0 : Int)
            else if 1 ≤ v ∧ v ≤ n then some (-1) else none
          queue := [s] } v = false)) ⊆ Finset.Icc 1 n :=
      Finset.filter_subset _ _
    have hcard := Finset.card_le_card hsub
    rw [Nat.card_Icc] at hcard
    simp only [List.length_singleton]
    omega

/-- After a full BFS run from an in-range start, every reachable vertex is
marked visited. -/
theorem bfsRun_reach_visited {n : Nat} {nbrs : Nat → List Nat} {s : Nat}
    (hwf : NbrsWF n nbrs) (hs : 1 ≤ s ∧ s ≤ n) :
    BFSInv n nbrs s (bfsRun n nbrs s) ∧ (bfsRun n nbrs s).queue = [] ∧
    (∀ v, Reachable nbrs s v → visB (bfsRun n nbrs s) v = true) := by
  obtain ⟨hinv0, hmeas0⟩ := @bfsRun_init n nbrs s hs
  obtain ⟨hinv1, hqe1⟩ := bfsLoop_final hwf (2 * n + 1) _ hinv0 hmeas0
  have hinv : BFSInv n nbrs s (bfsRun n nbrs s) := hinv1
  have hqe : (bfsRun n nbrs s).queue = [] := hqe1
  refine ⟨hinv, hqe, ?_⟩
  have hstep : ∀ k v, v ∈ reachK nbrs s k → visB (bfsRun n nbrs s) v = true := by
    intro k
    induction k with
    | zero =>
      intro v hv
      rw [reachK_zero, Finset.mem_singleton] at hv
      subst hv
      exact hinv.2.2.2.2.2.2.1
    | succ k ih =>
      intro v hv
      rcases mem_reachK_succ.1 hv with h | ⟨u, hu, hvnb⟩
      · exact ih v h
      · have huvis := ih u hu
        have hunotq : u ∉ (bfsRun n nbrs s).queue := by
          rw [hqe]
          exact List.not_mem_nil u
        exact hinv.2.2.2.2.2.1 u huvis hunotq v hvnb
  rintro v ⟨k, hk⟩
  exact hstep k v hk

/-- Full characterization of the levels dict after a BFS run: keys are
`[1, N]`, the start maps to 0, `-1` marks exactly the unreachable vertices,
and every reachable vertex maps to its hop distance. -/
theorem bfsRun_levels {n : Nat} {nbrs : Nat → List Nat} {s : Nat}
    (hwf : NbrsWF n nbrs) (hs : 1 ≤ s ∧ s ≤ n) :
    (∀ v, ((bfsRun n nbrs s).levels v).isSome ↔ (1 ≤ v ∧ v ≤ n)) ∧
    (bfsRun n nbrs s).levels s = some 0 ∧
    (∀ v, 1 ≤ v → v ≤ n →
      ((bfsRun n nbrs s).levels v = some (-1) ↔ ¬ Reachable nbrs s v)) ∧
    (∀ v k, distSpec nbrs s v k → (bfsRun n nbrs s).levels v = some (k : Int)) := by
  obtain ⟨hinv, hqe, hreach⟩ := bfsRun_reach_visited hwf hs
  have hdom := hinv.1
  have hval := hinv.2.1
  have hdist : ∀ v k, distSpec nbrs s v k →
      (bfsRun n nbrs s).levels v = some (k : Int) := by
    intro v k hd
    have hvis := hreach v ⟨k, hd.1⟩
    rw [visB_true_iff] at hvis
    obtain ⟨l, hl, hl1⟩ := hvis
    rcases hval v l hl with h | ⟨k2, hk2, hd2⟩
    · exact absurd h hl1
    · have := distSpec_unique hd hd2
      subst this
      rw [hl, hk2]
  refine ⟨hdom, ?_, ?_, hdist⟩
  · have := hdist s 0 distSpec_zero_self
    simpa using this
  · intro v h1 h2
    constructor
    · intro hlm hr
      have hvis := hreach v hr
      rw [visB_true_iff] at hvis
      obtain ⟨l, hl, hl1⟩ := hvis
      rw [hlm] at hl
      exact hl1 (Option.some.inj hl).symm
    · intro hnr
      obtain ⟨l, hl⟩ := Option.isSome_iff_exists.1 ((hdom v).2 ⟨h1, h2⟩)
      rcases hval v l hl with h | ⟨k, hk, hd⟩
      · rw [hl, h]
      · exact absurd ⟨k, hd.1⟩ hnr

/-- Reachability depends only on the neighbor sets over `[1, N]`. -/
theorem reachK_congr {n : Nat} {nbrs1 nbrs2 : Nat → List Nat} {s : Nat}
    (hwf1 : NbrsWF n nbrs1) (hs : 1 ≤ s ∧ s ≤ n)
    (hag : ∀ u, 1 ≤ u → u ≤ n → ∀ x, x ∈ nbrs1 u ↔ x ∈ nbrs2 u) :
    ∀ k, reachK nbrs1 s k = reachK nbrs2 s k := by
  intro k
  induction k with
  | zero => rfl
  | succ k ih =>
    have hsub := reachK_subset_Icc hwf1 hs k
    ext v
    rw [mem_reachK_succ, mem_reachK_succ, ih]
    constructor
    · rintro (h | ⟨u, hu, hv⟩)
      · exact Or.inl h
      · rw [← ih] at hu
        have hui := Finset.mem_Icc.1 (hsub hu)
        rw [ih] at hu
        exact Or.inr ⟨u, hu, (hag u hui.1 hui.2 v).1 hv⟩
    · rintro (h | ⟨u, hu, hv⟩)
      · exact Or.inl h
      · rw [← ih] at hu
        have hui := Finset.mem_Icc.1 (hsub hu)
        rw [ih] at hu
        exact Or.inr ⟨u, hu, (hag u hui.1 hui.2 v).2 hv⟩

/-- BFS level dicts are identical for any two neighbor functions with the
same neighbor sets over `[1, N]`. -/
theorem bfsRun_levels_congr {n : Nat} {nbrs1 nbrs2 : Nat → List Nat} {s : Nat}
    (hwf1 : NbrsWF n nbrs1) (hwf2 : NbrsWF n nbrs2) (hs : 1 ≤ s ∧ s ≤ n)
    (hag : ∀ u, 1 ≤ u → u ≤ n → ∀ x, x ∈ nbrs1 u ↔ x ∈ nbrs2 u) :
    (bfsRun n nbrs1 s).levels = (bfsRun n nbrs2 s).levels := by
  obtain ⟨hdom1, _, hneg1, hdist1⟩ := bfsRun_levels hwf1 hs
  obtain ⟨hdom2, _, hneg2, hdist2⟩ := bfsRun_levels hwf2 hs
  have hrk := reachK_congr hwf1 hs hag
  have hreach_iff : ∀ v, Reachable nbrs1 s v ↔ Reachable nbrs2 s v := by
    intro v
    constructor
    · rintro ⟨k, hk⟩
      exact ⟨k, by rw [← hrk k]; exact hk⟩
    · rintro ⟨k, hk⟩
      exact ⟨k, by rw [hrk k]; exact hk⟩
  funext v
  by_cases hin : 1 ≤ v ∧ v ≤ n
  · by_cases hr : Reachable nbrs1 s v
    · obtain ⟨k, hk⟩ := distSpec_of_reachable hr
      have hk2 : distSpec nbrs2 s v k := by
        refine ⟨by rw [← hrk k]; exact hk.1, ?_⟩
        intro j hj
        rw [← hrk j]
        exact hk.2 j hj
      rw [hdist1 v k hk, hdist2 v k hk2]
    · rw [(hneg1 v hin.1 hin.2).2 hr,
        (hneg2 v hin.1 hin.2).2 (fun h => hr ((hreach_iff v).2 h))]
  · rw [Option.not_isSome_iff_eq_none.1 (fun h => hin ((hdom1 v).1 h)),
      Option.not_isSome_iff_eq_none.1 (fun h => hin ((hdom2 v).1 h))]

/-- **C1**: for every graph with vertex count `N ≥ 1` built from any edge
list and every start `s ∈ [1, N]`, `breadth_first_search(s)` succeeds under
both representations and returns the same levels dict, in which
`levels[s] = 0`, `levels[v] = -1` exactly for the in-range vertices with no
path from `s`, and `levels[v]` is the shortest hop count for every vertex
at hop distance `k`. -/
theorem C1_bfs_levels (n : Nat) (es : List (Nat × Nat)) (s : Nat)
    (hn : 1 ≤ n) (hs : 1 ≤ s ∧ s ≤ n) :
    ∃ mL mM : SearchMaps,
      (Graph.build AdjacencyList n es).breadth_first_search s = Except.ok mL ∧
      (Graph.build AdjacencyMatrix n es).breadth_first_search s = Except.ok mM ∧
      mL.levels = mM.levels ∧
      mL.levels s = some 0 ∧
      (∀ v, 1 ≤ v → v ≤ n →
        (mL.levels v = some (-1) ↔
          ¬ Reachable (Graph.build AdjacencyList n es).nbrs s v)) ∧
      (∀ v k, distSpec (Graph.build AdjacencyList n es).nbrs s v k →
        mL.levels v = some (k : Int)) := by
  have hnl := Graph.build_num_vertices AdjacencyList n es
  have hnm := Graph.build_num_vertices AdjacencyMatrix n es
  have hwfL := build_nbrs_wfL n es
  have hwfM := build_nbrs_wfM n es
  have hag : ∀ u, 1 ≤ u → u ≤ n →
      ∀ x, x ∈ (Graph.build AdjacencyList n es).nbrs u ↔
        x ∈ (Graph.build AdjacencyMatrix n es).nbrs u := fun u hu1 _ =>
    nbrs_agree (build_wfL n es) (build_wfM n es) (build_agree n es) hu1
  obtain ⟨hdom, hzero, hneg, hdist⟩ := bfsRun_levels hwfL hs
  refine ⟨_, _, Graph.bfs_of_bounds (by rw [hnl]; exact hs),
    Graph.bfs_of_bounds (by rw [hnm]; exact hs), ?_, ?_, ?_, ?_⟩
  · show (bfsRun (Graph.build AdjacencyList n es).num_vertices
        (Graph.build AdjacencyList n es).nbrs s).levels =
      (bfsRun (Graph.build AdjacencyMatrix n es).num_vertices
        (Graph.build AdjacencyMatrix n es).nbrs s).levels
    rw [hnl, hnm]
    exact bfsRun_levels_congr hwfL hwfM hs hag
  · show (bfsRun (Graph.build AdjacencyList n es).num_vertices
        (Graph.build AdjacencyList n es).nbrs s).levels s = some 0
    rw [hnl]
    exact hzero
  · show ∀ v, 1 ≤ v → v ≤ n → _
    intro v h1 h2
    show (bfsRun (Graph.build AdjacencyList n es).num_vertices
        (Graph.build AdjacencyList n es).nbrs s).levels v = some (-1) ↔ _
    rw [hnl]
    exact hneg v h1 h2
  · intro v k hd
    show (bfsRun (Graph.build AdjacencyList n es).num_vertices
        (Graph.build AdjacencyList n es).nbrs s).levels v = some (k : Int)
    rw [hnl]
    exact hdist v k hd

/-- Witness for C1 at `N = 3`, edges `{(1,2)}`, start 1. -/
theorem C1_bfs_levels_witness :
    (1 ≤ 3) ∧ (1 ≤ 1 ∧ 1 ≤ 3) ∧
    ∃ mL mM : SearchMaps,
      (Graph.build AdjacencyList 3 [(1, 2)]).breadth_first_search 1 = Except.ok mL ∧
      (Graph.build AdjacencyMatrix 3 [(1, 2)]).breadth_first_search 1 = Except.ok mM ∧
      mL.levels = mM.levels ∧
      mL.levels 1 = some 0 ∧
      (∀ v, 1 ≤ v → v ≤ 3 →
        (mL.levels v = some (-1) ↔
          ¬ Reachable (Graph.build AdjacencyList 3 [(1, 2)]).nbrs 1 v)) ∧
      (∀ v k, distSpec (Graph.build AdjacencyList 3 [(1, 2)]).nbrs 1 v k →
        mL.levels v = some (k : Int)) :=
  ⟨by decide, ⟨by decide, by decide⟩,
    C1_bfs_levels 3 [(1, 2)] 1 (by decide) ⟨by decide, by decide⟩⟩

theorem foldl_max_mem : ∀ (xs : List Int) (x : Int), xs.foldl max x ∈ x :: xs := by
  intro xs
  induction xs with
  | nil => intro x; exact List.mem_singleton_self x
  | cons z zs ih =>
    intro x
    have h := ih (max x z)
    rcases List.mem_cons.1 h with h2 | h2
    · rw [List.foldl_cons, h2]
      rcases max_choice x z with h3 | h3 <;> rw [h3]
      · exact List.mem_cons_self x (z :: zs)
      · exact List.mem_cons_of_mem x (List.mem_cons_self z zs)
    · rw [List.foldl_cons]
      exact List.mem_cons_of_mem x (List.mem_cons_of_mem z h2)

theorem foldl_max_le : ∀ (xs : List Int) (x : Int), ∀ y ∈ x :: xs, y ≤ xs.foldl max x := by
  intro xs
  induction xs with
  | nil =>
    intro x y hy
    rw [List.mem_singleton.1 hy]
    exact le_refl x
  | cons z zs ih =>
    intro x y hy
    rw [List.foldl_cons]
    rcases List.mem_cons.1 hy with h2 | h2
    · subst h2
      exact le_trans (le_max_left y z) (ih (max y z) (max y z) (List.mem_cons_self _ zs))
    · rcases List.mem_cons.1 h2 with h3 | h3
      · subst h3
        exact le_trans (le_max_right x y) (ih (max x y) (max x y) (List.mem_cons_self _ zs))
      · exact ih (max x z) y (List.mem_cons_of_mem _ h3)

theorem mem_levelsValues {n : Nat} {levels : Nat → Option Int} {x : Int} :
    x ∈ levelsValues n levels ↔ ∃ v, 1 ≤ v ∧ v ≤ n ∧ levels v = some x := by
  unfold levelsValues
  rw [List.mem_filterMap]
  constructor
  · rintro ⟨i, hi, hx⟩
    rw [List.mem_range] at hi
    exact ⟨i + 1, by omega, by omega, hx⟩
  · rintro ⟨v, h1, h2, hx⟩
    refine ⟨v - 1, List.mem_range.2 (by omega), ?_⟩
    rw [show v - 1 + 1 = v from by omega]
    exact hx

theorem maxFold_ge_acc (cmF : Nat → Int) :
    ∀ (l : List Nat) (acc : Int),
      acc ≤ l.foldl (fun m i => if m < cmF i then cmF i else m) acc := by
  intro l
  induction l with
  | nil => intro acc; exact le_refl acc
  | cons z zs ih =>
    intro acc
    rw [List.foldl_cons]
    refine le_trans ?_ (ih _)
    by_cases h : acc < cmF z
    · rw [if_pos h]; omega
    · rw [if_neg h]

theorem maxFold_ge_mem (cmF : Nat → Int) :
    ∀ (l : List Nat) (acc : Int) (i : Nat), i ∈ l →
      cmF i ≤ l.foldl (fun m i => if m < cmF i then cmF i else m) acc := by
  intro l
  induction l with
  | nil => intro acc i hi; exact absurd hi (List.not_mem_nil i)
  | cons z zs ih =>
    intro acc i hi
    rw [List.foldl_cons]
    rcases List.mem_cons.1 hi with h2 | h2
    · subst h2
      refine le_trans ?_ (maxFold_ge_acc cmF zs _)
      by_cases h : acc < cmF i
      · rw [if_pos h]
      · rw [if_neg h]; omega
    · exact ih _ i h2

theorem maxFold_cases (cmF : Nat → Int) :
    ∀ (l : List Nat) (acc : Int),
      l.foldl (fun m i => if m < cmF i then cmF i else m) acc = acc ∨
      ∃ i ∈ l, l.foldl (fun m i => if m < cmF i then cmF i else m) acc = cmF i := by
  intro l
  induction l with
  | nil => intro acc; exact Or.inl rfl
  | cons z zs ih =>
    intro acc
    rw [List.foldl_cons]
    by_cases h : acc < cmF z
    · rw [if_pos h]
      rcases ih (cmF z) with h2 | ⟨i, hi, h2⟩
      · exact Or.inr ⟨z, List.mem_cons_self z zs, h2⟩
      · exact Or.inr ⟨i, List.mem_cons_of_mem z hi, h2⟩
    · rw [if_neg h]
      rcases ih acc with h2 | ⟨i, hi, h2⟩
      · exact Or.inl h2
      · exact Or.inr ⟨i, List.mem_cons_of_mem z hi, h2⟩

/-- One BFS run's `max(levels.values())`: nonnegative, achieved by some
vertex at its hop distance from the run's start, and an upper bound on all
hop distances from the start. -/
theorem perRunMax {n : Nat} {nbrs : Nat → List Nat} {s : Nat}
    (hwf : NbrsWF n nbrs) (hs : 1 ≤ s ∧ s ≤ n) :
    0 ≤ pyMaxInt (levelsValues n (bfsRun n nbrs s).levels) ∧
    (∃ v k, distSpec nbrs s v k ∧
      pyMaxInt (levelsValues n (bfsRun n nbrs s).levels) = (k : Int)) ∧
    (∀ v k, distSpec nbrs s v k →
      (k : Int) ≤ pyMaxInt (levelsValues n (bfsRun n nbrs s).levels)) := by
  obtain ⟨hinv, hqe, hreach⟩ := bfsRun_reach_visited hwf hs
  obtain ⟨hdom, hzero, hneg, hdist⟩ := bfsRun_levels hwf hs
  have hval := hinv.2.1
  have h0mem : (0 : Int) ∈ levelsValues n (bfsRun n nbrs s).levels :=
    mem_levelsValues.2 ⟨s, hs.1, hs.2, hzero⟩
  obtain ⟨x, xs, hL⟩ : ∃ x xs, levelsValues n (bfsRun n nbrs s).levels = x :: xs := by
    cases hL : levelsValues n (bfsRun n nbrs s).levels with
    | nil =>
      rw [hL] at h0mem
      exact absurd h0mem (List.not_mem_nil 0)
    | cons x xs => exact ⟨x, xs, rfl⟩
  have hmax_mem : pyMaxInt (levelsValues n (bfsRun n nbrs s).levels) ∈
      levelsValues n (bfsRun n nbrs s).levels := by
    rw [hL]
    exact foldl_max_mem xs x
  have hmax_le : ∀ y ∈ levelsValues n (bfsRun n nbrs s).levels,
      y ≤ pyMaxInt (levelsValues n (bfsRun n nbrs s).levels) := by
    rw [hL]
    exact foldl_max_le xs x
  have h0 : 0 ≤ pyMaxInt (levelsValues n (bfsRun n nbrs s).levels) :=
    hmax_le 0 h0mem
  refine ⟨h0, ?_, ?_⟩
  · obtain ⟨v, hv1, hv2, hvl⟩ := mem_levelsValues.1 hmax_mem
    rcases hval v _ hvl with h | ⟨k, hk, hd⟩
    · omega
    · exact ⟨v, k, hd, hk⟩
  · intro v k hd
    have hvin : v ∈ Finset.Icc 1 n := reachK_subset_Icc hwf hs k hd.1
    have hvin2 := Finset.mem_Icc.1 hvin
    exact hmax_le (k : Int)
      (mem_levelsValues.2 ⟨v, hvin2.1, hvin2.2, hdist v k hd⟩)

/-- The diameter fold over all BFS runs: nonnegative, achieved by an ordered
pair at its distance (or zero on the empty graph), and an upper bound on
all pairwise distances. -/
theorem diameter_spec {n : Nat} {nbrs : Nat → List Nat} (hwf : NbrsWF n nbrs)
    (d : Int)
    (hd : d = (List.range n).foldl
      (fun max_dist i =>
        let st := bfsRun n nbrs (i + 1)
        let current_max := pyMaxInt (levelsValues n st.levels)
        if max_dist < current_max then current_max else max_dist) 0) :
    0 ≤ d ∧
    ((n = 0 ∧ d = 0) ∨
      ∃ u v k, 1 ≤ u ∧ u ≤ n ∧ distSpec nbrs u v k ∧ d = (k : Int)) ∧
    (∀ u v k, 1 ≤ u → u ≤ n → distSpec nbrs u v k → (k : Int) ≤ d) := by
  have hd' : d = (List.range n).foldl
      (fun m i => if m < pyMaxInt (levelsValues n (bfsRun n nbrs (i + 1)).levels)
        then pyMaxInt (levelsValues n (bfsRun n nbrs (i + 1)).levels) else m) 0 := hd
  have hub : ∀ u v k, 1 ≤ u → u ≤ n → distSpec nbrs u v k → (k : Int) ≤ d := by
    intro u v k h1 h2 hdk
    obtain ⟨i, rfl⟩ : ∃ i, u = i + 1 := ⟨u - 1, by omega⟩
    have hi : i ∈ List.range n := List.mem_range.2 (by omega)
    have hbound := maxFold_ge_mem
      (fun i => pyMaxInt (levelsValues n (bfsRun n nbrs (i + 1)).levels))
      (List.range n) 0 i hi
    rw [← hd'] at hbound
    have hper := (perRunMax hwf ⟨h1, h2⟩).2.2 v k hdk
    exact le_trans hper hbound
  refine ⟨by rw [hd']; exact maxFold_ge_acc _ (List.range n) 0, ?_, hub⟩
  rcases maxFold_cases
      (fun i => pyMaxInt (levelsValues n (bfsRun n nbrs (i + 1)).levels))
      (List.range n) 0 with h | ⟨i, hi, h⟩
  · rw [← hd'] at h
    cases n with
    | zero => exact Or.inl ⟨rfl, h⟩
    | succ m =>
      refine Or.inr ⟨1, 1, 0, le_refl 1, by omega, distSpec_zero_self, ?_⟩
      rw [h]
      rfl
  · rw [← hd'] at h
    rw [List.mem_range] at hi
    obtain ⟨v, k, hdk, hk⟩ := (perRunMax hwf
      (⟨by omega, by omega⟩ : 1 ≤ i + 1 ∧ i + 1 ≤ n)).2.1
    exact Or.inr ⟨i + 1, v, k, by omega, by omega, hdk, by rw [h]; exact hk⟩

/-- **C7**: under both representations, `get_diameter` returns the maximum
over ordered vertex pairs `(u, v)` joined by a path of the hop distance from
`u` to `v` — nonnegative, achieved by such a pair (or 0 on the empty graph),
an upper bound on all such distances, with unreachable pairs contributing
nothing — and on a single-vertex edgeless graph it returns 0. -/
theorem C7_diameter (n : Nat) (es : List (Nat × Nat)) :
    (0 ≤ (Graph.build AdjacencyList n es).get_diameter ∧
      ((n = 0 ∧ (Graph.build AdjacencyList n es).get_diameter = 0) ∨
        ∃ u v k, 1 ≤ u ∧ u ≤ n ∧
          distSpec (Graph.build AdjacencyList n es).nbrs u v k ∧
          (Graph.build AdjacencyList n es).get_diameter = (k : Int)) ∧
      (∀ u v k, 1 ≤ u → u ≤ n →
        distSpec (Graph.build AdjacencyList n es).nbrs u v k →
        (k : Int) ≤ (Graph.build AdjacencyList n es).get_diameter)) ∧
    (0 ≤ (Graph.build AdjacencyMatrix n es).get_diameter ∧
      ((n = 0 ∧ (Graph.build AdjacencyMatrix n es).get_diameter = 0) ∨
        ∃ u v k, 1 ≤ u ∧ u ≤ n ∧
          distSpec (Graph.build AdjacencyMatrix n es).nbrs u v k ∧
          (Graph.build AdjacencyMatrix n es).get_diameter = (k : Int)) ∧
      (∀ u v k, 1 ≤ u → u ≤ n →
        distSpec (Graph.build AdjacencyMatrix n es).nbrs u v k →
        (k : Int) ≤ (Graph.build AdjacencyMatrix n es).get_diameter)) ∧
    (Graph.build AdjacencyList 1 []).get_diameter = 0 ∧
    (Graph.build AdjacencyMatrix 1 []).get_diameter = 0 := by
  have hgdL : (Graph.build AdjacencyList n es).get_diameter =
      (List.range n).foldl
        (fun max_dist i =>
          let st := bfsRun n (Graph.build AdjacencyList n es).nbrs (i + 1)
          let current_max := pyMaxInt (levelsValues n st.levels)
          if max_dist < current_max then current_max else max_dist) 0 := by
    unfold Graph.get_diameter
    rw [Graph.build_num_vertices]
  have hgdM : (Graph.build AdjacencyMatrix n es).get_diameter =
      (List.range n).foldl
        (fun max_dist i =>
          let st := bfsRun n (Graph.build AdjacencyMatrix n es).nbrs (i + 1)
          let current_max := pyMaxInt (levelsValues n st.levels)
          if max_dist < current_max then current_max else max_dist) 0 := by
    unfold Graph.get_diameter
    rw [Graph.build_num_vertices]
  exact ⟨diameter_spec (build_nbrs_wfL n es) _ hgdL,
    diameter_spec (build_nbrs_wfM n es) _ hgdM, rfl, rfl⟩
